import Mathlib

/-!
Shallow embedding of the grid shortest-path / region engine of the
advent-of-code-2024 repository, together with proofs settling the claims
about its specification.

The embedding follows the Rust sources:
  * `Day16b` embeds `src/rust/src/day16b.rs` (oriented-maze Dijkstra with
    tie-preserving predecessor sets and optimal-path-cell reconstruction);
  * `Day18b` embeds `src/rust/src/day18b.rs` (unit-weight Dijkstra with an
    early exit when the goal is first reached);
  * `Day12` embeds `src/rust/src/day12a.rs` and `src/rust/src/day12b.rs`
    (flood-fill region analysis with two perimeter metrics).

Machine integers (`u64`, `i64`, `usize`) are modelled as `Nat`/`Int`; all
arithmetic performed by the programs on realistic grids is far below the
wrap-around points, so overflow is not modelled.  Rust `Vec` values are
modelled as `List`; indexing uses `List.getD`, whose default is only ever
reached in states the programs cannot construct.  Fallible Rust code
(`Result<T, Error>`, where `Error` wraps a message string) is modelled as
`Except String`.  Loops whose termination is a semantic property of the
data (the Dijkstra worklist, the recursive flood fill) are given explicit
fuel; lemmas discharge the fuel on every real input.
-/

namespace Day16b

/-- `Point` from day16b.rs: a pair of `i64` coordinates. -/
structure Point where
  x : Int
  y : Int
deriving DecidableEq, Repr

instance : Add Point := ⟨fun a b => ⟨a.x + b.x, a.y + b.y⟩⟩

/-- `Cell` from day16b.rs. -/
inductive Cell where
  | Empty : Cell
  | Wall : Cell
deriving DecidableEq, Repr

/-- `Direction` from day16b.rs. -/
inductive Direction where
  | Left : Direction
  | Right : Direction
  | Up : Direction
  | Down : Direction
deriving DecidableEq, Repr

/-- `Direction::index` from day16b.rs. -/
def Direction.index : Direction → Nat
  | .Left => 0
  | .Right => 1
  | .Up => 2
  | .Down => 3

/-- `Direction::to_vector` from day16b.rs. -/
def Direction.to_vector : Direction → Point
  | .Left => ⟨-1, 0⟩
  | .Right => ⟨1, 0⟩
  | .Up => ⟨0, -1⟩
  | .Down => ⟨0, 1⟩

/-- `Direction::left` from day16b.rs: rotate 90 degrees counterclockwise. -/
def Direction.left : Direction → Direction
  | .Left => .Down
  | .Right => .Up
  | .Up => .Left
  | .Down => .Right

/-- `Direction::right` from day16b.rs: rotate 90 degrees clockwise. -/
def Direction.right : Direction → Direction
  | .Left => .Up
  | .Right => .Down
  | .Up => .Right
  | .Down => .Left

/-- `State` from day16b.rs: the parsed maze.  `state` is the row-major cell
vector of length `width * height`. -/
structure State where
  width : Nat
  height : Nat
  state : List Cell
  start : Point
  goal : Point

/-- `GraphNode` from day16b.rs: a Dijkstra vertex, position plus facing. -/
structure GraphNode where
  position : Point
  direction : Direction
deriving DecidableEq, Repr

/-- `GraphNode::index` from day16b.rs: dense index
`direction_index * width * height + y * width + x`.  The `as usize` casts are
modelled by `Int.toNat`; the program only ever indexes nodes whose
coordinates are in bounds (hence nonnegative). -/
def GraphNode.index (n : GraphNode) (width height : Nat) : Nat :=
  n.direction.index * width * height + n.position.y.toNat * width + n.position.x.toNat

/-- `PathElement` from day16b.rs: the per-vertex record of the engine. -/
inductive PathElement where
  | Start : PathElement
  | Element (distance : Nat) (previous : List GraphNode) : PathElement
deriving DecidableEq, Repr

/-- `State::get` from day16b.rs: total bounds-checked access, out-of-bounds
coordinates yield `Cell::Wall`. -/
def State.get (s : State) (p : Point) : Cell :=
  if 0 ≤ p.x ∧ 0 ≤ p.y ∧ p.x.toNat < s.width ∧ p.y.toNat < s.height then
    s.state.getD (p.y.toNat * s.width + p.x.toNat) Cell.Wall
  else
    Cell.Wall

/-- `State::effective_distance` from day16b.rs: `0` for the seeded start
record, the stored distance for ordinary records, `none` (infinity) for
absent records. -/
def effective_distance : Option PathElement → Option Nat
  | none => none
  | some PathElement.Start => some 0
  | some (PathElement.Element d _) => some d

/-- `State::neighbors` from day16b.rs, with the callback defunctionalised
into the list of `(node, weight)` pairs passed to it, in call order:
forward move (weight 1, only if the target cell is empty), then the two
rotations (weight 1000 each). -/
def State.neighbors (s : State) (x : GraphNode) : List (GraphNode × Nat) :=
  (if s.get (x.position + x.direction.to_vector) = Cell.Empty then
      [(⟨x.position + x.direction.to_vector, x.direction⟩, 1)]
    else []) ++
  [(⟨x.position, x.direction.left⟩, 1000), (⟨x.position, x.direction.right⟩, 1000)]

/-- The relaxation step of `State::count_all_tiles_on_shortest_path`
(day16b.rs lines 307-342), applied to the record of a neighbor that is
still in the frontier.  `g` is the neighbor's current record, `candidate`
the proposed distance, `u` the vertex just extracted. -/
def relax (g : Option PathElement) (candidate : Nat) (u : GraphNode) :
    Except String (Option PathElement) :=
  match effective_distance g with
  | some cur =>
      if candidate < cur then
        .ok (some (.Element candidate [u]))
      else if candidate = cur then
        match g with
        | some (.Element d prev) => .ok (some (.Element d (prev ++ [u])))
        | some .Start =>
            .error "found start element when expected a list of at least one previous element"
        | none =>
            .error "found no path element when expected a list of at least one previous element"
      else .ok g
  | none => .ok (some (.Element candidate [u]))

end Day16b

namespace Engine

/-- The frontier comparator shared by day16b.rs (lines 281-298), day18b.rs
(lines 186-203) and day20a.rs (lines 222-239): absent records sort below
present ones, and present distances compare reversed (`b.cmp(&a)`), so the
maximum under this order is a vertex of minimum known distance. -/
def cmpDist : Option Nat → Option Nat → Ordering
  | none, none => .eq
  | none, some _ => .lt
  | some _, none => .gt
  | some a, some b => compare b a

/-- `a ≤ b` on tentative distances, `none` being infinity. -/
def oleDist : Option Nat → Option Nat → Prop
  | _, none => True
  | none, some _ => False
  | some a, some b => a ≤ b

instance : DecidablePred fun p : Option Nat × Option Nat => oleDist p.1 p.2 := by
  intro p
  rcases p with ⟨_ | a, _ | b⟩ <;> simp [oleDist] <;> infer_instance

/-- Rust's `Iterator::max_by` over `queue.iter().enumerate()`: a left fold
that keeps the running maximum, a later element winning ties (Rust returns
the last maximal element). -/
def maxByAux {α : Type} (distOf : α → Option Nat) :
    Nat → Option (Nat × α) → List α → Option (Nat × α)
  | _, acc, [] => acc
  | i, acc, x :: rest =>
      let acc' :=
        match acc with
        | none => some (i, x)
        | some (j, m) =>
            if cmpDist (distOf m) (distOf x) = .gt then some (j, m) else some (i, x)
      maxByAux distOf (i + 1) acc' rest

/-- `queue.iter().enumerate().max_by(...)` as used by all three Dijkstra
loops. -/
def maxBy {α : Type} (distOf : α → Option Nat) (l : List α) : Option (Nat × α) :=
  maxByAux distOf 0 none l

/-- Rust's `Vec::swap_remove(i)`: overwrite position `i` with the last
element, then drop the last element. -/
def swapRemove {α : Type} (l : List α) (i : Nat) : List α :=
  match l.getLast? with
  | none => []
  | some last => (l.set i last).dropLast

theorem oleDist_refl (a : Option Nat) : oleDist a a := by
  rcases a with _ | a <;> simp [oleDist]

theorem oleDist_trans {a b c : Option Nat} (h1 : oleDist a b) (h2 : oleDist b c) :
    oleDist a c := by
  rcases a with _ | a <;> rcases b with _ | b <;> rcases c with _ | c <;>
    simp [oleDist] at * <;> omega

theorem oleDist_of_cmp_gt {a b : Option Nat} (h : cmpDist a b = .gt) : oleDist a b := by
  rcases a with _ | a <;> rcases b with _ | b <;> simp [cmpDist, oleDist] at *
  rcases Nat.lt_trichotomy a b with h' | h' | h' <;>
    simp [compare, compareOfLessAndEq, h'] at h ⊢ <;> omega

theorem oleDist_of_cmp_not_gt {a b : Option Nat} (h : cmpDist a b ≠ .gt) : oleDist b a := by
  rcases a with _ | a <;> rcases b with _ | b <;> simp [cmpDist, oleDist] at *
  rcases Nat.lt_trichotomy a b with h' | h' | h' <;>
    simp [compare, compareOfLessAndEq, h'] at h ⊢ <;> omega

/-- The element kept by `maxByAux` is below (in distance) everything in the
accumulator and everything scanned so far. -/
theorem maxByAux_min {α : Type} (distOf : α → Option Nat) :
    ∀ (l : List α) (i : Nat) (acc : Option (Nat × α)) (j : Nat) (m : α),
      maxByAux distOf i acc l = some (j, m) →
      (∀ jm : Nat × α, acc = some jm → oleDist (distOf m) (distOf jm.2)) ∧
      ∀ y ∈ l, oleDist (distOf m) (distOf y) := by
  intro l
  induction l with
  | nil =>
    intro i acc j m h
    simp [maxByAux] at h
    subst h
    refine ⟨fun jm hjm => ?_, by simp⟩
    cases hjm
    exact oleDist_refl _
  | cons x rest ih =>
    intro i acc j m h
    simp only [maxByAux] at h
    rcases acc with _ | ⟨jq, q⟩
    · have h' := ih (i + 1) (some (i, x)) j m h
      refine ⟨(fun jm hjm => nomatch hjm), ?_⟩
      intro y hy
      rcases List.mem_cons.1 hy with rfl | hy'
      · exact h'.1 (i, y) rfl
      · exact h'.2 y hy'
    · by_cases hc : cmpDist (distOf q) (distOf x) = .gt
      · simp only [hc, if_pos rfl] at h
        have h' := ih (i + 1) (some (jq, q)) j m h
        have hmq : oleDist (distOf m) (distOf q) := h'.1 (jq, q) rfl
        refine ⟨(fun jm hjm => by cases hjm; exact hmq), ?_⟩
        intro y hy
        rcases List.mem_cons.1 hy with rfl | hy'
        · exact oleDist_trans hmq (oleDist_of_cmp_gt hc)
        · exact h'.2 y hy'
      · simp only [if_neg hc] at h
        have h' := ih (i + 1) (some (i, x)) j m h
        have hmx : oleDist (distOf m) (distOf x) := h'.1 (i, x) rfl
        refine ⟨(fun jm hjm => by cases hjm; exact oleDist_trans hmx (oleDist_of_cmp_not_gt hc)), ?_⟩
        intro y hy
        rcases List.mem_cons.1 hy with rfl | hy'
        · exact hmx
        · exact h'.2 y hy'

/-- Position tracking for `maxByAux`: the reported index addresses the
reported element. -/
theorem maxByAux_get {α : Type} (distOf : α → Option Nat) :
    ∀ (l : List α) (i : Nat) (acc : Option (Nat × α)) (j : Nat) (m : α),
      maxByAux distOf i acc l = some (j, m) →
      acc = some (j, m) ∨ (i ≤ j ∧ l.get? (j - i) = some m) := by
  intro l
  induction l with
  | nil =>
    intro i acc j m h
    simp [maxByAux] at h
    exact Or.inl h
  | cons x rest ih =>
    intro i acc j m h
    simp only [maxByAux] at h
    have step : ∀ acc', maxByAux distOf (i + 1) acc' rest = some (j, m) →
        acc' = some (j, m) ∨ (i ≤ j ∧ (x :: rest).get? (j - i) = some m) := by
      intro acc' h'
      rcases ih (i + 1) acc' j m h' with hacc | ⟨hij, hget⟩
      · exact Or.inl hacc
      · refine Or.inr ⟨by omega, ?_⟩
        have : j - i = (j - (i + 1)) + 1 := by omega
        rw [this]
        simpa using hget
    rcases acc with _ | ⟨jq, q⟩
    · rcases step _ h with hacc | hres
      · cases hacc
        exact Or.inr ⟨Nat.le_refl _, by simp⟩
      · exact Or.inr hres
    · by_cases hc : cmpDist (distOf q) (distOf x) = .gt
      · simp only [hc, if_pos rfl] at h
        rcases step _ h with hacc | hres
        · exact Or.inl hacc
        · exact Or.inr hres
      · simp only [if_neg hc] at h
        rcases step _ h with hacc | hres
        · cases hacc
          exact Or.inr ⟨Nat.le_refl _, by simp⟩
        · exact Or.inr hres

theorem maxBy_isSome {α : Type} (distOf : α → Option Nat) (l : List α) (hl : l ≠ []) :
    ∃ j m, maxBy distOf l = some (j, m) := by
  have : ∀ (l' : List α) (i : Nat) (jm : Nat × α),
      ∃ j m, maxByAux distOf i (some jm) l' = some (j, m) := by
    intro l'
    induction l' with
    | nil => intro i jm; exact ⟨jm.1, jm.2, rfl⟩
    | cons x rest ih =>
      intro i jm
      simp only [maxByAux]
      split <;> apply ih
  rcases l with _ | ⟨x, rest⟩
  · exact absurd rfl hl
  · simpa [maxBy, maxByAux] using this rest 1 (0, x)

/-- Specification of the frontier extraction: the extracted element is in
the list at the reported index and has minimal tentative distance. -/
theorem maxBy_spec {α : Type} (distOf : α → Option Nat) (l : List α) (j : Nat) (m : α)
    (h : maxBy distOf l = some (j, m)) :
    l.get? j = some m ∧ ∀ y ∈ l, oleDist (distOf m) (distOf y) := by
  constructor
  · rcases maxByAux_get distOf l 0 none j m h with hacc | ⟨_, hget⟩
    · cases hacc
    · simpa using hget
  · exact (maxByAux_min distOf l 0 none j m h).2

end Engine

namespace Day16b

/-- One iteration of the relaxation loop of
`State::count_all_tiles_on_shortest_path` (day16b.rs lines 307-342): fold
the neighbor callback over the `(node, weight)` pairs, relaxing only
neighbors still in the frontier (`queue_contains`). -/
def State.relaxList (s : State) (next : GraphNode) (dn : Nat) :
    List (GraphNode × Nat) → List Bool → List (Option PathElement) →
      Except String (List (Option PathElement))
  | [], _, graph => .ok graph
  | (nb, w) :: rest, qc, graph =>
      if qc.getD (nb.index s.width s.height) false then
        match relax (graph.getD (nb.index s.width s.height) none) (dn + w) next with
        | .error e => .error e
        | .ok g' => s.relaxList next dn rest qc (graph.set (nb.index s.width s.height) g')
      else s.relaxList next dn rest qc graph

/-- One iteration of the main loop of day16b.rs (lines 275-343): extract
the minimum-distance frontier vertex, drop it from the frontier, and relax
its outgoing edges. -/
def State.dijkstraStep (s : State) (queue : List GraphNode) (qc : List Bool)
    (graph : List (Option PathElement)) :
    Except String (List GraphNode × List Bool × List (Option PathElement)) :=
  match Engine.maxBy
      (fun n => effective_distance (graph.getD (n.index s.width s.height) none)) queue with
  | none => .error "failed to pop from queue, but it should have at least one thing"
  | some (i, next) =>
      let queue' := Engine.swapRemove queue i
      let qc' := qc.set (next.index s.width s.height) false
      match effective_distance (graph.getD (next.index s.width s.height) none) with
      | none =>
          .error "can't possibly have got to a node in the queue without there being some distance to it"
      | some dn =>
          match s.relaxList next dn (s.neighbors next) qc' graph with
          | .error e => .error e
          | .ok graph' => .ok (queue', qc', graph')

/-- The main loop of day16b.rs (`while !queue.is_empty()`), with explicit
fuel.  Each Rust iteration removes exactly one frontier element, so fuel
equal to the initial queue length always suffices; the out-of-fuel branch
is unreachable for such fuel. -/
def State.dijkstraLoop (s : State) :
    Nat → List GraphNode → List Bool → List (Option PathElement) →
      Except String (List (Option PathElement))
  | 0, queue, _, graph =>
      if queue.isEmpty then .ok graph
      else .error "out of fuel (the Rust loop removes one frontier element per iteration)"
  | fuel + 1, queue, qc, graph =>
      if queue.isEmpty then .ok graph
      else
        match s.dijkstraStep queue qc graph with
        | .error e => .error e
        | .ok (q', qc', g') => s.dijkstraLoop fuel q' qc' g'

/-- Frontier initialisation of day16b.rs (lines 241-273): for `x` in
`0..width`, for `y` in `0..height`, every empty cell contributes its four
oriented nodes in the order Left, Right, Up, Down. -/
def State.initNodes (s : State) : List GraphNode :=
  (List.range s.width).flatMap fun x =>
    (List.range s.height).flatMap fun y =>
      if s.get ⟨(x : Int), (y : Int)⟩ = Cell.Empty then
        [Direction.Left, Direction.Right, Direction.Up, Direction.Down].map
          fun d => ⟨⟨(x : Int), (y : Int)⟩, d⟩
      else []

/-- `queue_contains` after initialisation: true exactly at the pushed
nodes' indices. -/
def State.initQC (s : State) : List Bool :=
  s.initNodes.foldl (fun qc n => qc.set (n.index s.width s.height) true)
    (List.replicate (s.width * s.height * 4) false)

/-- `graph` after initialisation: seeded with `PathElement::Start` at the
node whose direction is `Right` and whose position is the start. -/
def State.initGraph (s : State) : List (Option PathElement) :=
  s.initNodes.foldl
    (fun g n =>
      if n.direction = Direction.Right ∧ n.position = s.start then
        g.set (n.index s.width s.height) (some PathElement.Start)
      else g)
    (List.replicate (s.width * s.height * 4) none)

/-- `possible_goal_nodes` of day16b.rs (lines 346-371): the four oriented
goal nodes with their effective distances, an unreached one counting as 0
(`unwrap_or(0)`). -/
def State.possible_goal_nodes (s : State) (graph : List (Option PathElement)) :
    List (GraphNode × Nat) :=
  [(⟨s.goal, Direction.Left⟩ : GraphNode), ⟨s.goal, Direction.Right⟩,
      ⟨s.goal, Direction.Up⟩, ⟨s.goal, Direction.Down⟩].map fun node =>
    (node, (effective_distance (graph.getD (node.index s.width s.height) none)).getD 0)

/-- The minimum goal distance computed by day16b.rs (lines 372-376) after a
full run of the loop. -/
def State.minGoalDistance (s : State) : Except String Nat :=
  match s.dijkstraLoop s.initNodes.length s.initNodes s.initQC s.initGraph with
  | .error e => .error e
  | .ok graph =>
      match ((s.possible_goal_nodes graph).map Prod.snd).min? with
      | none => .error "expected a way to reach to goal but found none"
      | some m => .ok m

/-- The backward predecessor walk of day16b.rs (lines 386-405): pop from
the end of the worklist, record the position, push all predecessors.  The
Rust loop terminates because predecessor edges strictly decrease distance;
the embedding uses fuel. -/
def State.walk (s : State) (graph : List (Option PathElement)) :
    Nat → List GraphNode → Finset Point → Option (Finset Point)
  | fuel, q, results =>
      match q.getLast? with
      | none => some results
      | some node =>
          match fuel with
          | 0 => none
          | fuel + 1 =>
              let rest := q.dropLast
              let results' := insert node.position results
              match graph.getD (node.index s.width s.height) none with
              | some (.Element _ previous) => s.walk graph fuel (rest ++ previous) results'
              | _ => s.walk graph fuel rest results'

/-- `State::count_all_tiles_on_shortest_path` assembled (day16b.rs lines
233-407): run the loop, select the goal orientations tied for the minimum
distance, walk predecessors back collecting distinct positions (the start
is pre-inserted), and return the count. -/
def State.count_all_tiles_on_shortest_path (s : State) (walkFuel : Nat) :
    Except String Nat :=
  match s.dijkstraLoop s.initNodes.length s.initNodes s.initQC s.initGraph with
  | .error e => .error e
  | .ok graph =>
      match ((s.possible_goal_nodes graph).map Prod.snd).min? with
      | none => .error "expected a way to reach to goal but found none"
      | some m =>
          let q := (s.possible_goal_nodes graph).filterMap
            fun nd => if nd.2 = m then some nd.1 else none
          match s.walk graph walkFuel q {s.start} with
          | none => .error "out of fuel (the predecessor graph is acyclic)"
          | some results => .ok results.card

end Day16b

namespace Day16b

/-- Weights produced by `State::neighbors` are `1` or `1000`; in particular
they are positive. -/
theorem neighbors_weight_pos (s : State) (u : GraphNode) (v : GraphNode) (w : Nat)
    (h : (v, w) ∈ s.neighbors u) : 0 < w := by
  unfold State.neighbors at h
  rcases List.mem_append.1 h with h' | h'
  · split at h' <;> simp_all
  · simp at h'
    rcases h' with ⟨_, hw⟩ | ⟨_, hw⟩ <;> omega

/-- C1.  During relaxation of edge `(u, v, w)` with `candidate = du + w`:
a strictly smaller candidate overwrites the record with distance
`candidate` and predecessor set exactly `[u]` (this includes the case of a
previously unreached neighbor, whose distance is infinite); an equal
candidate appends `u` to the existing predecessor list without replacing
it; a larger candidate leaves the record unchanged. -/
theorem relax_spec (s : State) (u v : GraphNode) (w : Nat) (du : Nat)
    (g : Option PathElement) (hmem : (v, w) ∈ s.neighbors u) :
    ((∀ cur, effective_distance g = some cur → du + w < cur) →
        relax g (du + w) u = .ok (some (.Element (du + w) [u]))) ∧
    (∀ d prev, g = some (.Element d prev) → du + w = d →
        relax g (du + w) u = .ok (some (.Element d (prev ++ [u])))) ∧
    (∀ cur, effective_distance g = some cur → cur < du + w →
        relax g (du + w) u = .ok g) := by
  have hw : 0 < w := neighbors_weight_pos s u v w hmem
  refine ⟨?_, ?_, ?_⟩
  · intro hlt
    unfold relax
    cases g with
    | none => rfl
    | some pe =>
      cases pe with
      | Start =>
        have h0 : du + w < 0 := hlt 0 rfl
        omega
      | Element d prev =>
        have hd : du + w < d := hlt d rfl
        simp [effective_distance, hd]
  · intro d prev hg hd
    subst hg
    unfold relax
    simp [effective_distance, hd]
  · intro cur hcur hlt
    unfold relax
    cases g with
    | none => simp [effective_distance] at hcur
    | some pe =>
      cases pe with
      | Start =>
        simp only [effective_distance, Option.some.injEq] at hcur
        have h1 : ¬ (du + w < 0) := by omega
        have h2 : ¬ (du + w = 0) := by omega
        simp [effective_distance, h1, h2]
      | Element d prev =>
        simp only [effective_distance, Option.some.injEq] at hcur
        have h1 : ¬ (du + w < d) := by omega
        have h2 : ¬ (du + w = d) := by omega
        simp [effective_distance, h1, h2]

/-- Witness for C1: in a 1×1 maze, relaxing the rotation edge from the
start node facing Right to the node facing Up (weight 1000) against an
unreached record installs distance 1000 with predecessor set exactly the
extracted node. -/
theorem relax_spec_witness :
    relax none (0 + 1000) ⟨⟨0, 0⟩, Direction.Right⟩
      = .ok (some (.Element (0 + 1000) [⟨⟨0, 0⟩, Direction.Right⟩])) :=
  (relax_spec ⟨1, 1, [Cell.Empty], ⟨0, 0⟩, ⟨0, 0⟩⟩ ⟨⟨0, 0⟩, Direction.Right⟩
      ⟨⟨0, 0⟩, Direction.Up⟩ 1000 0 none (by decide)).1 (fun cur h => nomatch h)

end Day16b

namespace Day18b

/-- `Point` from day18b.rs. -/
structure Point where
  x : Int
  y : Int
deriving DecidableEq, Repr

instance : Add Point := ⟨fun a b => ⟨a.x + b.x, a.y + b.y⟩⟩

/-- `Direction` from day18b.rs. -/
inductive Direction where
  | Left : Direction
  | Right : Direction
  | Up : Direction
  | Down : Direction
deriving DecidableEq, Repr

/-- `Direction::to_vector` from day18b.rs. -/
def Direction.to_vector : Direction → Point
  | .Left => ⟨-1, 0⟩
  | .Right => ⟨1, 0⟩
  | .Up => ⟨0, -1⟩
  | .Down => ⟨0, 1⟩

/-- `Grid` from day18b.rs: `data[i] = true` marks a corrupted (wall) cell. -/
structure Grid where
  width : Nat
  height : Nat
  data : List Bool

/-- `Grid::new` from day18b.rs, with the `x,y` line parsing (a regex,
out-of-scope glue) already done: start from all-clear data and mark each
listed coordinate. -/
def Grid.new (width height : Nat) (coords : List (Nat × Nat)) : Grid :=
  { width := width, height := height,
    data := coords.foldl (fun d xy => d.set (xy.2 * width + xy.1) true)
      (List.replicate (width * height) false) }

/-- `PathElement` from day18b.rs (no predecessor list in this variant). -/
inductive PathElement where
  | Start : PathElement
  | Element (distance : Nat) : PathElement
deriving DecidableEq, Repr

/-- `Grid::index` from day18b.rs: bounds-checked row-major index, a typed
error out of bounds. -/
def Grid.index (g : Grid) (p : Point) : Except String Nat :=
  if 0 ≤ p.x ∧ 0 ≤ p.y ∧ p.x.toNat < g.width ∧ p.y.toNat < g.height then
    .ok (p.y.toNat * g.width + p.x.toNat)
  else .error "out of bounds"

/-- The raw index value `y * width + x`; models the `unwrap()`ed uses of
`Grid::index` on points known to be in bounds. -/
def Grid.idx (g : Grid) (p : Point) : Nat :=
  p.y.toNat * g.width + p.x.toNat

/-- `Grid::effective_distance` from day18b.rs. -/
def effective_distance : Option PathElement → Option Nat
  | none => none
  | some PathElement.Start => some 0
  | some (PathElement.Element d) => some d

/-- The relaxation loop of `Grid::shorted_path` (day18b.rs lines 213-252):
for each direction, relax the in-bounds neighbor still in the frontier with
candidate `dn + 1`, replacing only on strict improvement (or first reach),
and record the goal the first time such a replacement hits it. -/
def Grid.relaxDirs (g : Grid) (next : Point) (dn : Nat) (goal : Point) (qc : List Bool) :
    List Direction → List (Option PathElement) → Option Point →
      List (Option PathElement) × Option Point
  | [], graph, goalNode => (graph, goalNode)
  | d :: rest, graph, goalNode =>
      let neighbor := next + d.to_vector
      match g.index neighbor with
      | .error _ => g.relaxDirs next dn goal qc rest graph goalNode
      | .ok ni =>
          if qc.getD ni false then
            let proposed := dn + 1
            let replace : Bool :=
              match effective_distance (graph.getD ni none) with
              | some cur => decide (proposed < cur)
              | none => true
            if replace then
              g.relaxDirs next dn goal qc rest (graph.set ni (some (.Element proposed)))
                (if neighbor = goal then some neighbor else goalNode)
            else g.relaxDirs next dn goal qc rest graph goalNode
          else g.relaxDirs next dn goal qc rest graph goalNode

/-- One iteration of the day18b.rs loop body (lines 181-252): extract the
minimum-distance frontier point, remove it, relax the four direction
neighbors. -/
def Grid.dijkstraStep (g : Grid) (goal : Point) (queue : List Point) (qc : List Bool)
    (graph : List (Option PathElement)) (goalNode : Option Point) :
    Except String (List Point × List Bool × List (Option PathElement) × Option Point) :=
  match Engine.maxBy (fun p => effective_distance (graph.getD (g.idx p) none)) queue with
  | none => .error "failed to pop from queue, but it should have at least one thing"
  | some (i, next) =>
      let queue' := Engine.swapRemove queue i
      match g.index next with
      | .error e => .error e
      | .ok ni =>
          let qc' := qc.set ni false
          match effective_distance (graph.getD ni none) with
          | none =>
              .error "can't possibly have got to a node in the queue without there being some distance to it"
          | some dn =>
              let gp := g.relaxDirs next dn goal qc'
                [Direction.Left, Direction.Right, Direction.Up, Direction.Down]
                graph goalNode
              .ok (queue', qc', gp.1, gp.2)

/-- The day18b.rs main loop: `while !queue.is_empty() && goal_node.is_none()`,
with explicit fuel (one frontier element is removed per iteration). -/
def Grid.loopEarly (g : Grid) (goal : Point) :
    Nat → List Point → List Bool → List (Option PathElement) → Option Point →
      Except String (List (Option PathElement) × Option Point)
  | 0, queue, _, graph, goalNode =>
      if queue.isEmpty || goalNode.isSome then .ok (graph, goalNode)
      else .error "out of fuel (the Rust loop removes one frontier element per iteration)"
  | fuel + 1, queue, qc, graph, goalNode =>
      if queue.isEmpty || goalNode.isSome then .ok (graph, goalNode)
      else
        match g.dijkstraStep goal queue qc graph goalNode with
        | .error e => .error e
        | .ok (q', qc', g', gn') => g.loopEarly goal fuel q' qc' g' gn'

/-- The full-termination variant of the same search, as described by the
spec (§4.3 step 4): identical extraction and relaxation, but the loop runs
until the frontier is empty instead of exiting when the goal is first
reached.  This definition follows the spec's words; it exists to be
compared with `Grid.loopEarly`. -/
def Grid.loopFull (g : Grid) (goal : Point) :
    Nat → List Point → List Bool → List (Option PathElement) → Option Point →
      Except String (List (Option PathElement) × Option Point)
  | 0, queue, _, graph, goalNode =>
      if queue.isEmpty then .ok (graph, goalNode)
      else .error "out of fuel (the Rust loop removes one frontier element per iteration)"
  | fuel + 1, queue, qc, graph, goalNode =>
      if queue.isEmpty then .ok (graph, goalNode)
      else
        match g.dijkstraStep goal queue qc graph goalNode with
        | .error e => .error e
        | .ok (q', qc', g', gn') => g.loopFull goal fuel q' qc' g' gn'

/-- Frontier initialisation of day18b.rs (lines 162-177): every
uncorrupted cell enters the frontier (`x` outer, `y` inner); the start
cell's record is seeded to `Start`. -/
def Grid.initNodes (g : Grid) : List Point :=
  (List.range g.width).flatMap fun x =>
    (List.range g.height).filterMap fun y =>
      if g.data.getD (g.idx ⟨(x : Int), (y : Int)⟩) false then none
      else some ⟨(x : Int), (y : Int)⟩

/-- `queue_contains` after day18b.rs initialisation. -/
def Grid.initQC (g : Grid) : List Bool :=
  g.initNodes.foldl (fun qc p => qc.set (g.idx p) true)
    (List.replicate (g.width * g.height) false)

/-- `graph` after day18b.rs initialisation: `Start` seeded at the start
point (if it is an uncorrupted cell). -/
def Grid.initGraph (g : Grid) (start : Point) : List (Option PathElement) :=
  g.initNodes.foldl
    (fun gr p => if p = start then gr.set (g.idx p) (some PathElement.Start) else gr)
    (List.replicate (g.width * g.height) none)

/-- `Grid::shorted_path` from day18b.rs (lines 147-263) assembled. -/
def Grid.shorted_path (g : Grid) (start goal : Point) : Except String Nat :=
  match g.loopEarly goal g.initNodes.length g.initNodes g.initQC (g.initGraph start) none with
  | .error e => .error e
  | .ok (graph, goalNode) =>
      match goalNode with
      | some gn =>
          match g.index gn with
          | .error e => .error e
          | .ok gi =>
              match graph.getD gi none with
              | some (.Element d) => .ok d
              | _ => .error "thought we found the goal node, but no distance found for it"
      | none => .error "exited, but didn't find a path to the goal"

end Day18b

namespace Day18b

/-- C2.  If the day18b search loop terminates with its frontier empty and
the goal never reached (`goal_node` still `None`), `shorted_path` surfaces
a typed error to the caller: it returns an `Error` value, not a panic, and
in particular returns no numeric answer. -/
theorem shorted_path_no_path (g : Grid) (start goal : Point)
    (graph : List (Option PathElement))
    (h : g.loopEarly goal g.initNodes.length g.initNodes g.initQC (g.initGraph start) none
        = .ok (graph, none)) :
    (∃ e, g.shorted_path start goal = .error e) ∧
    ∀ d, g.shorted_path start goal ≠ .ok d := by
  have hres : g.shorted_path start goal = .error "exited, but didn't find a path to the goal" := by
    unfold Grid.shorted_path
    rw [h]
  exact ⟨⟨_, hres⟩, fun d hd => by rw [hres] at hd; cases hd⟩

/-- Witness for C2: a 2×1 grid whose second cell (the goal) is corrupted;
the frontier (just the start) empties without reaching the goal and the
search reports the failure as a typed error. -/
theorem shorted_path_no_path_witness :
    (∃ e, (Grid.new 2 1 [(1, 0)]).shorted_path ⟨0, 0⟩ ⟨1, 0⟩ = .error e) ∧
    ∀ d, (Grid.new 2 1 [(1, 0)]).shorted_path ⟨0, 0⟩ ⟨1, 0⟩ ≠ .ok d :=
  shorted_path_no_path (Grid.new 2 1 [(1, 0)]) ⟨0, 0⟩ ⟨1, 0⟩
    [some PathElement.Start, none] (by rfl)

end Day18b

/-- C8.  Grid access is total.  `Day16b.State.get` returns the stored cell
for in-bounds coordinates and `Cell::Wall` for any out-of-bounds
coordinates (the result maze code treats as a wall); `Day18b.Grid.index`
returns the row-major index for in-bounds coordinates and a typed
`out of bounds` error (never a panic) otherwise. -/
theorem grid_access_total (s : Day16b.State) (p : Day16b.Point)
    (g : Day18b.Grid) (q : Day18b.Point) :
    (0 ≤ p.x → 0 ≤ p.y → p.x.toNat < s.width → p.y.toNat < s.height →
        s.get p = s.state.getD (p.y.toNat * s.width + p.x.toNat) Day16b.Cell.Wall) ∧
    (¬ (0 ≤ p.x ∧ 0 ≤ p.y ∧ p.x.toNat < s.width ∧ p.y.toNat < s.height) →
        s.get p = Day16b.Cell.Wall) ∧
    (0 ≤ q.x → 0 ≤ q.y → q.x.toNat < g.width → q.y.toNat < g.height →
        g.index q = .ok (q.y.toNat * g.width + q.x.toNat)) ∧
    (¬ (0 ≤ q.x ∧ 0 ≤ q.y ∧ q.x.toNat < g.width ∧ q.y.toNat < g.height) →
        ∃ e, g.index q = .error e) := by
  refine ⟨?_, ?_, ?_, ?_⟩
  · intro h1 h2 h3 h4
    unfold Day16b.State.get
    rw [if_pos ⟨h1, h2, h3, h4⟩]
  · intro h
    unfold Day16b.State.get
    rw [if_neg h]
  · intro h1 h2 h3 h4
    unfold Day18b.Grid.index
    rw [if_pos ⟨h1, h2, h3, h4⟩]
  · intro h
    unfold Day18b.Grid.index
    rw [if_neg h]
    exact ⟨_, rfl⟩

/-- Witness for C8 on a 1×1 grid: the unique in-bounds access returns the
stored cell, and the access at `(-1, 0)` is out of bounds, yielding
`Wall` / a typed error respectively. -/
theorem grid_access_total_witness :
    ((⟨1, 1, [Day16b.Cell.Empty], ⟨0, 0⟩, ⟨0, 0⟩⟩ : Day16b.State).get ⟨0, 0⟩
        = Day16b.Cell.Empty) ∧
    ((⟨1, 1, [Day16b.Cell.Empty], ⟨0, 0⟩, ⟨0, 0⟩⟩ : Day16b.State).get ⟨-1, 0⟩
        = Day16b.Cell.Wall) ∧
    ((⟨1, 1, [false]⟩ : Day18b.Grid).index ⟨0, 0⟩ = .ok 0) ∧
    ∃ e, (⟨1, 1, [false]⟩ : Day18b.Grid).index ⟨-1, 0⟩ = .error e := by
  have h1 := grid_access_total ⟨1, 1, [Day16b.Cell.Empty], ⟨0, 0⟩, ⟨0, 0⟩⟩ ⟨0, 0⟩
    ⟨1, 1, [false]⟩ ⟨0, 0⟩
  have h2 := grid_access_total ⟨1, 1, [Day16b.Cell.Empty], ⟨0, 0⟩, ⟨0, 0⟩⟩ ⟨-1, 0⟩
    ⟨1, 1, [false]⟩ ⟨-1, 0⟩
  refine ⟨h1.1 (by decide) (by decide) (by decide) (by decide), ?_, ?_, ?_⟩
  · exact h2.2.1 (by decide)
  · exact h1.2.2.1 (by decide) (by decide) (by decide) (by decide)
  · exact h2.2.2.2 (by decide)

namespace Util

theorem getD_set {α : Type} (l : List α) (j i : Nat) (v d : α) :
    (l.set j v).getD i d = if j = i ∧ j < l.length then v else l.getD i d := by
  rw [List.getD_eq_getElem?_getD, List.getD_eq_getElem?_getD, List.getElem?_set]
  by_cases h1 : j = i
  · subst h1
    by_cases h2 : j < l.length
    · simp [h2]
    · simp [h2, List.getElem?_eq_none (Nat.le_of_not_lt h2)]
  · simp [h1]

theorem getD_replicate {α : Type} (n i : Nat) (a d : α) :
    (List.replicate n a).getD i d = if i < n then a else d := by
  rw [List.getD_eq_getElem?_getD, List.getElem?_replicate]
  by_cases h : i < n <;> simp [h]

/-- A fold of conditional `set`s leaves indices that no list element
targets unchanged. -/
theorem foldl_set_getD_of_not_mem {α β : Type} (idx : β → Nat) (P : β → Prop)
    [DecidablePred P] (v : α) :
    ∀ (l : List β) (g0 : List α) (i : Nat) (d : α),
      (∀ n ∈ l, P n → idx n ≠ i) →
      (l.foldl (fun g n => if P n then g.set (idx n) v else g) g0).getD i d = g0.getD i d := by
  intro l
  induction l with
  | nil => intro g0 i d _; rfl
  | cons n t ih =>
    intro g0 i d hno
    rw [List.foldl_cons]
    rw [ih _ i d (fun m hm => hno m (List.mem_cons_of_mem n hm))]
    by_cases hP : P n
    · rw [if_pos hP, getD_set]
      rw [if_neg]
      rintro ⟨hidx, -⟩
      exact hno n (List.mem_cons_self n t) hP hidx
    · rw [if_neg hP]

theorem foldl_set_length {α β : Type} (idx : β → Nat) (P : β → Prop)
    [DecidablePred P] (v : α) :
    ∀ (l : List β) (g0 : List α),
      (l.foldl (fun g n => if P n then g.set (idx n) v else g) g0).length = g0.length := by
  intro l
  induction l with
  | nil => intro g0; rfl
  | cons n t ih =>
    intro g0
    rw [List.foldl_cons, ih]
    by_cases hP : P n
    · rw [if_pos hP, List.length_set]
    · rw [if_neg hP]

/-- A fold of conditional `set`s writes `v` at every targeted in-bounds
index. -/
theorem foldl_set_getD_of_mem {α β : Type} (idx : β → Nat) (P : β → Prop)
    [DecidablePred P] (v : α) :
    ∀ (l : List β) (g0 : List α) (i : Nat) (d : α),
      (∃ n ∈ l, P n ∧ idx n = i) → i < g0.length →
      (l.foldl (fun g n => if P n then g.set (idx n) v else g) g0).getD i d = v := by
  intro l
  induction l with
  | nil =>
    intro g0 i d h _
    simp at h
  | cons n t ih =>
    intro g0 i d hex hlen
    rw [List.foldl_cons]
    by_cases hext : ∃ m ∈ t, P m ∧ idx m = i
    · refine ih _ i d hext ?_
      by_cases hP : P n
      · rw [if_pos hP, List.length_set]; exact hlen
      · rw [if_neg hP]; exact hlen
    · have hn : P n ∧ idx n = i := by
        rcases hex with ⟨m, hm, hPm, hidx⟩
        rcases List.mem_cons.1 hm with rfl | hmt
        · exact ⟨hPm, hidx⟩
        · exact absurd ⟨m, hmt, hPm, hidx⟩ hext
      rw [foldl_set_getD_of_not_mem idx P v t _ i d
        (fun m hm hPm hidx => hext ⟨m, hm, hPm, hidx⟩)]
      rw [if_pos hn.1, getD_set, if_pos ⟨hn.2, hn.2 ▸ hlen⟩]

/-- Uniqueness of the `a * M + r` decomposition with `r < M`. -/
theorem mul_add_lt_inj {M a1 a2 r1 r2 : Nat} (hr1 : r1 < M) (hr2 : r2 < M)
    (h : a1 * M + r1 = a2 * M + r2) : a1 = a2 ∧ r1 = r2 := by
  have hM : 0 < M := Nat.pos_of_ne_zero (by omega)
  have ha : a1 = a2 := by
    have e1 : (a1 * M + r1) / M = a1 := by
      rw [Nat.mul_comm a1 M, Nat.mul_add_div hM, Nat.div_eq_of_lt hr1]
      omega
    have e2 : (a2 * M + r2) / M = a2 := by
      rw [Nat.mul_comm a2 M, Nat.mul_add_div hM, Nat.div_eq_of_lt hr2]
      omega
    rw [← e1, ← e2, h]
  subst ha
  exact ⟨rfl, by omega⟩

end Util

namespace Day16b

/-- A graph node whose position lies inside the `width × height` grid. -/
def inBounds (w h : Nat) (n : GraphNode) : Prop :=
  0 ≤ n.position.x ∧ 0 ≤ n.position.y ∧ n.position.x.toNat < w ∧ n.position.y.toNat < h

instance (w h : Nat) (n : GraphNode) : Decidable (inBounds w h n) := by
  unfold inBounds; infer_instance

theorem Direction.index_inj (d1 d2 : Direction) (h : d1.index = d2.index) : d1 = d2 := by
  cases d1 <;> cases d2 <;> first | rfl | simp [Direction.index] at h

theorem index_lt (w h : Nat) (n : GraphNode) (hb : inBounds w h n) :
    n.index w h < w * h * 4 := by
  obtain ⟨-, -, hx, hy⟩ := hb
  have hd : n.direction.index ≤ 3 := by cases n.direction <;> simp [Direction.index]
  have h1 : n.position.y.toNat * w + n.position.x.toNat < w * h := by
    calc n.position.y.toNat * w + n.position.x.toNat
        < (n.position.y.toNat + 1) * w := by rw [Nat.add_mul]; omega
      _ ≤ h * w := Nat.mul_le_mul_right w hy
      _ = w * h := Nat.mul_comm h w
  calc n.index w h = n.direction.index * (w * h) +
        (n.position.y.toNat * w + n.position.x.toNat) := by
        unfold GraphNode.index; ring
    _ < n.direction.index * (w * h) + w * h := by omega
    _ = (n.direction.index + 1) * (w * h) := by ring
    _ ≤ 4 * (w * h) := Nat.mul_le_mul_right (w * h) (by omega)
    _ = w * h * 4 := by ring

theorem graphNode_index_inj (w h : Nat) (n1 n2 : GraphNode) (hb1 : inBounds w h n1)
    (hb2 : inBounds w h n2) (heq : n1.index w h = n2.index w h) : n1 = n2 := by
  obtain ⟨hx1, hy1, hxw1, hyh1⟩ := hb1
  obtain ⟨hx2, hy2, hxw2, hyh2⟩ := hb2
  have hr1 : n1.position.y.toNat * w + n1.position.x.toNat < w * h := by
    calc n1.position.y.toNat * w + n1.position.x.toNat
        < (n1.position.y.toNat + 1) * w := by rw [Nat.add_mul]; omega
      _ ≤ h * w := Nat.mul_le_mul_right w hyh1
      _ = w * h := Nat.mul_comm h w
  have hr2 : n2.position.y.toNat * w + n2.position.x.toNat < w * h := by
    calc n2.position.y.toNat * w + n2.position.x.toNat
        < (n2.position.y.toNat + 1) * w := by rw [Nat.add_mul]; omega
      _ ≤ h * w := Nat.mul_le_mul_right w hyh2
      _ = w * h := Nat.mul_comm h w
  have h' : n1.direction.index * (w * h) +
      (n1.position.y.toNat * w + n1.position.x.toNat) =
      n2.direction.index * (w * h) +
      (n2.position.y.toNat * w + n2.position.x.toNat) := by
    have := heq
    unfold GraphNode.index at this
    linarith [this]
  obtain ⟨hd, hr⟩ := Util.mul_add_lt_inj hr1 hr2 h'
  obtain ⟨hy, hx⟩ := Util.mul_add_lt_inj hxw1 hxw2 hr
  have hpx : n1.position.x = n2.position.x := by
    rw [← Int.toNat_of_nonneg hx1, ← Int.toNat_of_nonneg hx2, hx]
  have hpy : n1.position.y = n2.position.y := by
    rw [← Int.toNat_of_nonneg hy1, ← Int.toNat_of_nonneg hy2, hy]
  rcases n1 with ⟨⟨px1, py1⟩, d1⟩
  rcases n2 with ⟨⟨px2, py2⟩, d2⟩
  simp_all
  exact Direction.index_inj d1 d2 hd

/-- Membership in the initial frontier: exactly the four oriented nodes of
each in-bounds empty cell. -/
theorem mem_initNodes (s : State) (n : GraphNode) :
    n ∈ s.initNodes ↔
      (∃ x < s.width, ∃ y < s.height, n.position = ⟨(x : Int), (y : Int)⟩) ∧
        s.get n.position = Cell.Empty := by
  unfold State.initNodes
  rw [List.mem_flatMap]
  constructor
  · rintro ⟨x, hx, hn⟩
    rw [List.mem_range] at hx
    rw [List.mem_flatMap] at hn
    rcases hn with ⟨y, hy, hmem⟩
    rw [List.mem_range] at hy
    by_cases hemp : s.get ⟨(x : Int), (y : Int)⟩ = Cell.Empty
    · rw [if_pos hemp] at hmem
      simp only [List.mem_map] at hmem
      rcases hmem with ⟨d, -, rfl⟩
      exact ⟨⟨x, hx, y, hy, rfl⟩, hemp⟩
    · rw [if_neg hemp] at hmem
      simp at hmem
  · rintro ⟨⟨x, hx, y, hy, hpos⟩, hemp⟩
    refine ⟨x, List.mem_range.2 hx, List.mem_flatMap.2 ⟨y, List.mem_range.2 hy, ?_⟩⟩
    rw [hpos] at hemp
    rw [if_pos hemp]
    rcases n with ⟨pos, d⟩
    cases d <;> simp_all

/-- Nodes in the initial frontier are in bounds. -/
theorem initNodes_inBounds (s : State) (n : GraphNode) (h : n ∈ s.initNodes) :
    inBounds s.width s.height n := by
  rcases (mem_initNodes s n).1 h with ⟨⟨x, hx, y, hy, hpos⟩, -⟩
  unfold inBounds
  rw [hpos]
  refine ⟨by simp, by simp, by simpa using hx, by simpa using hy⟩

end Day16b

namespace Day16b

/-- The straight vertical corridor maze: `S` above `E`, so the single move
is downward while the engine seeds the start facing Right. -/
def corridorDown : State := ⟨1, 2, [Cell.Empty, Cell.Empty], ⟨0, 0⟩, ⟨0, 1⟩⟩

/-- C10.  Exactly one vertex is seeded with distance 0 by the day16b
initialisation: the in-bounds node at the start position facing `Right`
(provided the start cell is empty, as in every parsed maze); every other
in-bounds vertex starts unreached.  Consequently costs are measured
relative to an initial facing of Right: in the two-cell corridor leading
Down, the minimum goal distance is 1 move + 1000 for one rotation = 1001. -/
theorem start_seed_spec (s : State) (n : GraphNode)
    (hb : inBounds s.width s.height n) :
    (s.initGraph.getD (n.index s.width s.height) none = some PathElement.Start ↔
      n.position = s.start ∧ n.direction = Direction.Right ∧ s.get s.start = Cell.Empty) ∧
    corridorDown.minGoalDistance = .ok 1001 := by
  constructor
  · constructor
    · intro hsome
      by_cases hex : ∃ m ∈ s.initNodes,
          (m.direction = Direction.Right ∧ m.position = s.start) ∧
            m.index s.width s.height = n.index s.width s.height
      · rcases hex with ⟨m, hmem, hP, hidx⟩
        have hmb : inBounds s.width s.height m := initNodes_inBounds s m hmem
        have hmn : m = n := graphNode_index_inj s.width s.height m n hmb hb hidx
        subst hmn
        rcases (mem_initNodes s m).1 hmem with ⟨-, hemp⟩
        exact ⟨hP.2, hP.1, hP.2 ▸ hemp⟩
      · exfalso
        have := Util.foldl_set_getD_of_not_mem
          (fun m => m.index s.width s.height)
          (fun m => m.direction = Direction.Right ∧ m.position = s.start)
          (some PathElement.Start) s.initNodes
          (List.replicate (s.width * s.height * 4) none)
          (n.index s.width s.height) none
          (fun m hm hPm hidx => hex ⟨m, hm, hPm, hidx⟩)
        unfold State.initGraph at hsome
        rw [this, Util.getD_replicate] at hsome
        split at hsome
        · cases hsome
        · cases hsome
    · rintro ⟨hpos, hdir, hemp⟩
      have hmem : n ∈ s.initNodes := by
        rw [mem_initNodes]
        rcases hb with ⟨hx, hy, hxw, hyh⟩
        refine ⟨⟨n.position.x.toNat, hxw, n.position.y.toNat, hyh, ?_⟩, ?_⟩
        · rcases n with ⟨⟨px, py⟩, d⟩
          simp only
          rw [Int.toNat_of_nonneg hx, Int.toNat_of_nonneg hy]
        · rw [hpos]; exact hemp
      unfold State.initGraph
      exact Util.foldl_set_getD_of_mem
        (fun m => m.index s.width s.height)
        (fun m => m.direction = Direction.Right ∧ m.position = s.start)
        (some PathElement.Start) s.initNodes
        (List.replicate (s.width * s.height * 4) none)
        (n.index s.width s.height) none
        ⟨n, hmem, ⟨hdir, hpos⟩, rfl⟩
        (by rw [List.length_replicate]; exact index_lt s.width s.height n hb)
  · rfl

/-- Witness for C10: in the corridor maze, the record at the index of the
start-facing-Right node is `Start`, and the node at the same position
facing Down is not seeded. -/
theorem start_seed_spec_witness :
    (corridorDown.initGraph.getD
        (GraphNode.index ⟨⟨0, 0⟩, Direction.Right⟩ corridorDown.width corridorDown.height) none
      = some PathElement.Start) ∧
    corridorDown.initGraph.getD
        (GraphNode.index ⟨⟨0, 0⟩, Direction.Down⟩ corridorDown.width corridorDown.height) none
      ≠ some PathElement.Start ∧
    corridorDown.minGoalDistance = .ok 1001 := by
  have h1 := start_seed_spec corridorDown ⟨⟨0, 0⟩, Direction.Right⟩
    (by constructor <;> simp [corridorDown])
  have h2 := start_seed_spec corridorDown ⟨⟨0, 0⟩, Direction.Down⟩
    (by constructor <;> simp [corridorDown])
  refine ⟨h1.1.2 ⟨rfl, rfl, by decide⟩, ?_, h1.2⟩
  intro hcon
  have := (h2.1.1 hcon).2.1
  cases this

end Day16b

namespace Day16b

/-- The character parse of `State::new` (day16b.rs lines 186-212): `#` is a
wall, `.` empty, `S`/`E` empty while recording the start/goal position,
anything else an error.  One row, `x` running, `y` fixed. -/
def State.parseRow : List Char → Nat → Nat → List Cell → Option Point → Option Point →
    Except String (List Cell × Option Point × Option Point)
  | [], _, _, cells, st, gl => .ok (cells, st, gl)
  | c :: cs, x, y, cells, st, gl =>
      if c = '#' then State.parseRow cs (x + 1) y (cells ++ [Cell.Wall]) st gl
      else if c = '.' then State.parseRow cs (x + 1) y (cells ++ [Cell.Empty]) st gl
      else if c = 'S' then
        State.parseRow cs (x + 1) y (cells ++ [Cell.Empty]) (some ⟨(x : Int), (y : Int)⟩) gl
      else if c = 'E' then
        State.parseRow cs (x + 1) y (cells ++ [Cell.Empty]) st (some ⟨(x : Int), (y : Int)⟩)
      else .error "unparsable map char"

/-- All rows of `State::new`, `y` running. -/
def State.parseRows : List (List Char) → Nat → List Cell → Option Point → Option Point →
    Except String (List Cell × Option Point × Option Point)
  | [], _, cells, st, gl => .ok (cells, st, gl)
  | row :: rest, y, cells, st, gl =>
      match State.parseRow row 0 y cells st gl with
      | .error e => .error e
      | .ok (cells', st', gl') => State.parseRows rest (y + 1) cells' st' gl'

/-- `State::new` from day16b.rs (lines 179-223).  The `HashSet` of row
widths is modelled by deduplicating the list of row lengths: its size is
the number of distinct widths, and construction fails unless it is exactly
one. -/
def State.new (map : List (List Char)) : Except String State :=
  let widths := (map.map List.length).dedup
  if widths.length ≠ 1 then .error "uneven map lines"
  else
    match State.parseRows map 0 [] none none with
    | .error e => .error e
    | .ok (cells, some st, some gl) =>
        .ok ⟨widths.headD 0, map.length, cells, st, gl⟩
    | .ok (_, _, _) => .error "missing start and/or goal position"

end Day16b

namespace Day12

/-- `Map` shared by day12a.rs and day12b.rs: a row-major grid of plant
symbols. -/
structure Map where
  width : Nat
  height : Nat
  data : List Char

/-- `Map::new` from day12a.rs (lines 66-81) and day12b.rs (lines 74-89):
fail unless all rows have the same length; the data is the concatenation
of the rows.  The `HashSet` of row widths is modelled by deduplicating the
list of row lengths. -/
def Map.new (lines : List (List Char)) : Except String Map :=
  let widths := (lines.map List.length).dedup
  if widths.length ≠ 1 then .error "expected all lines to the same length"
  else .ok ⟨widths.headD 0, lines.length, lines.flatten⟩

end Day12

/-- Two rows of different lengths leave at least two distinct widths after
deduplication. -/
theorem dedup_length_ne_one {lines : List (List Char)} {l1 l2 : List Char}
    (h1 : l1 ∈ lines) (h2 : l2 ∈ lines) (hne : l1.length ≠ l2.length) :
    ((lines.map List.length).dedup).length ≠ 1 := by
  intro hlen
  rcases List.length_eq_one.1 hlen with ⟨a, ha⟩
  have m1 : l1.length ∈ (lines.map List.length).dedup :=
    List.mem_dedup.2 (List.mem_map.2 ⟨l1, h1, rfl⟩)
  have m2 : l2.length ∈ (lines.map List.length).dedup :=
    List.mem_dedup.2 (List.mem_map.2 ⟨l2, h2, rfl⟩)
  rw [ha] at m1 m2
  simp at m1 m2
  exact hne (m1.trans m2.symm)

/-- C9.  If two input rows have different lengths, grid construction fails
with the inconsistent-row-width error and produces no grid value, both in
the day12 region maps and in the day16b maze parser. -/
theorem construction_requires_equal_widths (lines : List (List Char))
    (l1 l2 : List Char) (h1 : l1 ∈ lines) (h2 : l2 ∈ lines)
    (hne : l1.length ≠ l2.length) :
    (∃ e, Day12.Map.new lines = .error e) ∧
    (∀ m, Day12.Map.new lines ≠ .ok m) ∧
    (∃ e, Day16b.State.new lines = .error e) ∧
    (∀ s, Day16b.State.new lines ≠ .ok s) := by
  have hw := dedup_length_ne_one h1 h2 hne
  have e12 : Day12.Map.new lines = .error "expected all lines to the same length" := by
    unfold Day12.Map.new
    rw [if_pos hw]
  have e16 : Day16b.State.new lines = .error "uneven map lines" := by
    unfold Day16b.State.new
    rw [if_pos hw]
  refine ⟨⟨_, e12⟩, ?_, ⟨_, e16⟩, ?_⟩
  · intro m hm
    rw [e12] at hm
    cases hm
  · intro s hs
    rw [e16] at hs
    cases hs

/-- Witness for C9: rows `".."` and `"."` (lengths 2 and 1) make both
constructors fail. -/
theorem construction_requires_equal_widths_witness :
    (∃ e, Day12.Map.new [['.', '.'], ['.']] = .error e) ∧
    (∀ m, Day12.Map.new [['.', '.'], ['.']] ≠ .ok m) ∧
    (∃ e, Day16b.State.new [['.', '.'], ['.']] = .error e) ∧
    (∀ s, Day16b.State.new [['.', '.'], ['.']] ≠ .ok s) :=
  construction_requires_equal_widths [['.', '.'], ['.']] ['.', '.'] ['.']
    (by decide) (by decide) (by decide)

namespace Day16b

/-- One predecessor step in the record table built by the loop: `b`'s
record is an `Element` whose `previous` list contains `c`. -/
def prevStep (graph : List (Option PathElement)) (w h : Nat) (b c : GraphNode) : Prop :=
  ∃ d prev, graph.getD (b.index w h) none = some (PathElement.Element d prev) ∧ c ∈ prev

/-- `m` is reachable from `n` walking predecessor records backward. -/
def reachable (graph : List (Option PathElement)) (w h : Nat) (n m : GraphNode) : Prop :=
  Relation.ReflTransGen (prevStep graph w h) n m

/-- The set of positions the backward walk denotes: positions of nodes
reachable from some worklist entry.  It depends only on worklist
membership, not on order. -/
def walkSet (graph : List (Option PathElement)) (w h : Nat) (q : List GraphNode) :
    Set Point :=
  {p | ∃ n ∈ q, ∃ m, reachable graph w h n m ∧ m.position = p}

theorem walkSet_nil (graph : List (Option PathElement)) (w h : Nat) :
    walkSet graph w h [] = ∅ := by
  unfold walkSet
  simp

theorem walkSet_append (graph : List (Option PathElement)) (w h : Nat)
    (q1 q2 : List GraphNode) :
    walkSet graph w h (q1 ++ q2) = walkSet graph w h q1 ∪ walkSet graph w h q2 := by
  unfold walkSet
  ext p
  simp only [Set.mem_setOf_eq, Set.mem_union, List.mem_append]
  constructor
  · rintro ⟨n, hn | hn, hm⟩
    · exact Or.inl ⟨n, hn, hm⟩
    · exact Or.inr ⟨n, hn, hm⟩
  · rintro (⟨n, hn, hm⟩ | ⟨n, hn, hm⟩)
    · exact ⟨n, Or.inl hn, hm⟩
    · exact ⟨n, Or.inr hn, hm⟩

theorem walkSet_perm (graph : List (Option PathElement)) (w h : Nat)
    {q1 q2 : List GraphNode} (hperm : q1.Perm q2) :
    walkSet graph w h q1 = walkSet graph w h q2 := by
  unfold walkSet
  ext p
  simp only [Set.mem_setOf_eq]
  constructor
  · rintro ⟨n, hn, hm⟩
    exact ⟨n, hperm.mem_iff.1 hn, hm⟩
  · rintro ⟨n, hn, hm⟩
    exact ⟨n, hperm.mem_iff.2 hn, hm⟩

/-- Unfolding one node of the walk set when its record is an `Element`. -/
theorem walkSet_singleton_elem (graph : List (Option PathElement)) (w h : Nat)
    (node : GraphNode) (d : Nat) (prev : List GraphNode)
    (hrec : graph.getD (node.index w h) none = some (PathElement.Element d prev)) :
    walkSet graph w h [node] = {node.position} ∪ walkSet graph w h prev := by
  unfold walkSet
  ext p
  simp only [Set.mem_setOf_eq, Set.mem_union, Set.mem_singleton_iff, List.mem_singleton]
  constructor
  · rintro ⟨n, rfl, m, hreach, rfl⟩
    rcases Relation.ReflTransGen.cases_head hreach with rfl | ⟨c, hstep, hreach'⟩
    · exact Or.inl rfl
    · rcases hstep with ⟨d', prev', hrec', hc⟩
      rw [hrec] at hrec'
      injection hrec' with h'
      injection h' with hd hp
      subst hd hp
      exact Or.inr ⟨c, hc, m, hreach', rfl⟩
  · rintro (rfl | ⟨c, hc, m, hreach, rfl⟩)
    · exact ⟨node, rfl, node, Relation.ReflTransGen.refl, rfl⟩
    · exact ⟨node, rfl, m,
        Relation.ReflTransGen.head ⟨d, prev, hrec, hc⟩ hreach, rfl⟩

/-- Unfolding one node of the walk set when its record is `Start` or
absent: no predecessor steps exist. -/
theorem walkSet_singleton_other (graph : List (Option PathElement)) (w h : Nat)
    (node : GraphNode)
    (hrec : ∀ d prev, graph.getD (node.index w h) none ≠ some (PathElement.Element d prev)) :
    walkSet graph w h [node] = {node.position} := by
  unfold walkSet
  ext p
  simp only [Set.mem_setOf_eq, Set.mem_singleton_iff, List.mem_singleton]
  constructor
  · rintro ⟨n, rfl, m, hreach, rfl⟩
    rcases Relation.ReflTransGen.cases_head hreach with rfl | ⟨c, hstep, -⟩
    · rfl
    · rcases hstep with ⟨d', prev', hrec', -⟩
      exact absurd hrec' (hrec d' prev')
  · rintro rfl
    exact ⟨node, rfl, node, Relation.ReflTransGen.refl, rfl⟩

/-- The backward walk of day16b.rs computes exactly the walk set of its
initial worklist (plus whatever was pre-accumulated), whatever the order
in which the worklist is processed. -/
theorem walk_spec (s : State) (graph : List (Option PathElement)) :
    ∀ (fuel : Nat) (q : List GraphNode) (acc r : Finset Point),
      s.walk graph fuel q acc = some r →
      (r : Set Point) = ↑acc ∪ walkSet graph s.width s.height q := by
  intro fuel
  induction fuel with
  | zero =>
    intro q acc r h
    unfold State.walk at h
    cases hq : q.getLast? with
    | none =>
      simp only [hq] at h
      injection h with h'
      subst h'
      rw [List.getLast?_eq_none_iff.1 hq, walkSet_nil]
      simp
    | some node =>
      simp [hq] at h
  | succ fuel ih =>
    intro q acc r h
    unfold State.walk at h
    cases hq : q.getLast? with
    | none =>
      simp only [hq] at h
      injection h with h'
      subst h'
      rw [List.getLast?_eq_none_iff.1 hq, walkSet_nil]
      simp
    | some node =>
      simp only [hq] at h
      have hqne : q ≠ [] := by
        intro he
        rw [he] at hq
        cases hq
      have hnode : node = q.getLast hqne := by
        have := List.getLast?_eq_getLast q hqne
        rw [hq] at this
        injection this
      have hdecomp : q.dropLast ++ [node] = q := by
        rw [hnode]
        exact List.dropLast_concat_getLast hqne
      cases hrec : graph.getD (node.index s.width s.height) none with
      | none =>
        simp only [hrec] at h
        have hr := ih _ _ _ h
        have hsingle : walkSet graph s.width s.height [node] = {node.position} :=
          walkSet_singleton_other graph s.width s.height node
            (by rw [hrec]; intro d prev hc; cases hc)
        have hws : walkSet graph s.width s.height q
            = walkSet graph s.width s.height q.dropLast ∪ {node.position} := by
          conv_lhs => rw [← hdecomp]
          rw [walkSet_append, hsingle]
        rw [hr, hws, Finset.coe_insert]
        ext p
        simp only [Set.mem_union, Set.mem_insert_iff, Set.mem_singleton_iff]
        tauto
      | some pe =>
        cases pe with
        | Start =>
          simp only [hrec] at h
          have hr := ih _ _ _ h
          have hsingle : walkSet graph s.width s.height [node] = {node.position} :=
            walkSet_singleton_other graph s.width s.height node
              (by rw [hrec]; intro d prev hc; cases hc)
          have hws : walkSet graph s.width s.height q
              = walkSet graph s.width s.height q.dropLast ∪ {node.position} := by
            conv_lhs => rw [← hdecomp]
            rw [walkSet_append, hsingle]
          rw [hr, hws, Finset.coe_insert]
          ext p
          simp only [Set.mem_union, Set.mem_insert_iff, Set.mem_singleton_iff]
          tauto
        | Element d prev =>
          simp only [hrec] at h
          have hr := ih _ _ _ h
          have hws : walkSet graph s.width s.height q
              = walkSet graph s.width s.height q.dropLast ∪
                ({node.position} ∪ walkSet graph s.width s.height prev) := by
            conv_lhs => rw [← hdecomp]
            rw [walkSet_append, walkSet_singleton_elem graph s.width s.height node d prev hrec]
          rw [hr, walkSet_append, hws, Finset.coe_insert]
          ext p
          simp only [Set.mem_union, Set.mem_insert_iff, Set.mem_singleton_iff]
          tauto

end Day16b

namespace Day12

/-- `Point` from day12a.rs / day12b.rs (`usize` coordinates). -/
structure Point where
  x : Nat
  y : Nat
deriving DecidableEq, Repr

/-- Row-major cell index `y * width + x`. -/
def Map.idx (m : Map) (p : Point) : Nat := p.y * m.width + p.x

/-- The perimeter contribution of the out-of-bounds sides of `p`, added
while day12a.rs builds `possible_neighbors` (lines 111-148): one unit per
grid edge the cell touches, in the order left, right, up, down. -/
def Map.oobCount (m : Map) (p : Point) : Nat :=
  (if 1 ≤ p.x then 0 else 1) + (if p.x + 1 < m.width then 0 else 1) +
    (if 1 ≤ p.y then 0 else 1) + (if p.y + 1 < m.height then 0 else 1)

/-- The in-bounds entries of `possible_neighbors` (day12a.rs lines
111-148), in construction order: left, right, up, down. -/
def Map.possibleNeighbors (m : Map) (p : Point) : List Point :=
  (if 1 ≤ p.x then [⟨p.x - 1, p.y⟩] else []) ++
    (if p.x + 1 < m.width then [⟨p.x + 1, p.y⟩] else []) ++
    (if 1 ≤ p.y then [⟨p.x, p.y - 1⟩] else []) ++
    (if p.y + 1 < m.height then [⟨p.x, p.y + 1⟩] else [])

/-- The neighbor loop of `Map::visit` (day12a.rs lines 149-161), with the
recursive call abstracted as `recv`: same-symbol unvisited neighbors are
visited recursively (their area/perimeter accumulate), same-symbol visited
neighbors contribute nothing, different-symbol neighbors add one perimeter
unit. -/
def Map.visitChildrenWith (m : Map)
    (recv : Point → List Bool → Option (Nat × Nat × List Bool)) (sym : Char) :
    List Point → Nat → Nat → List Bool → Option (Nat × Nat × List Bool)
  | [], area, perim, visited => some (area, perim, visited)
  | n :: rest, area, perim, visited =>
      if m.data.getD (m.idx n) ' ' = sym then
        if visited.getD (m.idx n) true then
          m.visitChildrenWith recv sym rest area perim visited
        else
          match recv n visited with
          | none => none
          | some (ca, cp, visited') =>
              m.visitChildrenWith recv sym rest (area + ca) (perim + cp) visited'
      else
        m.visitChildrenWith recv sym rest area (perim + 1) visited

/-- `Map::visit` from day12a.rs (lines 102-164): mark the cell visited,
then fold the neighbor loop; area starts at 1 and perimeter at the
out-of-bounds contribution.  The Rust recursion is bounded by the number
of unvisited cells; the embedding uses fuel, and fuel `width * height`
always suffices (`visitF_isSome`). -/
def Map.visitF (m : Map) : Nat → Point → List Bool → Option (Nat × Nat × List Bool)
  | 0, _, _ => none
  | fuel + 1, p, visited =>
      m.visitChildrenWith (fun n v => m.visitF fuel n v) (m.data.getD (m.idx p) ' ')
        (m.possibleNeighbors p) 1 (m.oobCount p) (visited.set (m.idx p) true)

/-- The scan order of `Map::solve` (day12a.rs lines 90-98): `y` outer, `x`
inner, so the running index is exactly `y * width + x`. -/
def Map.solveCells (m : Map) : List Point :=
  (List.range m.height).flatMap fun y => (List.range m.width).map fun x => ⟨x, y⟩

/-- `Map::solve` from day12a.rs (lines 83-100): flood-fill every yet
unvisited cell in scan order and sum `area * perimeter`.  Fuel exhaustion
of a visit (impossible: `visitF_isSome`) surfaces as `none`. -/
def Map.solveF (m : Map) : Option (Nat × List Bool) :=
  m.solveCells.foldlM
    (fun st p =>
      if st.2.getD (m.idx p) true then some st
      else
        match m.visitF (m.width * m.height) p st.2 with
        | none => none
        | some (a, per, v') => some (st.1 + a * per, v'))
    (0, List.replicate (m.width * m.height) false)

/-- The cells a single flood-fill pass newly visited: the indices true in
`after` but not in `before`. -/
def regionCells (before after : List Bool) : List Nat :=
  (List.range after.length).filter fun j => after.getD j false && ! before.getD j false

/-- The same scan as `Map.solveF`, additionally recording, for each
top-level flood fill, the set of cells that fill visited (the difference
between the visited array after and before the call).  This instruments
the day12a.rs scan without changing any call it makes. -/
def Map.regionsF (m : Map) : Option (List (List Nat) × List Bool) :=
  m.solveCells.foldlM
    (fun st p =>
      if st.2.getD (m.idx p) true then some st
      else
        match m.visitF (m.width * m.height) p st.2 with
        | none => none
        | some (_, _, v') => some (st.1 ++ [regionCells st.2 v'], v'))
    ([], List.replicate (m.width * m.height) false)

/-- Visited-array evolution produced by flood-fill steps: same length,
true cells only grow, false count only shrinks. -/
def VisitedLe (v v' : List Bool) : Prop :=
  v'.length = v.length ∧ (∀ j, v.getD j false = true → v'.getD j false = true) ∧
    v'.count false ≤ v.count false

theorem VisitedLe.refl (v : List Bool) : VisitedLe v v :=
  ⟨rfl, fun _ h => h, Nat.le_refl _⟩

theorem VisitedLe.trans {v1 v2 v3 : List Bool} (h1 : VisitedLe v1 v2)
    (h2 : VisitedLe v2 v3) : VisitedLe v1 v3 :=
  ⟨h2.1.trans h1.1, fun j hj => h2.2.1 j (h1.2.1 j hj), h2.2.2.trans h1.2.2⟩

theorem count_false_set_true_le (v : List Bool) (j : Nat) :
    (v.set j true).count false ≤ v.count false := by
  induction v generalizing j with
  | nil => simp
  | cons b t ih =>
    cases j with
    | zero =>
      cases b <;> simp [List.count_cons]
    | succ j' =>
      simp only [List.set]
      cases b <;> simp [List.count_cons, ih j']

theorem count_false_set_true (v : List Bool) (j : Nat) (hj : j < v.length)
    (hv : v.getD j false = false) :
    (v.set j true).count false + 1 = v.count false := by
  induction v generalizing j with
  | nil => simp at hj
  | cons b t ih =>
    cases j with
    | zero =>
      simp only [List.getD_cons_zero] at hv
      subst hv
      simp [List.count_cons]
    | succ j' =>
      simp only [List.getD_cons_succ] at hv
      simp only [List.length_cons, Nat.succ_lt_succ_iff] at hj
      simp only [List.set]
      cases b <;> simp [List.count_cons, ← ih j' hj hv] <;> omega

theorem set_true_visitedLe (v : List Bool) (j : Nat) :
    VisitedLe v (v.set j true) := by
  refine ⟨List.length_set v j true, ?_, count_false_set_true_le v j⟩
  intro k hk
  rw [Util.getD_set]
  split
  · rfl
  · exact hk

end Day12

namespace Day12

theorem getD_true_false {v : List Bool} {j : Nat} (h : v.getD j true = false) :
    v.getD j false = false := by
  rcases Nat.lt_or_ge j v.length with hj | hj
  · rw [List.getD_eq_getElem?_getD] at h ⊢
    rw [List.getElem?_eq_getElem hj] at h ⊢
    exact h
  · rw [List.getD_eq_getElem?_getD, List.getElem?_eq_none hj] at h
    cases h

theorem getD_false_lt {v : List Bool} {j : Nat} (h : v.getD j false = true) :
    j < v.length := by
  by_contra hge
  rw [List.getD_eq_getElem?_getD, List.getElem?_eq_none (Nat.le_of_not_lt hge)] at h
  cases h

theorem count_false_pos {v : List Bool} {j : Nat} (hj : j < v.length)
    (h : v.getD j false = false) : 0 < v.count false := by
  have := count_false_set_true v j hj h
  omega

theorem visitChildrenWith_visitedLe (m : Map)
    (recv : Point → List Bool → Option (Nat × Nat × List Bool))
    (hrec : ∀ n v a per v', recv n v = some (a, per, v') → VisitedLe v v') :
    ∀ (l : List Point) (sym : Char) (area perim : Nat) (v : List Bool)
      (a per : Nat) (v' : List Bool),
      m.visitChildrenWith recv sym l area perim v = some (a, per, v') →
      VisitedLe v v' := by
  intro l
  induction l with
  | nil =>
    intro sym area perim v a per v' h
    simp only [Map.visitChildrenWith, Option.some.injEq, Prod.mk.injEq] at h
    obtain ⟨-, -, rfl⟩ := h
    exact VisitedLe.refl v
  | cons n rest ih =>
    intro sym area perim v a per v' h
    simp only [Map.visitChildrenWith] at h
    by_cases h1 : m.data.getD (m.idx n) ' ' = sym
    · rw [if_pos h1] at h
      by_cases h2 : v.getD (m.idx n) true = true
      · rw [if_pos h2] at h
        exact ih _ _ _ _ _ _ _ h
      · rw [if_neg h2] at h
        cases hr : recv n v with
        | none => rw [hr] at h; cases h
        | some t =>
          obtain ⟨ca, cp, vc⟩ := t
          simp only [hr] at h
          exact (hrec n v ca cp vc hr).trans (ih _ _ _ _ _ _ _ h)
    · rw [if_neg h1] at h
      exact ih _ _ _ _ _ _ _ h

theorem visitF_visitedLe (m : Map) :
    ∀ (fuel : Nat) (p : Point) (v : List Bool) (a per : Nat) (v' : List Bool),
      m.visitF fuel p v = some (a, per, v') → VisitedLe v v' := by
  intro fuel
  induction fuel with
  | zero =>
    intro p v a per v' h
    simp [Map.visitF] at h
  | succ fuel ih =>
    intro p v a per v' h
    simp only [Map.visitF] at h
    exact (set_true_visitedLe v (m.idx p)).trans
      (visitChildrenWith_visitedLe m (fun n w => m.visitF fuel n w)
        (fun n w a' per' w' hr => ih n w a' per' w' hr) _ _ _ _ _ _ _ _ h)

theorem visitF_marks (m : Map) (fuel : Nat) (p : Point) (v : List Bool)
    (a per : Nat) (v' : List Bool) (h : m.visitF fuel p v = some (a, per, v'))
    (hj : m.idx p < v.length) : v'.getD (m.idx p) false = true := by
  cases fuel with
  | zero => simp [Map.visitF] at h
  | succ fuel =>
    simp only [Map.visitF] at h
    have hle := visitChildrenWith_visitedLe m (fun n w => m.visitF fuel n w)
      (fun n w a' per' w' hr => visitF_visitedLe m fuel n w a' per' w' hr) _ _ _ _ _ _ _ _ h
    apply hle.2.1
    rw [Util.getD_set, if_pos ⟨rfl, hj⟩]

theorem idx_lt (m : Map) (p : Point) (hx : p.x < m.width) (hy : p.y < m.height) :
    m.idx p < m.width * m.height := by
  unfold Map.idx
  calc p.y * m.width + p.x < (p.y + 1) * m.width := by rw [Nat.add_mul]; omega
    _ ≤ m.height * m.width := Nat.mul_le_mul_right m.width hy
    _ = m.width * m.height := Nat.mul_comm m.height m.width

theorem possibleNeighbors_inGrid (m : Map) (p : Point)
    (hx : p.x < m.width) (hy : p.y < m.height) :
    ∀ n ∈ m.possibleNeighbors p, n.x < m.width ∧ n.y < m.height := by
  intro n hn
  unfold Map.possibleNeighbors at hn
  simp only [List.mem_append] at hn
  rcases hn with ((hn | hn) | hn) | hn
  · split at hn
    · simp only [List.mem_singleton] at hn
      subst hn
      exact ⟨show p.x - 1 < m.width by omega, hy⟩
    · simp at hn
  · split at hn
    · next hcond =>
      simp only [List.mem_singleton] at hn
      subst hn
      exact ⟨hcond, hy⟩
    · simp at hn
  · split at hn
    · simp only [List.mem_singleton] at hn
      subst hn
      exact ⟨hx, show p.y - 1 < m.height by omega⟩
    · simp at hn
  · split at hn
    · next hcond =>
      simp only [List.mem_singleton] at hn
      subst hn
      exact ⟨hx, hcond⟩
    · simp at hn

theorem visitChildrenWith_visitF_isSome (m : Map) (fuel : Nat)
    (ihrec : ∀ n v, v.length = m.width * m.height → n.x < m.width → n.y < m.height →
      v.getD (m.idx n) false = false → v.count false ≤ fuel →
      ∃ r, m.visitF fuel n v = some r) :
    ∀ (l : List Point) (sym : Char) (area perim : Nat) (v : List Bool),
      (∀ n ∈ l, n.x < m.width ∧ n.y < m.height) →
      v.length = m.width * m.height → v.count false ≤ fuel →
      ∃ r, m.visitChildrenWith (fun n w => m.visitF fuel n w) sym l area perim v = some r := by
  intro l
  induction l with
  | nil =>
    intro sym area perim v _ _ _
    exact ⟨(area, perim, v), rfl⟩
  | cons n rest ih =>
    intro sym area perim v hgrid hlen hcount
    simp only [Map.visitChildrenWith]
    by_cases h1 : m.data.getD (m.idx n) ' ' = sym
    · rw [if_pos h1]
      by_cases h2 : v.getD (m.idx n) true = true
      · rw [if_pos h2]
        exact ih sym area perim v (fun q hq => hgrid q (List.mem_cons_of_mem n hq)) hlen hcount
      · rw [if_neg h2]
        have hfalse : v.getD (m.idx n) false = false :=
          getD_true_false (Bool.not_eq_true _ ▸ Bool.of_not_eq_true h2)
        obtain ⟨hnx, hny⟩ := hgrid n (List.mem_cons_self n rest)
        obtain ⟨r, hr⟩ := ihrec n v hlen hnx hny hfalse hcount
        obtain ⟨ca, cp, vc⟩ := r
        rw [hr]
        have hle := visitF_visitedLe m fuel n v ca cp vc hr
        exact ih sym (area + ca) (perim + cp) vc
          (fun q hq => hgrid q (List.mem_cons_of_mem n hq))
          (hle.1.trans hlen) (hle.2.2.trans hcount)
    · rw [if_neg h1]
      exact ih sym area (perim + 1) v (fun q hq => hgrid q (List.mem_cons_of_mem n hq)) hlen hcount

theorem visitF_isSome (m : Map) :
    ∀ (fuel : Nat) (p : Point) (v : List Bool),
      v.length = m.width * m.height → p.x < m.width → p.y < m.height →
      v.getD (m.idx p) false = false → v.count false ≤ fuel →
      ∃ r, m.visitF fuel p v = some r := by
  intro fuel
  induction fuel with
  | zero =>
    intro p v hlen hx hy hfalse hcount
    exfalso
    have hj : m.idx p < v.length := hlen ▸ idx_lt m p hx hy
    have := count_false_pos hj hfalse
    omega
  | succ fuel ih =>
    intro p v hlen hx hy hfalse hcount
    simp only [Map.visitF]
    have hj : m.idx p < v.length := hlen ▸ idx_lt m p hx hy
    have hcount' : (v.set (m.idx p) true).count false ≤ fuel := by
      have := count_false_set_true v (m.idx p) hj hfalse
      omega
    exact visitChildrenWith_visitF_isSome m fuel
      (fun n w hl hnx hny hf hc => ih n w hl hnx hny hf hc)
      (m.possibleNeighbors p) (m.data.getD (m.idx p) ' ') 1 (m.oobCount p)
      (v.set (m.idx p) true)
      (fun n hn => possibleNeighbors_inGrid m p hx hy n hn)
      ((List.length_set v (m.idx p) true).trans hlen) hcount'

end Day12

namespace Day12

theorem getD_eq_of_lt {α : Type} (v : List α) (j : Nat) (h : j < v.length) (d1 d2 : α) :
    v.getD j d1 = v.getD j d2 := by
  rw [List.getD_eq_getElem?_getD, List.getD_eq_getElem?_getD, List.getElem?_eq_getElem h]
  rfl

theorem mem_regionCells (b a : List Bool) (j : Nat) :
    j ∈ regionCells b a ↔
      j < a.length ∧ a.getD j false = true ∧ b.getD j false = false := by
  unfold regionCells
  rw [List.mem_filter, List.mem_range]
  rw [Bool.and_eq_true, Bool.not_eq_true']

theorem mem_solveCells (m : Map) (p : Point) :
    p ∈ m.solveCells ↔ p.x < m.width ∧ p.y < m.height := by
  unfold Map.solveCells
  rw [List.mem_flatMap]
  constructor
  · rintro ⟨y, hy, hp⟩
    rw [List.mem_range] at hy
    rw [List.mem_map] at hp
    rcases hp with ⟨x, hx, rfl⟩
    rw [List.mem_range] at hx
    exact ⟨hx, hy⟩
  · rintro ⟨hx, hy⟩
    exact ⟨p.y, List.mem_range.2 hy,
      List.mem_map.2 ⟨p.x, List.mem_range.2 hx, rfl⟩⟩

theorem solveCells_surj (m : Map) (j : Nat) (hj : j < m.width * m.height) :
    ∃ p ∈ m.solveCells, m.idx p = j := by
  have hw : 0 < m.width := by
    rcases Nat.eq_zero_or_pos m.width with h0 | h
    · rw [h0] at hj; simp at hj
    · exact h
  refine ⟨⟨j % m.width, j / m.width⟩, ?_, ?_⟩
  · rw [mem_solveCells]
    refine ⟨Nat.mod_lt j hw, ?_⟩
    have : j / m.width < m.height := by
      rw [Nat.div_lt_iff_lt_mul hw]
      rw [Nat.mul_comm] at hj
      exact hj
    exact this
  · show j / m.width * m.width + j % m.width = j
    rw [Nat.mul_comm (j / m.width) m.width]
    exact Nat.div_add_mod j m.width

/-- The invariant of the day12a region scan: the visited array has grid
size, the regions found so far cover exactly the visited cells, and they
are pairwise disjoint. -/
def RegionsInv (m : Map) (regions : List (List Nat)) (v : List Bool) : Prop :=
  v.length = m.width * m.height ∧
    (∀ j, (∃ r ∈ regions, j ∈ r) ↔ v.getD j false = true) ∧
    List.Pairwise (fun r1 r2 => ∀ j, j ∈ r1 → j ∉ r2) regions

theorem regions_scan (m : Map) :
    ∀ (cells : List Point) (regions : List (List Nat)) (v : List Bool),
      (∀ p ∈ cells, p.x < m.width ∧ p.y < m.height) →
      RegionsInv m regions v →
      ∃ regions' v',
        (cells.foldlM
          (fun st p =>
            if st.2.getD (m.idx p) true then some st
            else
              match m.visitF (m.width * m.height) p st.2 with
              | none => none
              | some (_, _, v1) => some (st.1 ++ [regionCells st.2 v1], v1))
          (regions, v)) = some (regions', v') ∧
        RegionsInv m regions' v' ∧
        (∀ p ∈ cells, v'.getD (m.idx p) false = true) ∧
        (∀ j, v.getD j false = true → v'.getD j false = true) := by
  intro cells
  induction cells with
  | nil =>
    intro regions v _ hinv
    exact ⟨regions, v, rfl, hinv, by simp, fun j h => h⟩
  | cons p rest ih =>
    intro regions v hgrid hinv
    obtain ⟨hlen, hcov, hdisj⟩ := hinv
    obtain ⟨hpx, hpy⟩ := hgrid p (List.mem_cons_self p rest)
    have hjlt : m.idx p < v.length := hlen ▸ idx_lt m p hpx hpy
    rw [List.foldlM_cons]
    by_cases hvis : v.getD (m.idx p) true = true
    · simp only [hvis, if_pos]
      obtain ⟨regions', v', hfold, hinv', hrest, hmono⟩ :=
        ih regions v (fun q hq => hgrid q (List.mem_cons_of_mem p hq)) ⟨hlen, hcov, hdisj⟩
      refine ⟨regions', v', hfold, hinv', ?_, hmono⟩
      intro q hq
      rcases List.mem_cons.1 hq with rfl | hq'
      · apply hmono
        rw [getD_eq_of_lt v (m.idx q) hjlt false true]
        exact hvis
      · exact hrest q hq'
    · simp only [hvis, if_neg, Bool.false_eq_true, not_false_eq_true]
      have hfalse : v.getD (m.idx p) false = false :=
        getD_true_false (Bool.not_eq_true _ ▸ Bool.of_not_eq_true hvis)
      obtain ⟨r, hr⟩ := visitF_isSome m (m.width * m.height) p v hlen hpx hpy hfalse
        (hlen ▸ List.count_le_length false v)
      obtain ⟨a, per, v1⟩ := r
      rw [hr]
      have hle := visitF_visitedLe m (m.width * m.height) p v a per v1 hr
      have hinv1 : RegionsInv m (regions ++ [regionCells v v1]) v1 := by
        refine ⟨hle.1.trans hlen, ?_, ?_⟩
        · intro j
          constructor
          · rintro ⟨rg, hrg, hjrg⟩
            rcases List.mem_append.1 hrg with hold | hnew
            · exact hle.2.1 j ((hcov j).1 ⟨rg, hold, hjrg⟩)
            · rw [List.mem_singleton] at hnew
              subst hnew
              exact ((mem_regionCells v v1 j).1 hjrg).2.1
          · intro hj1
            by_cases hjv : v.getD j false = true
            · rcases (hcov j).2 hjv with ⟨rg, hrg, hjrg⟩
              exact ⟨rg, List.mem_append_left _ hrg, hjrg⟩
            · refine ⟨regionCells v v1, List.mem_append_right _ (List.mem_singleton.2 rfl), ?_⟩
              rw [mem_regionCells]
              exact ⟨getD_false_lt hj1, hj1, Bool.not_eq_true _ ▸ hjv⟩
        · rw [List.pairwise_append]
          refine ⟨hdisj, List.pairwise_singleton _ _, ?_⟩
          intro rg hrg rc hrc j hjrg
          rw [List.mem_singleton] at hrc
          subst hrc
          rw [mem_regionCells]
          rintro ⟨-, -, hjv⟩
          rw [(hcov j).1 ⟨rg, hrg, hjrg⟩] at hjv
          cases hjv
      obtain ⟨regions', v', hfold, hinv', hrest, hmono⟩ :=
        ih (regions ++ [regionCells v v1]) v1
          (fun q hq => hgrid q (List.mem_cons_of_mem p hq)) hinv1
      refine ⟨regions', v', hfold, hinv', ?_, ?_⟩
      · intro q hq
        rcases List.mem_cons.1 hq with rfl | hq'
        · exact hmono _ (visitF_marks m (m.width * m.height) q v a per v1 hr hjlt)
        · exact hrest q hq'
      · intro j hj
        exact hmono j (hle.2.1 j hj)

/-- C7.  One full scan of the day12a flood-fill engine partitions the
grid: the scan succeeds, the recorded regions are pairwise disjoint, and
a cell index belongs to some region exactly when it is a grid cell — so
every cell lies in exactly one region and no region is double-counted. -/
theorem regions_partition (m : Map) :
    ∃ regions v,
      m.regionsF = some (regions, v) ∧
      List.Pairwise (fun r1 r2 => ∀ j, j ∈ r1 → j ∉ r2) regions ∧
      ∀ j, (∃ r ∈ regions, j ∈ r) ↔ j < m.width * m.height := by
  have hinit : RegionsInv m [] (List.replicate (m.width * m.height) false) := by
    refine ⟨List.length_replicate _ _, ?_, List.Pairwise.nil⟩
    intro j
    rw [Util.getD_replicate]
    constructor
    · rintro ⟨r, hr, -⟩
      simp at hr
    · intro h
      split at h <;> cases h
  obtain ⟨regions, v, hfold, hinv, hcells, -⟩ :=
    regions_scan m m.solveCells [] (List.replicate (m.width * m.height) false)
      (fun p hp => (mem_solveCells m p).1 hp) hinit
  refine ⟨regions, v, hfold, hinv.2.2, ?_⟩
  intro j
  rw [hinv.2.1 j]
  constructor
  · intro hj
    have := getD_false_lt hj
    rw [hinv.1] at this
    exact this
  · intro hj
    obtain ⟨p, hp, hidx⟩ := solveCells_surj m j hj
    rw [← hidx]
    exact hcells p hp

end Day12

namespace Day12

/-- In-grid coordinates. -/
def InGrid (m : Map) (p : Point) : Prop := p.x < m.width ∧ p.y < m.height

/-- The all-same-symbol rectangular grid of the perimeter-consistency
property. -/
def uniformMap (w h : Nat) (c : Char) : Map := ⟨w, h, List.replicate (w * h) c⟩

theorem idx_inj (m : Map) (p q : Point) (hp : InGrid m p) (hq : InGrid m q)
    (h : m.idx p = m.idx q) : p = q := by
  obtain ⟨hy, hx⟩ := Util.mul_add_lt_inj hp.1 hq.1 h
  rcases p with ⟨px, py⟩
  rcases q with ⟨qx, qy⟩
  simp_all

theorem uniform_getD (w h : Nat) (c : Char) (p : Point)
    (hp : InGrid (uniformMap w h c) p) :
    (uniformMap w h c).data.getD ((uniformMap w h c).idx p) ' ' = c := by
  have hlt : (uniformMap w h c).idx p < w * h := idx_lt (uniformMap w h c) p hp.1 hp.2
  show (List.replicate (w * h) c).getD _ ' ' = c
  rw [Util.getD_replicate, if_pos hlt]

/-- On a uniform map every processed neighbor of a children fold ends up
visited in its output. -/
theorem visitChildrenWith_covers (m : Map)
    (recv : Point → List Bool → Option (Nat × Nat × List Bool))
    (hrec_mono : ∀ n v a per v', recv n v = some (a, per, v') → VisitedLe v v')
    (hrec_marks : ∀ n v a per v', recv n v = some (a, per, v') →
      m.idx n < v.length → v'.getD (m.idx n) false = true)
    (sym : Char)
    (hsym : ∀ n, InGrid m n → m.data.getD (m.idx n) ' ' = sym)
    (hlen : ∀ n v a per v', recv n v = some (a, per, v') → v'.length = v.length) :
    ∀ (l : List Point) (area perim : Nat) (v : List Bool) (a per : Nat) (v' : List Bool),
      (∀ n ∈ l, InGrid m n) →
      (∀ n ∈ l, m.idx n < v.length) →
      m.visitChildrenWith recv sym l area perim v = some (a, per, v') →
      ∀ n ∈ l, v'.getD (m.idx n) false = true := by
  intro l
  induction l with
  | nil =>
    intro area perim v a per v' _ _ _ n hn
    simp at hn
  | cons q rest ih =>
    intro area perim v a per v' hgrid hidx h n hn
    simp only [Map.visitChildrenWith] at h
    rw [if_pos (hsym q (hgrid q (List.mem_cons_self q rest)))] at h
    by_cases h2 : v.getD (m.idx q) true = true
    · rw [if_pos h2] at h
      rcases List.mem_cons.1 hn with rfl | hn'
      · have hmem :=
          visitChildrenWith_visitedLe m recv hrec_mono _ _ _ _ _ _ _ _ h
        apply hmem.2.1
        rw [getD_eq_of_lt v (m.idx n) (hidx n hn) false true]
        exact h2
      · exact ih area perim v a per v'
          (fun x hx => hgrid x (List.mem_cons_of_mem q hx))
          (fun x hx => hidx x (List.mem_cons_of_mem q hx)) h n hn'
    · rw [if_neg h2] at h
      cases hr : recv q v with
      | none => rw [hr] at h; cases h
      | some t =>
        obtain ⟨ca, cp, vc⟩ := t
        simp only [hr] at h
        have hvclen : vc.length = v.length := hlen q v ca cp vc hr
        rcases List.mem_cons.1 hn with rfl | hn'
        · have hmarked : vc.getD (m.idx n) false = true :=
            hrec_marks n v ca cp vc hr (hidx n (List.mem_cons_self n rest))
          have hmem :=
            visitChildrenWith_visitedLe m recv hrec_mono _ _ _ _ _ _ _ _ h
          exact hmem.2.1 _ hmarked
        · exact ih (area + ca) (perim + cp) vc a per v'
            (fun x hx => hgrid x (List.mem_cons_of_mem q hx))
            (fun x hx => hvclen ▸ hidx x (List.mem_cons_of_mem q hx)) h n hn'

/-- Closure for the children fold: any cell newly visited by the fold has
all its in-bounds neighbors visited in the fold's output (the recursive
calls are assumed closed in the same sense). -/
theorem visitChildrenWith_closure (m : Map)
    (recv : Point → List Bool → Option (Nat × Nat × List Bool))
    (hrec_mono : ∀ n v a per v', recv n v = some (a, per, v') → VisitedLe v v')
    (hrec_closure : ∀ n v a per v', InGrid m n → v.length = m.width * m.height →
      recv n v = some (a, per, v') →
      ∀ q, InGrid m q → v'.getD (m.idx q) false = true → v.getD (m.idx q) false = false →
        ∀ nb ∈ m.possibleNeighbors q, v'.getD (m.idx nb) false = true)
    (sym : Char) :
    ∀ (l : List Point) (area perim : Nat) (v : List Bool) (a per : Nat) (v' : List Bool),
      (∀ n ∈ l, InGrid m n) →
      v.length = m.width * m.height →
      m.visitChildrenWith recv sym l area perim v = some (a, per, v') →
      ∀ q, InGrid m q → v'.getD (m.idx q) false = true → v.getD (m.idx q) false = false →
        ∀ nb ∈ m.possibleNeighbors q, v'.getD (m.idx nb) false = true := by
  intro l
  induction l with
  | nil =>
    intro area perim v a per v' _ _ h q _ hq1 hq0 nb hnb
    simp only [Map.visitChildrenWith, Option.some.injEq, Prod.mk.injEq] at h
    obtain ⟨-, -, rfl⟩ := h
    rw [hq1] at hq0
    cases hq0
  | cons n rest ih =>
    intro area perim v a per v' hgrid hvlen h q hqg hq1 hq0 nb hnb
    simp only [Map.visitChildrenWith] at h
    by_cases h1 : m.data.getD (m.idx n) ' ' = sym
    · rw [if_pos h1] at h
      by_cases h2 : v.getD (m.idx n) true = true
      · rw [if_pos h2] at h
        exact ih area perim v a per v'
          (fun x hx => hgrid x (List.mem_cons_of_mem n hx)) hvlen h q hqg hq1 hq0 nb hnb
      · rw [if_neg h2] at h
        cases hr : recv n v with
        | none => rw [hr] at h; cases h
        | some t =>
          obtain ⟨ca, cp, vc⟩ := t
          simp only [hr] at h
          have hvclen : vc.length = m.width * m.height :=
            (hrec_mono n v ca cp vc hr).1.trans hvlen
          by_cases hqvc : vc.getD (m.idx q) false = true
          · have hnbvc := hrec_closure n v ca cp vc
              (hgrid n (List.mem_cons_self n rest)) hvlen hr q hqg hqvc hq0 nb hnb
            have hmem :=
              visitChildrenWith_visitedLe m recv hrec_mono _ _ _ _ _ _ _ _ h
            exact hmem.2.1 _ hnbvc
          · exact ih (area + ca) (perim + cp) vc a per v'
              (fun x hx => hgrid x (List.mem_cons_of_mem n hx)) hvclen h q hqg hq1
              (Bool.not_eq_true _ ▸ hqvc) nb hnb
    · rw [if_neg h1] at h
      exact ih area (perim + 1) v a per v'
        (fun x hx => hgrid x (List.mem_cons_of_mem n hx)) hvlen h q hqg hq1 hq0 nb hnb

/-- Closure for a full visit on a uniform map: every cell the visit newly
marks has all its in-bounds neighbors marked in the final visited array. -/
theorem visitF_closure (w h : Nat) (c : Char) :
    ∀ (fuel : Nat) (p : Point) (v : List Bool) (a per : Nat) (v' : List Bool),
      InGrid (uniformMap w h c) p →
      v.length = w * h →
      (uniformMap w h c).visitF fuel p v = some (a, per, v') →
      ∀ q, InGrid (uniformMap w h c) q →
        v'.getD ((uniformMap w h c).idx q) false = true →
        v.getD ((uniformMap w h c).idx q) false = false →
        ∀ nb ∈ (uniformMap w h c).possibleNeighbors q,
          v'.getD ((uniformMap w h c).idx nb) false = true := by
  intro fuel
  induction fuel with
  | zero =>
    intro p v a per v' _ _ hvis
    simp [Map.visitF] at hvis
  | succ fuel ih =>
    intro p v a per v' hpg hvlen hvis q hqg hq1 hq0 nb hnb
    set m := uniformMap w h c with hm
    have hwh : m.width * m.height = w * h := rfl
    simp only [Map.visitF] at hvis
    have hgrid : ∀ n ∈ m.possibleNeighbors p, InGrid m n := by
      intro n hn
      exact possibleNeighbors_inGrid m p hpg.1 hpg.2 n hn
    by_cases hqvc : (v.set (m.idx p) true).getD (m.idx q) false = true
    · have hqp : q = p := by
        rw [Util.getD_set] at hqvc
        by_cases heq : m.idx p = m.idx q ∧ m.idx p < v.length
        · exact (idx_inj m q p hqg hpg heq.1.symm)
        · rw [if_neg heq] at hqvc
          rw [hq0] at hqvc
          cases hqvc
      subst hqp
      have hcov := visitChildrenWith_covers m (fun n w' => m.visitF fuel n w')
        (fun n w' a' per' w'' hr => visitF_visitedLe m fuel n w' a' per' w'' hr)
        (fun n w' a' per' w'' hr hj => visitF_marks m fuel n w' a' per' w'' hr hj)
        (m.data.getD (m.idx q) ' ')
        (fun n hng => by
          rw [uniform_getD w h c n hng, uniform_getD w h c q hqg])
        (fun n w' a' per' w'' hr => (visitF_visitedLe m fuel n w' a' per' w'' hr).1)
        (m.possibleNeighbors q) 1 (m.oobCount q) (v.set (m.idx q) true) a per v'
        (fun n hn => hgrid n hn)
        (fun n hn => by
          rw [List.length_set, hvlen]
          exact idx_lt m n (hgrid n hn).1 (hgrid n hn).2)
        hvis
      exact hcov nb hnb
    · exact visitChildrenWith_closure m (fun n w' => m.visitF fuel n w')
        (fun n w' a' per' w'' hr => visitF_visitedLe m fuel n w' a' per' w'' hr)
        (fun n w' a' per' w'' hng hwlen hr => ih n w' a' per' w'' hng hwlen hr)
        (m.data.getD (m.idx p) ' ') _ _ _ _ _ _ _ hgrid
        ((List.length_set v (m.idx p) true).trans hvlen) hvis q hqg hq1
        (Bool.not_eq_true _ ▸ hqvc) nb hnb

end Day12

namespace Day12

theorem getD_true_false_lt {v : List Bool} {j : Nat} (h : v.getD j true = false) :
    j < v.length ∧ v.getD j false = false := by
  refine ⟨?_, getD_true_false h⟩
  by_contra hge
  rw [List.getD_eq_getElem?_getD, List.getElem?_eq_none (Nat.le_of_not_lt hge)] at h
  cases h

/-- Area accounting for the children fold: the accumulated area equals the
number of cells that became visited (relative to the accumulator's start
value). -/
theorem visitChildrenWith_area (m : Map)
    (recv : Point → List Bool → Option (Nat × Nat × List Bool))
    (hrec_area : ∀ n v a per v', v.getD (m.idx n) false = false → m.idx n < v.length →
      recv n v = some (a, per, v') → v'.count false + a = v.count false) :
    ∀ (l : List Point) (sym : Char) (area perim : Nat) (v : List Bool)
      (a per : Nat) (v' : List Bool),
      m.visitChildrenWith recv sym l area perim v = some (a, per, v') →
      v'.count false + a = v.count false + area := by
  intro l
  induction l with
  | nil =>
    intro sym area perim v a per v' h
    simp only [Map.visitChildrenWith, Option.some.injEq, Prod.mk.injEq] at h
    obtain ⟨rfl, -, rfl⟩ := h
    omega
  | cons n rest ih =>
    intro sym area perim v a per v' h
    simp only [Map.visitChildrenWith] at h
    by_cases h1 : m.data.getD (m.idx n) ' ' = sym
    · rw [if_pos h1] at h
      by_cases h2 : v.getD (m.idx n) true = true
      · rw [if_pos h2] at h
        exact ih _ _ _ _ _ _ _ h
      · rw [if_neg h2] at h
        obtain ⟨hjlt, hjfalse⟩ := getD_true_false_lt (Bool.of_not_eq_true h2)
        cases hr : recv n v with
        | none => rw [hr] at h; cases h
        | some t =>
          obtain ⟨ca, cp, vc⟩ := t
          simp only [hr] at h
          have hchild := hrec_area n v ca cp vc hjfalse hjlt hr
          have hrest := ih _ _ _ _ _ _ _ h
          omega
    · rw [if_neg h1] at h
      exact ih _ _ _ _ _ _ _ h

theorem visitF_area (m : Map) :
    ∀ (fuel : Nat) (p : Point) (v : List Bool) (a per : Nat) (v' : List Bool),
      v.getD (m.idx p) false = false → m.idx p < v.length →
      m.visitF fuel p v = some (a, per, v') →
      v'.count false + a = v.count false := by
  intro fuel
  induction fuel with
  | zero =>
    intro p v a per v' _ _ h
    simp [Map.visitF] at h
  | succ fuel ih =>
    intro p v a per v' hfalse hlt h
    simp only [Map.visitF] at h
    have hchild := visitChildrenWith_area m (fun n w => m.visitF fuel n w)
      (fun n w a' per' w' hf hl hr => ih n w a' per' w' hf hl hr) _ _ _ _ _ _ _ _ h
    have hset := count_false_set_true v (m.idx p) hlt hfalse
    omega

/-- The out-of-bounds perimeter weight of the visited cells. -/
def osum (m : Map) (v : List Bool) : Nat :=
  ∑ y ∈ Finset.range m.height, ∑ x ∈ Finset.range m.width,
    (if v.getD (m.idx ⟨x, y⟩) false = true then m.oobCount ⟨x, y⟩ else 0)

theorem osum_set (m : Map) (v : List Bool) (q : Point) (hq : InGrid m q)
    (hvlen : v.length = m.width * m.height) (hq0 : v.getD (m.idx q) false = false) :
    osum m (v.set (m.idx q) true) = osum m v + m.oobCount q := by
  unfold osum
  have hqy : q.y ∈ Finset.range m.height := Finset.mem_range.2 hq.2
  have hqx : q.x ∈ Finset.range m.width := Finset.mem_range.2 hq.1
  have hterm : ∀ x y, x < m.width → y < m.height → (x ≠ q.x ∨ y ≠ q.y) →
      (if (v.set (m.idx q) true).getD (m.idx ⟨x, y⟩) false = true
        then m.oobCount ⟨x, y⟩ else 0)
      = (if v.getD (m.idx ⟨x, y⟩) false = true then m.oobCount ⟨x, y⟩ else 0) := by
    intro x y hx hy hne
    have hne2 : ¬ (m.idx q = m.idx ⟨x, y⟩ ∧ m.idx q < v.length) := by
      rintro ⟨heq, -⟩
      have := idx_inj m q ⟨x, y⟩ hq ⟨hx, hy⟩ heq
      rcases hne with hne | hne
      · exact hne (congrArg Point.x this).symm
      · exact hne (congrArg Point.y this).symm
    rw [Util.getD_set, if_neg hne2]
  have hinner_ne : ∀ y ∈ Finset.range m.height, y ≠ q.y →
      (∑ x ∈ Finset.range m.width,
        (if (v.set (m.idx q) true).getD (m.idx ⟨x, y⟩) false = true
          then m.oobCount ⟨x, y⟩ else 0))
      = ∑ x ∈ Finset.range m.width,
          (if v.getD (m.idx ⟨x, y⟩) false = true then m.oobCount ⟨x, y⟩ else 0) := by
    intro y hy hne
    refine Finset.sum_congr rfl fun x hx => ?_
    exact hterm x y (Finset.mem_range.1 hx) (Finset.mem_range.1 hy) (Or.inr hne)
  have hinner_eq :
      (∑ x ∈ Finset.range m.width,
        (if (v.set (m.idx q) true).getD (m.idx ⟨x, q.y⟩) false = true
          then m.oobCount ⟨x, q.y⟩ else 0))
      = (∑ x ∈ Finset.range m.width,
          (if v.getD (m.idx ⟨x, q.y⟩) false = true then m.oobCount ⟨x, q.y⟩ else 0))
        + m.oobCount q := by
    rw [Finset.sum_eq_sum_diff_singleton_add hqx, Finset.sum_eq_sum_diff_singleton_add hqx
      (fun x => if v.getD (m.idx ⟨x, q.y⟩) false = true then m.oobCount ⟨x, q.y⟩ else 0)]
    have hdiff : ∀ x ∈ Finset.range m.width \ {q.x},
        (if (v.set (m.idx q) true).getD (m.idx ⟨x, q.y⟩) false = true
          then m.oobCount ⟨x, q.y⟩ else 0)
        = (if v.getD (m.idx ⟨x, q.y⟩) false = true then m.oobCount ⟨x, q.y⟩ else 0) := by
      intro x hx
      rcases Finset.mem_sdiff.1 hx with ⟨hx1, hx2⟩
      exact hterm x q.y (Finset.mem_range.1 hx1) hq.2 (Or.inl (by simpa using hx2))
    rw [Finset.sum_congr rfl hdiff]
    have hqpt : (⟨q.x, q.y⟩ : Point) = q := rfl
    rw [hqpt]
    have hA : (if (v.set (m.idx q) true).getD (m.idx q) false = true
        then m.oobCount q else 0) = m.oobCount q := by
      have hcond : m.idx q = m.idx q ∧ m.idx q < v.length :=
        ⟨rfl, hvlen ▸ idx_lt m q hq.1 hq.2⟩
      rw [Util.getD_set, if_pos hcond]
      rfl
    have hB : (if v.getD (m.idx q) false = true then m.oobCount q else 0) = 0 := by
      rw [hq0]
      simp
    rw [hA, hB]
    omega
  rw [Finset.sum_eq_sum_diff_singleton_add hqy, Finset.sum_eq_sum_diff_singleton_add hqy
    (fun y => ∑ x ∈ Finset.range m.width,
      (if v.getD (m.idx ⟨x, y⟩) false = true then m.oobCount ⟨x, y⟩ else 0))]
  rw [Finset.sum_congr rfl (fun y hy =>
    hinner_ne y (Finset.mem_sdiff.1 hy).1 (by simpa using (Finset.mem_sdiff.1 hy).2))]
  rw [hinner_eq]
  omega

end Day12

namespace Day12

theorem osum_replicate_false (m : Map) :
    osum m (List.replicate (m.width * m.height) false) = 0 := by
  unfold osum
  refine Finset.sum_eq_zero fun y _ => Finset.sum_eq_zero fun x _ => ?_
  rw [Util.getD_replicate]
  split
  · rfl
  · rfl

theorem oob_total (w h : Nat) (c : Char) (hw : 1 ≤ w) (hh : 1 ≤ h) :
    (∑ y ∈ Finset.range h, ∑ x ∈ Finset.range w,
      (uniformMap w h c).oobCount ⟨x, y⟩) = 2 * (w + h) := by
  have hinner : ∀ y, y < h → (∑ x ∈ Finset.range w, (uniformMap w h c).oobCount ⟨x, y⟩)
      = 2 + w * ((if 1 ≤ y then 0 else 1) + (if y + 1 < h then 0 else 1)) := by
    intro y hy
    have hsplit : ∀ x, (uniformMap w h c).oobCount ⟨x, y⟩
        = ((if 1 ≤ x then 0 else 1) + (if x + 1 < w then 0 else 1)) +
          ((if 1 ≤ y then 0 else 1) + (if y + 1 < h then 0 else 1)) := by
      intro x
      show (if 1 ≤ x then 0 else 1) + (if x + 1 < w then 0 else 1) +
          (if 1 ≤ y then 0 else 1) + (if y + 1 < h then 0 else 1) = _
      omega
    rw [Finset.sum_congr rfl fun x _ => hsplit x, Finset.sum_add_distrib,
      Finset.sum_add_distrib]
    have h1 : (∑ x ∈ Finset.range w, (if 1 ≤ x then 0 else 1)) = 1 := by
      have : ∀ x ∈ Finset.range w, (if 1 ≤ x then (0 : Nat) else 1)
          = if x = 0 then 1 else 0 := by
        intro x _
        rcases Nat.eq_zero_or_pos x with rfl | hx
        · simp
        · rw [if_pos (show 1 ≤ x by omega), if_neg (show ¬ x = 0 by omega)]
      rw [Finset.sum_congr rfl this, Finset.sum_ite_eq' (Finset.range w) 0 fun _ => 1,
        if_pos (Finset.mem_range.2 (by omega))]
    have h2 : (∑ x ∈ Finset.range w, (if x + 1 < w then 0 else 1)) = 1 := by
      have : ∀ x ∈ Finset.range w, (if x + 1 < w then (0 : Nat) else 1)
          = if x = w - 1 then 1 else 0 := by
        intro x hx
        rw [Finset.mem_range] at hx
        by_cases hx1 : x + 1 < w
        · rw [if_pos hx1, if_neg (by omega)]
        · rw [if_neg hx1, if_pos (by omega)]
      rw [Finset.sum_congr rfl this, Finset.sum_ite_eq' (Finset.range w) (w - 1) fun _ => 1,
        if_pos (Finset.mem_range.2 (by omega))]
    rw [h1, h2, Finset.sum_const, Finset.card_range, smul_eq_mul]
  rw [Finset.sum_congr rfl fun y hy => hinner y (Finset.mem_range.1 hy)]
  rw [Finset.sum_add_distrib]
  have h3 : (∑ _y ∈ Finset.range h, 2) = 2 * h := by
    rw [Finset.sum_const, Finset.card_range, smul_eq_mul]
    omega
  have h4 : (∑ y ∈ Finset.range h,
      w * ((if 1 ≤ y then 0 else 1) + (if y + 1 < h then 0 else 1))) = 2 * w := by
    rw [← Finset.mul_sum]
    have : (∑ y ∈ Finset.range h, ((if 1 ≤ y then (0 : Nat) else 1) + (if y + 1 < h then 0 else 1))) = 2 := by
      rw [Finset.sum_add_distrib]
      have ha : (∑ y ∈ Finset.range h, (if 1 ≤ y then (0 : Nat) else 1)) = 1 := by
        have : ∀ y ∈ Finset.range h, (if 1 ≤ y then (0 : Nat) else 1)
            = if y = 0 then 1 else 0 := by
          intro y _
          rcases Nat.eq_zero_or_pos y with rfl | hy
          · simp
          · rw [if_pos (show 1 ≤ y by omega), if_neg (show ¬ y = 0 by omega)]
        rw [Finset.sum_congr rfl this, Finset.sum_ite_eq' (Finset.range h) 0 fun _ => 1,
          if_pos (Finset.mem_range.2 (by omega))]
      have hb : (∑ y ∈ Finset.range h, (if y + 1 < h then (0 : Nat) else 1)) = 1 := by
        have : ∀ y ∈ Finset.range h, (if y + 1 < h then (0 : Nat) else 1)
            = if y = h - 1 then 1 else 0 := by
          intro y hy
          rw [Finset.mem_range] at hy
          by_cases hy1 : y + 1 < h
          · rw [if_pos hy1, if_neg (by omega)]
          · rw [if_neg hy1, if_pos (by omega)]
        rw [Finset.sum_congr rfl this, Finset.sum_ite_eq' (Finset.range h) (h - 1) fun _ => 1,
          if_pos (Finset.mem_range.2 (by omega))]
      rw [ha, hb]
    rw [this]
    omega
  rw [h3, h4]
  omega

/-- Perimeter accounting of the children fold on a uniform map: the
accumulated perimeter grows by exactly the out-of-bounds weight of the
newly visited cells. -/
theorem visitChildrenWith_osum (w h : Nat) (c : Char)
    (recv : Point → List Bool → Option (Nat × Nat × List Bool))
    (hrec_mono : ∀ n v a per v', recv n v = some (a, per, v') → VisitedLe v v')
    (hrec_osum : ∀ n v a per v', InGrid (uniformMap w h c) n →
      v.length = w * h → v.getD ((uniformMap w h c).idx n) false = false →
      recv n v = some (a, per, v') →
      per + osum (uniformMap w h c) v = osum (uniformMap w h c) v') :
    ∀ (l : List Point) (area perim : Nat) (v : List Bool) (a per : Nat) (v' : List Bool),
      (∀ n ∈ l, InGrid (uniformMap w h c) n) →
      v.length = w * h →
      (uniformMap w h c).visitChildrenWith recv c l area perim v = some (a, per, v') →
      per + osum (uniformMap w h c) v = perim + osum (uniformMap w h c) v' := by
  set m := uniformMap w h c with hm
  intro l
  induction l with
  | nil =>
    intro area perim v a per v' _ _ hch
    simp only [Map.visitChildrenWith, Option.some.injEq, Prod.mk.injEq] at hch
    obtain ⟨-, rfl, rfl⟩ := hch
    omega
  | cons n rest ih =>
    intro area perim v a per v' hgrid hvlen hch
    simp only [Map.visitChildrenWith] at hch
    rw [if_pos (uniform_getD w h c n (hgrid n (List.mem_cons_self n rest)))] at hch
    by_cases h2 : v.getD (m.idx n) true = true
    · rw [if_pos h2] at hch
      exact ih _ _ _ _ _ _ (fun x hx => hgrid x (List.mem_cons_of_mem n hx)) hvlen hch
    · rw [if_neg h2] at hch
      obtain ⟨hjlt, hjfalse⟩ := getD_true_false_lt (Bool.of_not_eq_true h2)
      cases hr : recv n v with
      | none => rw [hr] at hch; cases hch
      | some t =>
        obtain ⟨ca, cp, vc⟩ := t
        simp only [hr] at hch
        have hchild := hrec_osum n v ca cp vc (hgrid n (List.mem_cons_self n rest))
          hvlen hjfalse hr
        have hvclen : vc.length = w * h := (hrec_mono n v ca cp vc hr).1.trans hvlen
        have hrest := ih _ _ _ _ _ _ (fun x hx => hgrid x (List.mem_cons_of_mem n hx))
          hvclen hch
        omega

/-- Perimeter accounting of a full visit on a uniform map. -/
theorem visitF_osum (w h : Nat) (c : Char) :
    ∀ (fuel : Nat) (p : Point) (v : List Bool) (a per : Nat) (v' : List Bool),
      InGrid (uniformMap w h c) p → v.length = w * h →
      v.getD ((uniformMap w h c).idx p) false = false →
      (uniformMap w h c).visitF fuel p v = some (a, per, v') →
      per + osum (uniformMap w h c) v = osum (uniformMap w h c) v' := by
  set m := uniformMap w h c with hm
  intro fuel
  induction fuel with
  | zero =>
    intro p v a per v' _ _ _ hvis
    simp [Map.visitF] at hvis
  | succ fuel ih =>
    intro p v a per v' hpg hvlen hpfalse hvis
    simp only [Map.visitF] at hvis
    rw [uniform_getD w h c p hpg] at hvis
    have hset : osum m (v.set (m.idx p) true) = osum m v + m.oobCount p :=
      osum_set m v p hpg (by rw [hvlen]; rfl) hpfalse
    have hch := visitChildrenWith_osum w h c (fun n w' => m.visitF fuel n w')
      (fun n w' a' per' w'' hr => visitF_visitedLe m fuel n w' a' per' w'' hr)
      (fun n w' a' per' w'' hng hwlen hf hr => ih n w' a' per' w'' hng hwlen hf hr)
      (m.possibleNeighbors p) 1 (m.oobCount p) (v.set (m.idx p) true) a per v'
      (fun n hn => possibleNeighbors_inGrid m p hpg.1 hpg.2 n hn)
      ((List.length_set v (m.idx p) true).trans hvlen) hvis
    rw [← hm] at hch
    omega

end Day12

namespace Day12

theorem mem_possibleNeighbors_right (m : Map) (p : Point) (hx : p.x + 1 < m.width) :
    (⟨p.x + 1, p.y⟩ : Point) ∈ m.possibleNeighbors p := by
  unfold Map.possibleNeighbors
  apply List.mem_append_left
  apply List.mem_append_left
  apply List.mem_append_right
  rw [if_pos hx]
  exact List.mem_singleton.2 rfl

theorem mem_possibleNeighbors_down (m : Map) (p : Point) (hy : p.y + 1 < m.height) :
    (⟨p.x, p.y + 1⟩ : Point) ∈ m.possibleNeighbors p := by
  unfold Map.possibleNeighbors
  apply List.mem_append_right
  rw [if_pos hy]
  exact List.mem_singleton.2 rfl

theorem getD_replicate_false (n j : Nat) :
    (List.replicate n false).getD j false = false := by
  rw [Util.getD_replicate]
  split
  · rfl
  · rfl

/-- Flood fill from the corner covers the whole uniform grid. -/
theorem visitF_covers (w h : Nat) (c : Char) (hw : 1 ≤ w) (hh : 1 ≤ h)
    (fuel a per : Nat) (v' : List Bool)
    (hvis : (uniformMap w h c).visitF fuel ⟨0, 0⟩ (List.replicate (w * h) false)
        = some (a, per, v')) :
    ∀ p, InGrid (uniformMap w h c) p →
      v'.getD ((uniformMap w h c).idx p) false = true := by
  set m := uniformMap w h c with hm
  have h00 : InGrid m ⟨0, 0⟩ := ⟨hw, hh⟩
  have hbase : v'.getD (m.idx ⟨0, 0⟩) false = true := by
    apply visitF_marks m fuel ⟨0, 0⟩ _ a per v' hvis
    rw [List.length_replicate]
    exact idx_lt m ⟨0, 0⟩ hw hh
  have hclo : ∀ q, InGrid m q → v'.getD (m.idx q) false = true →
      ∀ nb ∈ m.possibleNeighbors q, v'.getD (m.idx nb) false = true := by
    intro q hq hqv nb hnb
    exact visitF_closure w h c fuel ⟨0, 0⟩ _ a per v' h00
      (List.length_replicate _ _) hvis q hq hqv (getD_replicate_false _ _) nb hnb
  have hrow : ∀ x, x < w → v'.getD (m.idx ⟨x, 0⟩) false = true := by
    intro x
    induction x with
    | zero => intro _; exact hbase
    | succ x ihx =>
      intro hx1
      exact hclo ⟨x, 0⟩ ⟨show x < w by omega, show 0 < h from hh⟩ (ihx (by omega)) ⟨x + 1, 0⟩
        (mem_possibleNeighbors_right m ⟨x, 0⟩ (show x + 1 < w from hx1))
  have hcol : ∀ y, y < h → ∀ x, x < w → v'.getD (m.idx ⟨x, y⟩) false = true := by
    intro y
    induction y with
    | zero => intro _ x hx; exact hrow x hx
    | succ y ihy =>
      intro hy1 x hx
      exact hclo ⟨x, y⟩ ⟨show x < w from hx, show y < h by omega⟩ (ihy (by omega) x hx) ⟨x, y + 1⟩
        (mem_possibleNeighbors_down m ⟨x, y⟩ (show y + 1 < h from hy1))
  intro p hp
  exact hcol p.y hp.2 p.x hp.1

theorem count_false_zero_of_covers (m : Map) (v : List Bool)
    (hvlen : v.length = m.width * m.height)
    (hv : ∀ p, InGrid m p → v.getD (m.idx p) false = true) :
    v.count false = 0 := by
  rw [List.count_eq_zero]
  intro hmem
  rw [List.mem_iff_getElem] at hmem
  obtain ⟨i, hi, hig⟩ := hmem
  obtain ⟨p, hp, hidx⟩ := solveCells_surj m i (hvlen ▸ hi)
  have hg := hv p ((mem_solveCells m p).1 hp)
  rw [hidx, List.getD_eq_getElem?_getD, List.getElem?_eq_getElem hi, hig] at hg
  cases hg

theorem osum_of_covers (m : Map) (v : List Bool)
    (hv : ∀ p, InGrid m p → v.getD (m.idx p) false = true) :
    osum m v = ∑ y ∈ Finset.range m.height, ∑ x ∈ Finset.range m.width,
      m.oobCount ⟨x, y⟩ := by
  unfold osum
  refine Finset.sum_congr rfl fun y hy => Finset.sum_congr rfl fun x hx => ?_
  rw [if_pos (hv ⟨x, y⟩ ⟨Finset.mem_range.1 hx, Finset.mem_range.1 hy⟩)]

/-- Edge-count metric on the uniform `w × h` rectangle: flood fill from the
corner succeeds with area `w * h` and perimeter `2 * (w + h)`. -/
theorem uniform_edge_metric (w h : Nat) (c : Char) (hw : 1 ≤ w) (hh : 1 ≤ h) :
    ∃ v', (uniformMap w h c).visitF (w * h) ⟨0, 0⟩ (List.replicate (w * h) false)
        = some (w * h, 2 * (w + h), v') := by
  set m := uniformMap w h c with hm
  have hlen : (List.replicate (w * h) false).length = m.width * m.height :=
    List.length_replicate _ _
  have hfalse : (List.replicate (w * h) false).getD (m.idx ⟨0, 0⟩) false = false :=
    getD_replicate_false _ _
  have hlt : m.idx ⟨0, 0⟩ < (List.replicate (w * h) false).length := by
    rw [List.length_replicate]
    exact idx_lt m ⟨0, 0⟩ hw hh
  have hcnt0 : (List.replicate (w * h) false).count false = w * h := by
    rw [List.count_replicate]
    simp
  obtain ⟨r, hr⟩ := visitF_isSome m (w * h) ⟨0, 0⟩ (List.replicate (w * h) false)
    hlen hw hh hfalse (by omega)
  obtain ⟨a, per, v'⟩ := r
  have harea := visitF_area m (w * h) ⟨0, 0⟩ _ a per v' hfalse hlt hr
  have hcov := visitF_covers w h c hw hh (w * h) a per v' hr
  have hle := visitF_visitedLe m (w * h) ⟨0, 0⟩ _ a per v' hr
  have hz := count_false_zero_of_covers m v' (hle.1.trans hlen) hcov
  have hosum := visitF_osum w h c (w * h) ⟨0, 0⟩ _ a per v' ⟨hw, hh⟩
    (List.length_replicate _ _) hfalse hr
  rw [← hm] at hosum
  have h0 : osum m (List.replicate (w * h) false) = 0 := osum_replicate_false m
  have hall : osum m v' = 2 * (w + h) := by
    rw [osum_of_covers m v' hcov]
    exact oob_total w h c hw hh
  have ha : a = w * h := by omega
  have hper : per = 2 * (w + h) := by omega
  refine ⟨v', ?_⟩
  rw [hr, ha, hper]

end Day12

namespace Day12

/-- `Direction` from day12b.rs. -/
inductive Direction where
  | Left : Direction
  | Right : Direction
  | Up : Direction
  | Down : Direction
deriving DecidableEq, Repr

/-- The day12b.rs `sides` table
(`HashMap<Direction, HashMap<u64, Vec<u64>>>`), modelled as a total
function; absent entries are the empty list. -/
def Sides : Type := Direction → Nat → List Nat

/-- One push `sides[direction][fence_index].push(fence_location)`. -/
def pushSide (s : Sides) (d : Direction) (k val : Nat) : Sides :=
  fun d' k' => if d' = d ∧ k' = k then s d k ++ [val] else s d' k'

/-- The four out-of-bounds pushes performed while day12b.rs builds
`possible_neighbors` (lines 142-219), one stage per direction in
construction order Left, Right, Up, Down. -/
def Map.pushLeft (m : Map) (p : Point) (s : Sides) : Sides :=
  if 1 ≤ p.x then s else pushSide s Direction.Left p.x p.y

/-- Right-edge stage of the out-of-bounds pushes. -/
def Map.pushRight (m : Map) (p : Point) (s : Sides) : Sides :=
  if p.x + 1 < m.width then s else pushSide s Direction.Right (p.x + 1) p.y

/-- Top-edge stage of the out-of-bounds pushes. -/
def Map.pushUp (m : Map) (p : Point) (s : Sides) : Sides :=
  if 1 ≤ p.y then s else pushSide s Direction.Up p.y p.x

/-- Bottom-edge stage of the out-of-bounds pushes. -/
def Map.pushDown (m : Map) (p : Point) (s : Sides) : Sides :=
  if p.y + 1 < m.height then s else pushSide s Direction.Down (p.y + 1) p.x

/-- All out-of-bounds pushes of one cell, in construction order. -/
def Map.oobPushes (m : Map) (p : Point) (s : Sides) : Sides :=
  m.pushDown p (m.pushUp p (m.pushRight p (m.pushLeft p s)))

/-- The in-bounds entries of day12b's `possible_neighbors`: neighbor
point, facing direction, fence index and fence location. -/
def Map.neighborEntries (m : Map) (p : Point) : List (Point × Direction × Nat × Nat) :=
  (if 1 ≤ p.x then [(⟨p.x - 1, p.y⟩, Direction.Left, p.x, p.y)] else []) ++
    (if p.x + 1 < m.width then [(⟨p.x + 1, p.y⟩, Direction.Right, p.x + 1, p.y)] else []) ++
    (if 1 ≤ p.y then [(⟨p.x, p.y - 1⟩, Direction.Up, p.y, p.x)] else []) ++
    (if p.y + 1 < m.height then [(⟨p.x, p.y + 1⟩, Direction.Down, p.y + 1, p.x)] else [])

/-- The neighbor loop of day12b.rs `Map::visit` (lines 220-238): recurse
into same-symbol unvisited neighbors, ignore same-symbol visited ones, and
push a fence segment for different-symbol neighbors. -/
def Map.visitBChildrenWith (m : Map)
    (recv : Point → List Bool → Sides → Option (Nat × List Bool × Sides)) (sym : Char) :
    List (Point × Direction × Nat × Nat) → Nat → List Bool → Sides →
      Option (Nat × List Bool × Sides)
  | [], area, visited, sides => some (area, visited, sides)
  | (n, d, fi, fl) :: rest, area, visited, sides =>
      if m.data.getD (m.idx n) ' ' = sym then
        if visited.getD (m.idx n) true then
          m.visitBChildrenWith recv sym rest area visited sides
        else
          match recv n visited sides with
          | none => none
          | some (ca, visited', sides') =>
              m.visitBChildrenWith recv sym rest (area + ca) visited' sides'
      else
        m.visitBChildrenWith recv sym rest area visited (pushSide sides d fi fl)

/-- `Map::visit` from day12b.rs (lines 129-241): mark the cell, record its
out-of-bounds fence segments, then fold the neighbor loop (fuelled like
`Map.visitF`). -/
def Map.visitB (m : Map) :
    Nat → Point → List Bool → Sides → Option (Nat × List Bool × Sides)
  | 0, _, _, _ => none
  | fuel + 1, p, visited, sides =>
      m.visitBChildrenWith (fun n v s => m.visitB fuel n v s)
        (m.data.getD (m.idx p) ' ') (m.neighborEntries p) 1
        (visited.set (m.idx p) true) (m.oobPushes p sides)

/-- The gap scan of day12b.rs `Map::solve` (lines 107-117): one extra side
per sorted consecutive pair more than 1 apart. -/
def countGaps : Nat → List Nat → Nat
  | _, [] => 0
  | prev, cur :: rest => (if cur - prev > 1 then 1 else 0) + countGaps cur rest

/-- Sides in one sorted fence list (day12b.rs lines 104-120): one for a
nonempty list plus one per gap. -/
def countRuns (l : List Nat) : Nat :=
  match l with
  | [] => 0
  | a :: rest => 1 + countGaps a rest

/-- The per-region perimeter of day12b.rs `Map::solve` (lines 101-121):
for every direction and fence index, sort the recorded locations and
count maximal runs.  The Rust code iterates only the keys present in the
`HashMap`; every key ever pushed is at most `width + height`, and empty
lists count zero, so the bounded sum is the same number. -/
def Map.sideCount (m : Map) (s : Sides) : Nat :=
  ∑ k ∈ Finset.range (m.width + m.height + 2),
    (countRuns (List.insertionSort (· ≤ ·) (s Direction.Left k)) +
      countRuns (List.insertionSort (· ≤ ·) (s Direction.Right k)) +
      countRuns (List.insertionSort (· ≤ ·) (s Direction.Up k)) +
      countRuns (List.insertionSort (· ≤ ·) (s Direction.Down k)))

/-- What a single cell pushes for direction `d` and fence index `k` during
`oobPushes`. -/
def Map.oobPushList (m : Map) (p : Point) (d : Direction) (k : Nat) : List Nat :=
  match d with
  | Direction.Left => if ¬ 1 ≤ p.x ∧ k = p.x then [p.y] else []
  | Direction.Right => if ¬ p.x + 1 < m.width ∧ k = p.x + 1 then [p.y] else []
  | Direction.Up => if ¬ 1 ≤ p.y ∧ k = p.y then [p.x] else []
  | Direction.Down => if ¬ p.y + 1 < m.height ∧ k = p.y + 1 then [p.x] else []

theorem pushSide_apply_ne (s : Sides) (d : Direction) (k val : Nat) (d' : Direction)
    (k' : Nat) (h : d' ≠ d) : pushSide s d k val d' k' = s d' k' := by
  unfold pushSide
  rw [if_neg]
  rintro ⟨rfl, -⟩
  exact h rfl

theorem pushLeft_apply_ne (m : Map) (p : Point) (s : Sides) (d : Direction) (k : Nat)
    (h : d ≠ Direction.Left) : m.pushLeft p s d k = s d k := by
  unfold Map.pushLeft
  split
  · rfl
  · exact pushSide_apply_ne s _ _ _ d k h

theorem pushRight_apply_ne (m : Map) (p : Point) (s : Sides) (d : Direction) (k : Nat)
    (h : d ≠ Direction.Right) : m.pushRight p s d k = s d k := by
  unfold Map.pushRight
  split
  · rfl
  · exact pushSide_apply_ne s _ _ _ d k h

theorem pushUp_apply_ne (m : Map) (p : Point) (s : Sides) (d : Direction) (k : Nat)
    (h : d ≠ Direction.Up) : m.pushUp p s d k = s d k := by
  unfold Map.pushUp
  split
  · rfl
  · exact pushSide_apply_ne s _ _ _ d k h

theorem pushDown_apply_ne (m : Map) (p : Point) (s : Sides) (d : Direction) (k : Nat)
    (h : d ≠ Direction.Down) : m.pushDown p s d k = s d k := by
  unfold Map.pushDown
  split
  · rfl
  · exact pushSide_apply_ne s _ _ _ d k h

theorem pushLeft_apply (m : Map) (p : Point) (s : Sides) (k : Nat) :
    m.pushLeft p s Direction.Left k
      = s Direction.Left k ++ m.oobPushList p Direction.Left k := by
  unfold Map.pushLeft pushSide
  simp only [Map.oobPushList]
  by_cases h1 : 1 ≤ p.x
  · rw [if_pos h1, if_neg (by tauto)]
    simp
  · rw [if_neg h1]
    by_cases hk : k = p.x
    · subst hk
      rw [if_pos ⟨rfl, rfl⟩, if_pos ⟨h1, rfl⟩]
    · rw [if_neg (by tauto), if_neg (by tauto)]
      simp

theorem pushRight_apply (m : Map) (p : Point) (s : Sides) (k : Nat) :
    m.pushRight p s Direction.Right k
      = s Direction.Right k ++ m.oobPushList p Direction.Right k := by
  unfold Map.pushRight pushSide
  simp only [Map.oobPushList]
  by_cases h1 : p.x + 1 < m.width
  · rw [if_pos h1, if_neg (by tauto)]
    simp
  · rw [if_neg h1]
    by_cases hk : k = p.x + 1
    · subst hk
      rw [if_pos ⟨rfl, rfl⟩, if_pos ⟨h1, rfl⟩]
    · rw [if_neg (by tauto), if_neg (by tauto)]
      simp

theorem pushUp_apply (m : Map) (p : Point) (s : Sides) (k : Nat) :
    m.pushUp p s Direction.Up k
      = s Direction.Up k ++ m.oobPushList p Direction.Up k := by
  unfold Map.pushUp pushSide
  simp only [Map.oobPushList]
  by_cases h1 : 1 ≤ p.y
  · rw [if_pos h1, if_neg (by tauto)]
    simp
  · rw [if_neg h1]
    by_cases hk : k = p.y
    · subst hk
      rw [if_pos ⟨rfl, rfl⟩, if_pos ⟨h1, rfl⟩]
    · rw [if_neg (by tauto), if_neg (by tauto)]
      simp

theorem pushDown_apply (m : Map) (p : Point) (s : Sides) (k : Nat) :
    m.pushDown p s Direction.Down k
      = s Direction.Down k ++ m.oobPushList p Direction.Down k := by
  unfold Map.pushDown pushSide
  simp only [Map.oobPushList]
  by_cases h1 : p.y + 1 < m.height
  · rw [if_pos h1, if_neg (by tauto)]
    simp
  · rw [if_neg h1]
    by_cases hk : k = p.y + 1
    · subst hk
      rw [if_pos ⟨rfl, rfl⟩, if_pos ⟨h1, rfl⟩]
    · rw [if_neg (by tauto), if_neg (by tauto)]
      simp

theorem oobPushes_apply (m : Map) (p : Point) (s : Sides) (d : Direction) (k : Nat) :
    m.oobPushes p s d k = s d k ++ m.oobPushList p d k := by
  unfold Map.oobPushes
  cases d with
  | Left =>
    rw [pushDown_apply_ne _ _ _ _ _ (by intro hc; cases hc),
      pushUp_apply_ne _ _ _ _ _ (by intro hc; cases hc),
      pushRight_apply_ne _ _ _ _ _ (by intro hc; cases hc),
      pushLeft_apply]
  | Right =>
    rw [pushDown_apply_ne _ _ _ _ _ (by intro hc; cases hc),
      pushUp_apply_ne _ _ _ _ _ (by intro hc; cases hc),
      pushRight_apply,
      pushLeft_apply_ne _ _ _ _ _ (by intro hc; cases hc)]
  | Up =>
    rw [pushDown_apply_ne _ _ _ _ _ (by intro hc; cases hc),
      pushUp_apply,
      pushRight_apply_ne _ _ _ _ _ (by intro hc; cases hc),
      pushLeft_apply_ne _ _ _ _ _ (by intro hc; cases hc)]
  | Down =>
    rw [pushDown_apply,
      pushUp_apply_ne _ _ _ _ _ (by intro hc; cases hc),
      pushRight_apply_ne _ _ _ _ _ (by intro hc; cases hc),
      pushLeft_apply_ne _ _ _ _ _ (by intro hc; cases hc)]

end Day12

namespace Day12

/-- The in-grid cells marked between two visited arrays. -/
def Map.newCells (m : Map) (v v' : List Bool) : List Point :=
  m.solveCells.filter fun q => v'.getD (m.idx q) false && ! (v.getD (m.idx q) false)

theorem count_solveCells (m : Map) (p : Point) (hp : InGrid m p) :
    m.solveCells.count p = 1 := by
  have haux : ∀ ys : List Nat,
      ((ys.flatMap fun y => (List.range m.width).map fun x => (⟨x, y⟩ : Point)).count p)
        = ys.count p.y := by
    intro ys
    induction ys with
    | nil => rfl
    | cons y rest ih =>
      rw [List.flatMap_cons, List.count_append, ih, List.count_cons]
      have hinner : List.count p ((List.range m.width).map fun x => (⟨x, y⟩ : Point))
          = if p.y = y then 1 else 0 := by
        by_cases hy : p.y = y
        · subst hy
          have hinj : Function.Injective fun x => (⟨x, p.y⟩ : Point) :=
            fun a b hab => congrArg Point.x hab
          have hpt : p = (⟨p.x, p.y⟩ : Point) := rfl
          rw [if_pos rfl]
          conv_lhs => rw [hpt]
          rw [List.count_map_of_injective _ _ hinj]
          exact List.count_eq_one_of_mem (List.nodup_range _) (List.mem_range.2 hp.1)
        · rw [if_neg hy, List.count_eq_zero]
          intro hmem
          rw [List.mem_map] at hmem
          rcases hmem with ⟨x, -, hx⟩
          exact hy (congrArg Point.y hx).symm
      rw [hinner]
      by_cases hy : p.y = y
      · rw [if_pos hy, if_pos (by simpa using hy.symm)]
        omega
      · rw [if_neg hy, if_neg (by simpa using fun hc => hy hc.symm)]
        omega
  show ((List.range m.height).flatMap fun y =>
      (List.range m.width).map fun x => (⟨x, y⟩ : Point)).count p = 1
  rw [haux]
  exact List.count_eq_one_of_mem (List.nodup_range _) (List.mem_range.2 hp.2)

theorem newCells_self (m : Map) (v : List Bool) : m.newCells v v = [] := by
  unfold Map.newCells
  rw [List.filter_eq_nil_iff]
  intro q _
  cases hv : v.getD (m.idx q) false <;> simp [hv]

theorem count_newCells (m : Map) (v v' : List Bool) (q : Point) :
    (m.newCells v v').count q
      = if v'.getD (m.idx q) false = true ∧ v.getD (m.idx q) false = false
        then m.solveCells.count q else 0 := by
  unfold Map.newCells
  by_cases hc : v'.getD (m.idx q) false = true ∧ v.getD (m.idx q) false = false
  · rw [if_pos hc, List.count_filter]
    rw [hc.1, hc.2]
    rfl
  · rw [if_neg hc, List.count_eq_zero]
    intro hmem
    rw [List.mem_filter] at hmem
    rcases hmem with ⟨-, hpred⟩
    rw [Bool.and_eq_true, Bool.not_eq_true'] at hpred
    exact hc hpred

theorem newCells_single (m : Map) (v : List Bool) (p : Point) (hp : InGrid m p)
    (hlen : v.length = m.width * m.height) (hfalse : v.getD (m.idx p) false = false) :
    (m.newCells v (v.set (m.idx p) true)).Perm [p] := by
  rw [List.perm_iff_count]
  intro q
  have hrhs : List.count q [p] = if q = p then 1 else 0 := by
    by_cases hq : q = p
    · subst hq
      simp
    · rw [if_neg hq, List.count_eq_zero]
      simpa using hq
  rw [count_newCells, hrhs]
  by_cases hq : q = p
  · subst hq
    rw [if_pos ⟨by rw [Util.getD_set, if_pos ⟨rfl, hlen ▸ idx_lt m q hp.1 hp.2⟩], hfalse⟩,
      if_pos rfl]
    exact count_solveCells m q hp
  · rw [if_neg hq]
    by_cases hcond : (v.set (m.idx p) true).getD (m.idx q) false = true ∧
        v.getD (m.idx q) false = false
    · rw [if_pos hcond]
      rw [List.count_eq_zero]
      intro hmem
      have hqg : InGrid m q := (mem_solveCells m q).1 hmem
      obtain ⟨hq1, hq0⟩ := hcond
      rw [Util.getD_set] at hq1
      split at hq1
      · next hc => exact hq (idx_inj m q p hqg hp hc.1.symm)
      · rw [hq1] at hq0
        cases hq0
    · rw [if_neg hcond]

theorem newCells_append_perm (m : Map) {v vmid v' : List Bool}
    (h1 : VisitedLe v vmid) (h2 : VisitedLe vmid v') :
    (m.newCells v v').Perm (m.newCells v vmid ++ m.newCells vmid v') := by
  rw [List.perm_iff_count]
  intro q
  rw [List.count_append, count_newCells, count_newCells, count_newCells]
  by_cases b1 : v.getD (m.idx q) false = true
  · have b2 : vmid.getD (m.idx q) false = true := h1.2.1 _ b1
    have b3 : v'.getD (m.idx q) false = true := h2.2.1 _ b2
    rw [if_neg (by rw [b1]; simp), if_neg (by rw [b1]; simp), if_neg (by rw [b2]; simp)]
  · have b1' : v.getD (m.idx q) false = false := Bool.not_eq_true _ ▸ b1
    by_cases b2 : vmid.getD (m.idx q) false = true
    · have b3 : v'.getD (m.idx q) false = true := h2.2.1 _ b2
      rw [if_pos ⟨b3, b1'⟩, if_pos ⟨b2, b1'⟩, if_neg (by rw [b2]; simp)]
      omega
    · have b2' : vmid.getD (m.idx q) false = false := Bool.not_eq_true _ ▸ b2
      by_cases b3 : v'.getD (m.idx q) false = true
      · rw [if_pos ⟨b3, b1'⟩, if_neg (by rw [b2']; simp), if_pos ⟨b3, b2'⟩]
        omega
      · have b3' : v'.getD (m.idx q) false = false := Bool.not_eq_true _ ▸ b3
        rw [if_neg (by rw [b3']; simp), if_neg (by rw [b2']; simp),
          if_neg (by rw [b3']; simp)]

end Day12

namespace Day12

theorem visitBChildrenWith_visitedLe (m : Map)
    (recv : Point → List Bool → Sides → Option (Nat × List Bool × Sides))
    (hrec : ∀ n v s a v' s', recv n v s = some (a, v', s') → VisitedLe v v') :
    ∀ (el : List (Point × Direction × Nat × Nat)) (sym : Char) (area : Nat)
      (v : List Bool) (s : Sides) (a : Nat) (v' : List Bool) (s' : Sides),
      m.visitBChildrenWith recv sym el area v s = some (a, v', s') →
      VisitedLe v v' := by
  intro el
  induction el with
  | nil =>
    intro sym area v s a v' s' h
    simp only [Map.visitBChildrenWith, Option.some.injEq, Prod.mk.injEq] at h
    obtain ⟨-, rfl, -⟩ := h
    exact VisitedLe.refl v
  | cons e rest ih =>
    obtain ⟨n, d, fi, fl⟩ := e
    intro sym area v s a v' s' h
    simp only [Map.visitBChildrenWith] at h
    by_cases h1 : m.data.getD (m.idx n) ' ' = sym
    · rw [if_pos h1] at h
      by_cases h2 : v.getD (m.idx n) true = true
      · rw [if_pos h2] at h
        exact ih _ _ _ _ _ _ _ h
      · rw [if_neg h2] at h
        cases hr : recv n v s with
        | none => rw [hr] at h; cases h
        | some t =>
          obtain ⟨ca, vc, sc⟩ := t
          simp only [hr] at h
          exact (hrec n v s ca vc sc hr).trans (ih _ _ _ _ _ _ _ h)
    · rw [if_neg h1] at h
      exact ih _ _ _ _ _ _ _ h

theorem visitB_visitedLe (m : Map) :
    ∀ (fuel : Nat) (p : Point) (v : List Bool) (s : Sides) (a : Nat)
      (v' : List Bool) (s' : Sides),
      m.visitB fuel p v s = some (a, v', s') → VisitedLe v v' := by
  intro fuel
  induction fuel with
  | zero =>
    intro p v s a v' s' h
    simp [Map.visitB] at h
  | succ fuel ih =>
    intro p v s a v' s' h
    simp only [Map.visitB] at h
    exact (set_true_visitedLe v (m.idx p)).trans
      (visitBChildrenWith_visitedLe m (fun n w sd => m.visitB fuel n w sd)
        (fun n w sd a' w' sd' hr => ih n w sd a' w' sd' hr) _ _ _ _ _ _ _ _ h)

theorem neighborEntries_map_fst (m : Map) (p : Point) :
    (m.neighborEntries p).map Prod.fst = m.possibleNeighbors p := by
  unfold Map.neighborEntries Map.possibleNeighbors
  rw [List.map_append, List.map_append, List.map_append]
  congr 1
  · congr 1
    · congr 1
      · split
        · rfl
        · rfl
      · split
        · rfl
        · rfl
    · split
      · rfl
      · rfl
  · split
    · rfl
    · rfl

theorem neighborEntries_inGrid (m : Map) (p : Point) (hx : p.x < m.width)
    (hy : p.y < m.height) :
    ∀ e ∈ m.neighborEntries p, InGrid m e.1 := by
  intro e he
  have : e.1 ∈ (m.neighborEntries p).map Prod.fst := List.mem_map.2 ⟨e, he, rfl⟩
  rw [neighborEntries_map_fst] at this
  exact possibleNeighbors_inGrid m p hx hy e.1 this

/-- The day12b visit drives the same traversal as the day12a visit: same
success, same area, same visited array. -/
theorem visitB_bridge (m : Map) :
    ∀ (fuel : Nat) (p : Point) (v : List Bool) (s : Sides),
      (m.visitB fuel p v s).map (fun r => (r.1, r.2.1))
        = (m.visitF fuel p v).map (fun r => (r.1, r.2.2)) := by
  have hchildren : ∀ (recvB : Point → List Bool → Sides → Option (Nat × List Bool × Sides))
      (recvF : Point → List Bool → Option (Nat × Nat × List Bool)),
      (∀ n w sd, (recvB n w sd).map (fun r => (r.1, r.2.1))
        = (recvF n w).map (fun r => (r.1, r.2.2))) →
      ∀ (el : List (Point × Direction × Nat × Nat)) (sym : Char) (area perim : Nat)
        (v : List Bool) (s : Sides),
        (m.visitBChildrenWith recvB sym el area v s).map (fun r => (r.1, r.2.1))
          = (m.visitChildrenWith recvF sym (el.map Prod.fst) area perim v).map
              (fun r => (r.1, r.2.2)) := by
    intro recvB recvF hbr el
    induction el with
    | nil => intro sym area perim v s; rfl
    | cons e rest ih =>
      obtain ⟨n, d, fi, fl⟩ := e
      intro sym area perim v s
      simp only [List.map_cons, Map.visitBChildrenWith, Map.visitChildrenWith]
      by_cases h1 : m.data.getD (m.idx n) ' ' = sym
      · rw [if_pos h1, if_pos h1]
        by_cases h2 : v.getD (m.idx n) true = true
        · rw [if_pos h2, if_pos h2]
          exact ih sym area perim v s
        · rw [if_neg h2, if_neg h2]
          have hbrn := hbr n v s
          cases hrB : recvB n v s with
          | none =>
            rw [hrB] at hbrn
            cases hrF : recvF n v with
            | none => rfl
            | some t =>
              rw [hrF] at hbrn
              cases hbrn
          | some t =>
            obtain ⟨ca, vc, sc⟩ := t
            rw [hrB] at hbrn
            cases hrF : recvF n v with
            | none =>
              rw [hrF] at hbrn
              cases hbrn
            | some t' =>
              obtain ⟨ca', cper', vc'⟩ := t'
              rw [hrF] at hbrn
              injection hbrn with h'
              injection h' with hca hvc
              subst hca
              subst hvc
              exact ih sym (area + ca) (perim + cper') vc sc
      · rw [if_neg h1, if_neg h1]
        exact ih sym area (perim + 1) v (pushSide s d fi fl)
  intro fuel
  induction fuel with
  | zero => intro p v s; rfl
  | succ fuel ih =>
    intro p v s
    simp only [Map.visitB, Map.visitF]
    have := hchildren (fun n w sd => m.visitB fuel n w sd) (fun n w => m.visitF fuel n w)
      (fun n w sd => ih n w sd) (m.neighborEntries p) (m.data.getD (m.idx p) ' ')
      1 (m.oobCount p) (v.set (m.idx p) true) (m.oobPushes p s)
    rw [neighborEntries_map_fst] at this
    exact this

end Day12

namespace Day12

theorem perm_flatMap {α β : Type} {l1 l2 : List α} (f : α → List β) (h : l1.Perm l2) :
    (l1.flatMap f).Perm (l2.flatMap f) := by
  rw [List.flatMap_def, List.flatMap_def]
  exact (h.map f).flatten

/-- Composing side accounting across two traversal stages. -/
theorem sides_compose (m : Map) {v vmid v' : List Bool}
    (h1 : VisitedLe v vmid) (h2 : VisitedLe vmid v')
    (base mid fin : List Nat) (f : Point → List Nat)
    (hmid : mid.Perm (base ++ (m.newCells v vmid).flatMap f))
    (hfin : fin.Perm (mid ++ (m.newCells vmid v').flatMap f)) :
    fin.Perm (base ++ (m.newCells v v').flatMap f) := by
  have hcat : ((m.newCells v v').flatMap f).Perm
      ((m.newCells v vmid).flatMap f ++ (m.newCells vmid v').flatMap f) := by
    rw [← List.flatMap_append]
    exact perm_flatMap f (newCells_append_perm m h1 h2)
  have step1 := hfin.trans (hmid.append (List.Perm.refl ((m.newCells vmid v').flatMap f)))
  rw [List.append_assoc] at step1
  exact step1.trans ((List.Perm.refl base).append hcat.symm)

end Day12

namespace Day12

/-- Side accounting of the children fold on a uniform map: the sides table
gains exactly the out-of-bounds pushes of the newly visited cells. -/
theorem visitBChildrenWith_sides (w h : Nat) (c : Char)
    (recv : Point → List Bool → Sides → Option (Nat × List Bool × Sides))
    (hrec_mono : ∀ n v s a v' s', recv n v s = some (a, v', s') → VisitedLe v v')
    (hrec_sides : ∀ n v s a v' s', InGrid (uniformMap w h c) n → v.length = w * h →
      v.getD ((uniformMap w h c).idx n) false = false →
      recv n v s = some (a, v', s') →
      ∀ d k, (s' d k).Perm (s d k ++
        ((uniformMap w h c).newCells v v').flatMap
          fun q => (uniformMap w h c).oobPushList q d k)) :
    ∀ (el : List (Point × Direction × Nat × Nat)) (area : Nat) (v : List Bool)
      (s : Sides) (a : Nat) (v' : List Bool) (s' : Sides),
      (∀ e ∈ el, InGrid (uniformMap w h c) e.1) → v.length = w * h →
      (uniformMap w h c).visitBChildrenWith recv c el area v s = some (a, v', s') →
      ∀ d k, (s' d k).Perm (s d k ++
        ((uniformMap w h c).newCells v v').flatMap
          fun q => (uniformMap w h c).oobPushList q d k) := by
  set m := uniformMap w h c with hm
  intro el
  induction el with
  | nil =>
    intro area v s a v' s' _ _ hch d k
    simp only [Map.visitBChildrenWith, Option.some.injEq, Prod.mk.injEq] at hch
    obtain ⟨-, rfl, rfl⟩ := hch
    rw [newCells_self]
    simp
  | cons e rest ih =>
    obtain ⟨n, d0, fi, fl⟩ := e
    intro area v s a v' s' hgrid hvlen hch d k
    simp only [Map.visitBChildrenWith] at hch
    rw [if_pos (uniform_getD w h c n (hgrid _ (List.mem_cons_self _ rest)))] at hch
    by_cases h2 : v.getD (m.idx n) true = true
    · rw [if_pos h2] at hch
      exact ih area v s a v' s' (fun x hx => hgrid x (List.mem_cons_of_mem _ hx)) hvlen hch d k
    · rw [if_neg h2] at hch
      obtain ⟨hjlt, hjfalse⟩ := getD_true_false_lt (Bool.of_not_eq_true h2)
      cases hr : recv n v s with
      | none => rw [hr] at hch; cases hch
      | some t =>
        obtain ⟨ca, vc, sc⟩ := t
        simp only [hr] at hch
        have hmono1 : VisitedLe v vc := hrec_mono n v s ca vc sc hr
        have hmono2 : VisitedLe vc v' :=
          visitBChildrenWith_visitedLe m recv hrec_mono _ _ _ _ _ _ _ _ hch
        have hmid := hrec_sides n v s ca vc sc
          (hgrid _ (List.mem_cons_self _ rest)) hvlen hjfalse hr d k
        have hfin := ih (area + ca) vc sc a v' s'
          (fun x hx => hgrid x (List.mem_cons_of_mem _ hx))
          (hmono1.1.trans hvlen) hch d k
        exact sides_compose m hmono1 hmono2 (s d k) (sc d k) (s' d k)
          (fun q => m.oobPushList q d k) hmid hfin

/-- Side accounting of a full uniform-map visit. -/
theorem visitB_sides (w h : Nat) (c : Char) :
    ∀ (fuel : Nat) (p : Point) (v : List Bool) (s : Sides) (a : Nat)
      (v' : List Bool) (s' : Sides),
      InGrid (uniformMap w h c) p → v.length = w * h →
      v.getD ((uniformMap w h c).idx p) false = false →
      (uniformMap w h c).visitB fuel p v s = some (a, v', s') →
      ∀ d k, (s' d k).Perm (s d k ++
        ((uniformMap w h c).newCells v v').flatMap
          fun q => (uniformMap w h c).oobPushList q d k) := by
  set m := uniformMap w h c with hm
  intro fuel
  induction fuel with
  | zero =>
    intro p v s a v' s' _ _ _ hvis
    simp [Map.visitB] at hvis
  | succ fuel ih =>
    intro p v s a v' s' hpg hvlen hpfalse hvis d k
    simp only [Map.visitB] at hvis
    rw [uniform_getD w h c p hpg] at hvis
    have hmono1 : VisitedLe v (v.set (m.idx p) true) := set_true_visitedLe v (m.idx p)
    have hmono2 : VisitedLe (v.set (m.idx p) true) v' :=
      visitBChildrenWith_visitedLe m (fun n w' sd => m.visitB fuel n w' sd)
        (fun n w' sd a' w'' sd' hr => visitB_visitedLe m fuel n w' sd a' w'' sd' hr)
        _ _ _ _ _ _ _ _ hvis
    have hfin := visitBChildrenWith_sides w h c (fun n w' sd => m.visitB fuel n w' sd)
      (fun n w' sd a' w'' sd' hr => visitB_visitedLe m fuel n w' sd a' w'' sd' hr)
      (fun n w' sd a' w'' sd' hng hwlen hf hr =>
        ih n w' sd a' w'' sd' hng hwlen hf hr)
      (m.neighborEntries p) 1 (v.set (m.idx p) true) (m.oobPushes p s) a v' s'
      (fun e he => neighborEntries_inGrid m p hpg.1 hpg.2 e he)
      ((List.length_set v (m.idx p) true).trans hvlen) hvis d k
    have hmid : (m.oobPushes p s d k).Perm (s d k ++
        (m.newCells v (v.set (m.idx p) true)).flatMap
          fun q => m.oobPushList q d k) := by
      rw [oobPushes_apply]
      refine (List.Perm.refl _).append ?_
      have hperm := perm_flatMap (fun q => m.oobPushList q d k)
        (newCells_single m v p hpg hvlen hpfalse)
      rw [List.flatMap_singleton] at hperm
      exact hperm.symm
    exact sides_compose m hmono1 hmono2 (s d k) (m.oobPushes p s d k) (s' d k)
      (fun q => m.oobPushList q d k) hmid hfin

end Day12

namespace Day12

theorem flatMap_congr {α β : Type} {l : List α} {f g : α → List β}
    (h : ∀ x ∈ l, f x = g x) : l.flatMap f = l.flatMap g := by
  rw [List.flatMap_def, List.flatMap_def, List.map_congr_left h]

theorem flatMap_ite_eq {β : Type} (xs : List Nat) (x0 : Nat) (val : List β)
    (hnd : xs.Nodup) (hx : x0 ∈ xs) :
    (xs.flatMap fun x => if x = x0 then val else []) = val := by
  induction xs with
  | nil => cases hx
  | cons a rest ih =>
    rw [List.nodup_cons] at hnd
    simp only [List.flatMap_cons]
    rcases List.mem_cons.1 hx with rfl | hmem
    · rw [if_pos rfl]
      have hnil : (rest.flatMap fun x => if x = x0 then val else []) = [] := by
        rw [List.flatMap_eq_nil_iff]
        intro x hxr
        rw [if_neg]
        intro hc
        exact hnd.1 (hc ▸ hxr)
      rw [hnil, List.append_nil]
    · rw [if_neg]
      · rw [List.nil_append]
        exact ih hnd.2 hmem
      · intro hc
        subst hc
        exact hnd.1 hmem

theorem solveCells_flatMap (m : Map) {β : Type} (f : Point → List β) :
    m.solveCells.flatMap f
      = (List.range m.height).flatMap fun y =>
          (List.range m.width).flatMap fun x => f ⟨x, y⟩ := by
  unfold Map.solveCells
  rw [List.flatMap_assoc]
  exact flatMap_congr fun y _ => List.flatMap_map _ f _

/-- All left-edge fence pushes of the uniform rectangle: fence index 0 only,
one location per row. -/
theorem oobFlat_left (w h : Nat) (c : Char) (hw : 1 ≤ w) (k : Nat) :
    ((uniformMap w h c).solveCells.flatMap
        fun q => (uniformMap w h c).oobPushList q Direction.Left k)
      = if k = 0 then List.range h else [] := by
  rw [solveCells_flatMap]
  by_cases hk : k = 0
  · subst hk
    rw [if_pos rfl]
    have hinner : ∀ y, ((List.range (uniformMap w h c).width).flatMap
        fun x => (uniformMap w h c).oobPushList ⟨x, y⟩ Direction.Left 0) = [y] := by
      intro y
      have hcg : ∀ x ∈ List.range (uniformMap w h c).width,
          (uniformMap w h c).oobPushList ⟨x, y⟩ Direction.Left 0
            = if x = 0 then [y] else [] := by
        intro x _
        simp only [Map.oobPushList]
        by_cases hx : x = 0
        · subst hx
          rw [if_pos ⟨by omega, rfl⟩, if_pos rfl]
        · rw [if_neg (fun hc => hx hc.2.symm), if_neg hx]
      rw [flatMap_congr hcg]
      exact flatMap_ite_eq _ 0 [y] (List.nodup_range _)
        (List.mem_range.2 (show 0 < w by omega))
    rw [flatMap_congr (fun y _ => hinner y)]
    exact List.flatMap_singleton' _
  · rw [if_neg hk, List.flatMap_eq_nil_iff]
    intro y _
    rw [List.flatMap_eq_nil_iff]
    intro x _
    simp only [Map.oobPushList]
    rw [if_neg]
    rintro ⟨h1, h2⟩
    exact hk (by omega)

/-- All right-edge fence pushes of the uniform rectangle: fence index `w`
only, one location per row. -/
theorem oobFlat_right (w h : Nat) (c : Char) (hw : 1 ≤ w) (k : Nat) :
    ((uniformMap w h c).solveCells.flatMap
        fun q => (uniformMap w h c).oobPushList q Direction.Right k)
      = if k = w then List.range h else [] := by
  rw [solveCells_flatMap]
  by_cases hk : k = w
  · rw [if_pos hk]
    have hinner : ∀ y, ((List.range (uniformMap w h c).width).flatMap
        fun x => (uniformMap w h c).oobPushList ⟨x, y⟩ Direction.Right k) = [y] := by
      intro y
      have hcg : ∀ x ∈ List.range (uniformMap w h c).width,
          (uniformMap w h c).oobPushList ⟨x, y⟩ Direction.Right k
            = if x = w - 1 then [y] else [] := by
        intro x hxm
        have hxw : x < w := List.mem_range.1 hxm
        simp only [Map.oobPushList, uniformMap]
        by_cases hx : x = w - 1
        · subst hx
          rw [if_pos ⟨by omega, by omega⟩, if_pos rfl]
        · rw [if_neg, if_neg hx]
          rintro ⟨h1, h2⟩
          exact hx (by omega)
      rw [flatMap_congr hcg]
      exact flatMap_ite_eq _ (w - 1) [y] (List.nodup_range _)
        (List.mem_range.2 (show w - 1 < w by omega))
    rw [flatMap_congr (fun y _ => hinner y)]
    exact List.flatMap_singleton' _
  · rw [if_neg hk, List.flatMap_eq_nil_iff]
    intro y _
    rw [List.flatMap_eq_nil_iff]
    intro x hxm
    have hxw : x < w := List.mem_range.1 hxm
    simp only [Map.oobPushList, uniformMap]
    rw [if_neg]
    rintro ⟨h1, h2⟩
    exact hk (by omega)

/-- All top-edge fence pushes of the uniform rectangle: fence index 0 only,
one location per column. -/
theorem oobFlat_up (w h : Nat) (c : Char) (hh : 1 ≤ h) (k : Nat) :
    ((uniformMap w h c).solveCells.flatMap
        fun q => (uniformMap w h c).oobPushList q Direction.Up k)
      = if k = 0 then List.range w else [] := by
  rw [solveCells_flatMap]
  by_cases hk : k = 0
  · subst hk
    rw [if_pos rfl]
    have hcg : ∀ y ∈ List.range (uniformMap w h c).height,
        ((List.range (uniformMap w h c).width).flatMap
          fun x => (uniformMap w h c).oobPushList ⟨x, y⟩ Direction.Up 0)
          = if y = 0 then List.range w else [] := by
      intro y _
      by_cases hy : y = 0
      · subst hy
        rw [if_pos rfl]
        have hin : ∀ x ∈ List.range (uniformMap w h c).width,
            (uniformMap w h c).oobPushList ⟨x, 0⟩ Direction.Up 0 = [x] := by
          intro x _
          simp only [Map.oobPushList]
          rw [if_pos (by decide)]
        rw [flatMap_congr hin]
        exact List.flatMap_singleton' _
      · rw [if_neg hy, List.flatMap_eq_nil_iff]
        intro x _
        simp only [Map.oobPushList]
        rw [if_neg]
        rintro ⟨h1, h2⟩
        exact hy (by omega)
    rw [flatMap_congr hcg]
    exact flatMap_ite_eq _ 0 (List.range w) (List.nodup_range _)
      (List.mem_range.2 (show 0 < h by omega))
  · rw [if_neg hk, List.flatMap_eq_nil_iff]
    intro y _
    rw [List.flatMap_eq_nil_iff]
    intro x _
    simp only [Map.oobPushList]
    rw [if_neg]
    rintro ⟨h1, h2⟩
    exact hk (by omega)

/-- All bottom-edge fence pushes of the uniform rectangle: fence index `h`
only, one location per column. -/
theorem oobFlat_down (w h : Nat) (c : Char) (hh : 1 ≤ h) (k : Nat) :
    ((uniformMap w h c).solveCells.flatMap
        fun q => (uniformMap w h c).oobPushList q Direction.Down k)
      = if k = h then List.range w else [] := by
  rw [solveCells_flatMap]
  by_cases hk : k = h
  · rw [if_pos hk]
    have hcg : ∀ y ∈ List.range (uniformMap w h c).height,
        ((List.range (uniformMap w h c).width).flatMap
          fun x => (uniformMap w h c).oobPushList ⟨x, y⟩ Direction.Down k)
          = if y = h - 1 then List.range w else [] := by
      intro y hym
      have hyh : y < h := List.mem_range.1 hym
      by_cases hy : y = h - 1
      · rw [if_pos hy]
        have hin : ∀ x ∈ List.range (uniformMap w h c).width,
            (uniformMap w h c).oobPushList ⟨x, y⟩ Direction.Down k = [x] := by
          intro x _
          simp only [Map.oobPushList, uniformMap]
          rw [if_pos ⟨by omega, by omega⟩]
        rw [flatMap_congr hin]
        exact List.flatMap_singleton' _
      · rw [if_neg hy, List.flatMap_eq_nil_iff]
        intro x _
        simp only [Map.oobPushList, uniformMap]
        rw [if_neg]
        rintro ⟨h1, h2⟩
        exact hy (by omega)
    rw [flatMap_congr hcg]
    exact flatMap_ite_eq _ (h - 1) (List.range w) (List.nodup_range _)
      (List.mem_range.2 (show h - 1 < h by omega))
  · rw [if_neg hk, List.flatMap_eq_nil_iff]
    intro y hym
    have hyh : y < h := List.mem_range.1 hym
    rw [List.flatMap_eq_nil_iff]
    intro x _
    simp only [Map.oobPushList, uniformMap]
    rw [if_neg]
    rintro ⟨h1, h2⟩
    exact hk (by omega)

theorem countGaps_range' (n : Nat) : ∀ a, countGaps a (List.range' (a + 1) n) = 0 := by
  induction n with
  | zero => intro a; rfl
  | succ n ih =>
    intro a
    rw [List.range'_succ]
    simp only [countGaps]
    rw [ih (a + 1), if_neg (show ¬ a + 1 - a > 1 by omega)]

theorem countRuns_range (n : Nat) (hn : 1 ≤ n) : countRuns (List.range n) = 1 := by
  obtain ⟨n', rfl⟩ : ∃ n', n = n' + 1 := ⟨n - 1, by omega⟩
  rw [List.range_eq_range', List.range'_succ]
  simp only [countRuns]
  rw [countGaps_range' n' 0]

theorem insertionSort_eq_range {l : List Nat} {n : Nat} (hp : l.Perm (List.range n)) :
    List.insertionSort (· ≤ ·) l = List.range n :=
  List.eq_of_perm_of_sorted ((List.perm_insertionSort _ l).trans hp)
    (List.sorted_insertionSort _ l) (List.sorted_le_range n)

end Day12

namespace Day12

/-- Side-count metric on the uniform rectangle: day12b's visit succeeds
with area `w * h` and its recorded fences count exactly 4 sides. -/
theorem uniform_side_metric (w h : Nat) (c : Char) (hw : 1 ≤ w) (hh : 1 ≤ h) :
    ∃ v' s', (uniformMap w h c).visitB (w * h) ⟨0, 0⟩
          (List.replicate (w * h) false) (fun _ _ => []) = some (w * h, v', s')
        ∧ (uniformMap w h c).sideCount s' = 4 := by
  set m := uniformMap w h c with hm
  obtain ⟨v', hF⟩ := uniform_edge_metric w h c hw hh
  rw [← hm] at hF
  have hbr := visitB_bridge m (w * h) ⟨0, 0⟩ (List.replicate (w * h) false) (fun _ _ => [])
  rw [hF] at hbr
  cases hB : m.visitB (w * h) ⟨0, 0⟩ (List.replicate (w * h) false) (fun _ _ => []) with
  | none =>
    rw [hB] at hbr
    cases hbr
  | some t =>
    obtain ⟨a, vB, sB⟩ := t
    rw [hB] at hbr
    simp only [Option.map_some', Prod.mk.injEq] at hbr
    obtain ⟨rfl, rfl⟩ := hbr
    have hsides := visitB_sides w h c (w * h) ⟨0, 0⟩ (List.replicate (w * h) false)
      (fun _ _ => []) (w * h) v' sB ⟨hw, hh⟩ (List.length_replicate _ _)
      (getD_replicate_false _ _) hB
    have hcov := visitF_covers w h c hw hh (w * h) (w * h) (2 * (w + h)) v'
      (hm ▸ hF)
    rw [← hm] at hcov
    have hnc : m.newCells (List.replicate (w * h) false) v' = m.solveCells := by
      unfold Map.newCells
      apply List.filter_eq_self.2
      intro q hq
      have hg : InGrid m q := (mem_solveCells m q).1 hq
      simp only [hcov q hg, getD_replicate_false]
      rfl
    have hflat : ∀ d k, (sB d k).Perm
        (m.solveCells.flatMap fun q => m.oobPushList q d k) := by
      intro d k
      have hthis := hsides d k
      rw [hnc] at hthis
      simpa using hthis
    have hLeft : ∀ k, countRuns (List.insertionSort (· ≤ ·) (sB Direction.Left k))
        = if k = 0 then 1 else 0 := by
      intro k
      have hp := hflat Direction.Left k
      rw [hm, oobFlat_left w h c hw k] at hp
      by_cases hk : k = 0
      · rw [if_pos hk] at hp ⊢
        rw [insertionSort_eq_range hp]
        exact countRuns_range h hh
      · rw [if_neg hk] at hp ⊢
        rw [hp.eq_nil]
        rfl
    have hRight : ∀ k, countRuns (List.insertionSort (· ≤ ·) (sB Direction.Right k))
        = if k = w then 1 else 0 := by
      intro k
      have hp := hflat Direction.Right k
      rw [hm, oobFlat_right w h c hw k] at hp
      by_cases hk : k = w
      · rw [if_pos hk] at hp ⊢
        rw [insertionSort_eq_range hp]
        exact countRuns_range h hh
      · rw [if_neg hk] at hp ⊢
        rw [hp.eq_nil]
        rfl
    have hUp : ∀ k, countRuns (List.insertionSort (· ≤ ·) (sB Direction.Up k))
        = if k = 0 then 1 else 0 := by
      intro k
      have hp := hflat Direction.Up k
      rw [hm, oobFlat_up w h c hh k] at hp
      by_cases hk : k = 0
      · rw [if_pos hk] at hp ⊢
        rw [insertionSort_eq_range hp]
        exact countRuns_range w hw
      · rw [if_neg hk] at hp ⊢
        rw [hp.eq_nil]
        rfl
    have hDown : ∀ k, countRuns (List.insertionSort (· ≤ ·) (sB Direction.Down k))
        = if k = h then 1 else 0 := by
      intro k
      have hp := hflat Direction.Down k
      rw [hm, oobFlat_down w h c hh k] at hp
      by_cases hk : k = h
      · rw [if_pos hk] at hp ⊢
        rw [insertionSort_eq_range hp]
        exact countRuns_range w hw
      · rw [if_neg hk] at hp ⊢
        rw [hp.eq_nil]
        rfl
    refine ⟨v', sB, rfl, ?_⟩
    unfold Map.sideCount
    have hterm : ∀ k, (countRuns (List.insertionSort (· ≤ ·) (sB Direction.Left k)) +
        countRuns (List.insertionSort (· ≤ ·) (sB Direction.Right k)) +
        countRuns (List.insertionSort (· ≤ ·) (sB Direction.Up k)) +
        countRuns (List.insertionSort (· ≤ ·) (sB Direction.Down k)))
        = ((if k = 0 then 1 else 0) + (if k = w then 1 else 0)
            + (if k = 0 then 1 else 0) + (if k = h then 1 else 0)) := by
      intro k
      rw [hLeft k, hRight k, hUp k, hDown k]
    rw [Finset.sum_congr rfl fun k _ => hterm k, Finset.sum_add_distrib,
      Finset.sum_add_distrib, Finset.sum_add_distrib]
    have e0 : (∑ k ∈ Finset.range (m.width + m.height + 2),
        if k = 0 then (1 : Nat) else 0) = 1 := by
      rw [Finset.sum_ite_eq' (Finset.range (m.width + m.height + 2)) 0 fun _ => 1,
        if_pos (Finset.mem_range.2 (show 0 < m.width + m.height + 2 by omega))]
    have ew : (∑ k ∈ Finset.range (m.width + m.height + 2),
        if k = w then (1 : Nat) else 0) = 1 := by
      rw [Finset.sum_ite_eq' (Finset.range (m.width + m.height + 2)) w fun _ => 1,
        if_pos (Finset.mem_range.2
          (show w < m.width + m.height + 2 from (show w < w + h + 2 by omega)))]
    have eh : (∑ k ∈ Finset.range (m.width + m.height + 2),
        if k = h then (1 : Nat) else 0) = 1 := by
      rw [Finset.sum_ite_eq' (Finset.range (m.width + m.height + 2)) h fun _ => 1,
        if_pos (Finset.mem_range.2
          (show h < m.width + m.height + 2 from (show h < w + h + 2 by omega)))]
    rw [e0, ew, eh]

end Day12

namespace Day12

/-- C3: on a single connected rectangular region of size `w × h` with no
holes (the uniform `w × h` grid), the edge-count perimeter metric of
day12a.rs returns area `w * h` and perimeter `2 * (w + h)`, and the
side-count perimeter metric of day12b.rs returns 4 sides. -/
theorem uniform_rectangle_metrics (w h : Nat) (c : Char) (hw : 1 ≤ w) (hh : 1 ≤ h) :
    (∃ v', (uniformMap w h c).visitF (w * h) ⟨0, 0⟩ (List.replicate (w * h) false)
        = some (w * h, 2 * (w + h), v'))
    ∧ (∃ v' s', (uniformMap w h c).visitB (w * h) ⟨0, 0⟩
          (List.replicate (w * h) false) (fun _ _ => []) = some (w * h, v', s')
        ∧ (uniformMap w h c).sideCount s' = 4) :=
  ⟨uniform_edge_metric w h c hw hh, uniform_side_metric w h c hw hh⟩

/-- C3 witness: the 4 × 4 all-same grid yields one region with area 16,
edge-count perimeter 16, and side-count perimeter 4. -/
theorem uniform_rectangle_metrics_witness :
    (1 : Nat) ≤ 4 ∧
    ((∃ v', (uniformMap 4 4 'A').visitF 16 ⟨0, 0⟩ (List.replicate 16 false)
        = some (16, 16, v'))
    ∧ (∃ v' s', (uniformMap 4 4 'A').visitB 16 ⟨0, 0⟩
          (List.replicate 16 false) (fun _ _ => []) = some (16, v', s')
        ∧ (uniformMap 4 4 'A').sideCount s' = 4)) :=
  ⟨by decide, uniform_rectangle_metrics 4 4 'A' (by decide) (by decide)⟩

end Day12

namespace Util

theorem foldl_set_length_all {α β : Type} (idx : β → Nat) (v : α) :
    ∀ (l : List β) (g0 : List α),
      (l.foldl (fun g n => g.set (idx n) v) g0).length = g0.length := by
  intro l
  induction l with
  | nil => intro g0; rfl
  | cons n t ih =>
    intro g0
    rw [List.foldl_cons, ih, List.length_set]

theorem foldl_set_getD_not_mem_all {α β : Type} (idx : β → Nat) (v : α) :
    ∀ (l : List β) (g0 : List α) (i : Nat) (d : α),
      (∀ n ∈ l, idx n ≠ i) →
      (l.foldl (fun g n => g.set (idx n) v) g0).getD i d = g0.getD i d := by
  intro l
  induction l with
  | nil => intro g0 i d _; rfl
  | cons n t ih =>
    intro g0 i d hno
    rw [List.foldl_cons, ih _ i d (fun m hm => hno m (List.mem_cons_of_mem n hm)),
      getD_set, if_neg]
    rintro ⟨hidx, -⟩
    exact hno n (List.mem_cons_self n t) hidx

theorem foldl_set_getD_mem_all {α β : Type} (idx : β → Nat) (v : α) :
    ∀ (l : List β) (g0 : List α) (i : Nat) (d : α),
      (∃ n ∈ l, idx n = i) → i < g0.length →
      (l.foldl (fun g n => g.set (idx n) v) g0).getD i d = v := by
  intro l
  induction l with
  | nil =>
    intro g0 i d h _
    simp at h
  | cons n t ih =>
    intro g0 i d hex hlen
    rw [List.foldl_cons]
    by_cases hext : ∃ m ∈ t, idx m = i
    · exact ih _ i d hext (by rw [List.length_set]; exact hlen)
    · have hn : idx n = i := by
        rcases hex with ⟨m, hm, hidx⟩
        rcases List.mem_cons.1 hm with rfl | hmt
        · exact hidx
        · exact absurd ⟨m, hmt, hidx⟩ hext
      rw [foldl_set_getD_not_mem_all idx v t _ i d (fun m hm hidx => hext ⟨m, hm, hidx⟩),
        getD_set, if_pos ⟨hn, hn ▸ hlen⟩]

end Util

namespace Engine

/-- `Vec::swap_remove(i)` removes exactly the element at `i`: the original
list is a permutation of that element put back in front of the result. -/
theorem swapRemove_perm {α : Type} (l : List α) (i : Nat) (m : α)
    (hget : l.get? i = some m) : l.Perm (m :: swapRemove l i) := by
  rcases List.eq_nil_or_concat l with rfl | ⟨ys, b, rfl⟩
  · cases hget
  · rw [List.concat_eq_append] at hget ⊢
    have hi : i < ys.length + 1 := by
      rw [List.get?_eq_getElem?] at hget
      have := (List.getElem?_eq_some_iff.1 hget).1
      simpa using this
    unfold swapRemove
    rw [List.getLast?_concat]
    show (ys ++ [b]).Perm (m :: ((ys ++ [b]).set i b).dropLast)
    rw [List.set_append]
    by_cases h1 : i < ys.length
    · rw [if_pos h1, List.dropLast_concat]
      have hm : ys[i] = m := by
        rw [List.get?_eq_getElem?, List.getElem?_append, if_pos h1] at hget
        obtain ⟨hb2, hv⟩ := List.getElem?_eq_some_iff.1 hget
        exact hv
      have hys : ys = ys.take i ++ m :: ys.drop (i + 1) := by
        conv_lhs => rw [← List.take_append_drop i ys]
        rw [List.drop_eq_getElem_cons h1, hm]
      have hset : ys.set i b = ys.take i ++ b :: ys.drop (i + 1) := by
        rw [List.set_eq_take_append_cons_drop, if_pos h1]
      have e1 : ys ++ [b] = ys.take i ++ m :: (ys.drop (i + 1) ++ [b]) := by
        conv_lhs => rw [hys]
        simp
      have p2 : (ys.drop (i + 1) ++ [b]).Perm (b :: ys.drop (i + 1)) :=
        List.perm_append_singleton b _
      have p3 : (ys.take i ++ (ys.drop (i + 1) ++ [b])).Perm
          (ys.take i ++ b :: ys.drop (i + 1)) := List.Perm.append_left _ p2
      rw [e1, hset]
      exact List.Perm.trans List.perm_middle (List.Perm.cons m p3)
    · have hi2 : i = ys.length := by omega
      subst hi2
      rw [if_neg h1, Nat.sub_self]
      have hm : m = b := by
        rw [List.get?_eq_getElem?, List.getElem?_concat_length] at hget
        injection hget with hv
        exact hv.symm
      rw [hm]
      show (ys ++ [b]).Perm (b :: (ys ++ [b]).dropLast)
      rw [List.dropLast_concat]
      exact List.perm_append_singleton b ys

/-- `swap_remove` under a duplicate-free frontier: removes exactly the
extracted element. -/
theorem swapRemove_spec {α : Type} {l : List α} {i : Nat} {m : α} (hnd : l.Nodup)
    (hget : l.get? i = some m) :
    (swapRemove l i).Nodup ∧ (∀ a, a ∈ swapRemove l i ↔ a ∈ l ∧ a ≠ m)
      ∧ (swapRemove l i).length + 1 = l.length := by
  have hperm := swapRemove_perm l i m hget
  have hnd2 : (m :: swapRemove l i).Nodup := hperm.nodup_iff.1 hnd
  rw [List.nodup_cons] at hnd2
  refine ⟨hnd2.2, fun a => ?_, ?_⟩
  · constructor
    · intro ha
      refine ⟨hperm.mem_iff.2 (List.mem_cons_of_mem m ha), ?_⟩
      rintro rfl
      exact hnd2.1 ha
    · rintro ⟨hal, hne⟩
      rcases List.mem_cons.1 (hperm.mem_iff.1 hal) with rfl | hmm
      · exact absurd rfl hne
      · exact hmm
  · have := hperm.length_eq
    simpa using this.symm

end Engine

namespace Day16b

/-- Case analysis of one relaxation: the stored distance either survives or
becomes the candidate, never increases, and ends at most the candidate. -/
theorem relax_cases (g : Option PathElement) (c : Nat) (u : GraphNode)
    (g' : Option PathElement) (h : relax g c u = .ok g') :
    (effective_distance g' = effective_distance g ∨ effective_distance g' = some c)
    ∧ Engine.oleDist (effective_distance g') (effective_distance g)
    ∧ Engine.oleDist (effective_distance g') (some c) := by
  unfold relax at h
  rcases g with _ | pe
  · simp only [effective_distance] at h
    injection h with h'
    subst h'
    exact ⟨Or.inr rfl, trivial, Nat.le_refl c⟩
  · rcases pe with _ | ⟨d, prev⟩
    · simp only [effective_distance] at h
      rw [if_neg (show ¬ c < 0 by omega)] at h
      by_cases h0 : c = 0
      · rw [if_pos h0] at h
        cases h
      · rw [if_neg h0] at h
        injection h with h'
        subst h'
        exact ⟨Or.inl rfl, Nat.le_refl 0, Nat.zero_le c⟩
    · simp only [effective_distance] at h
      by_cases hlt : c < d
      · rw [if_pos hlt] at h
        injection h with h'
        subst h'
        exact ⟨Or.inr rfl, Nat.le_of_lt hlt, Nat.le_refl c⟩
      · rw [if_neg hlt] at h
        by_cases heq2 : c = d
        · rw [if_pos heq2] at h
          injection h with h'
          subst h'
          exact ⟨Or.inl rfl, Nat.le_refl d, show d ≤ c by omega⟩
        · rw [if_neg heq2] at h
          injection h with h'
          subst h'
          exact ⟨Or.inl rfl, Nat.le_refl d, show d ≤ c by omega⟩

/-- A cell reads back `Empty` only in bounds (out-of-bounds reads `Wall`). -/
theorem get_empty_inBounds (s : State) (p : Point) (h : s.get p = Cell.Empty) :
    0 ≤ p.x ∧ 0 ≤ p.y ∧ p.x.toNat < s.width ∧ p.y.toNat < s.height := by
  unfold State.get at h
  by_cases hc : 0 ≤ p.x ∧ 0 ≤ p.y ∧ p.x.toNat < s.width ∧ p.y.toNat < s.height
  · exact hc
  · rw [if_neg hc] at h
    cases h

/-- The initial frontier contains exactly the oriented nodes over empty
cells. -/
theorem mem_initNodes_get (s : State) (n : GraphNode) :
    n ∈ s.initNodes ↔ s.get n.position = Cell.Empty := by
  rw [mem_initNodes]
  constructor
  · rintro ⟨-, h⟩
    exact h
  · intro h
    obtain ⟨hx, hy, hxw, hyh⟩ := get_empty_inBounds s n.position h
    refine ⟨⟨n.position.x.toNat, hxw, n.position.y.toNat, hyh, ?_⟩, h⟩
    have he : (⟨(n.position.x.toNat : Int), (n.position.y.toNat : Int)⟩ : Point)
        = ⟨n.position.x, n.position.y⟩ := by
      rw [Int.toNat_of_nonneg hx, Int.toNat_of_nonneg hy]
    rw [he]

/-- Every neighbor of a frontier node is itself a legal frontier node. -/
theorem neighbors_mem_initNodes (s : State) (u : GraphNode) (hu : u ∈ s.initNodes) :
    ∀ vw ∈ s.neighbors u, vw.1 ∈ s.initNodes := by
  intro vw hvw
  have hemp : s.get u.position = Cell.Empty := (mem_initNodes_get s u).1 hu
  unfold State.neighbors at hvw
  rcases List.mem_append.1 hvw with h1 | h2
  · by_cases hc : s.get (u.position + u.direction.to_vector) = Cell.Empty
    · rw [if_pos hc] at h1
      rcases List.mem_singleton.1 h1 with rfl
      exact (mem_initNodes_get s _).2 hc
    · rw [if_neg hc] at h1
      cases h1
  · rcases List.mem_cons.1 h2 with rfl | h3
    · exact (mem_initNodes_get s _).2 hemp
    · rcases List.mem_singleton.1 h3 with rfl
      exact (mem_initNodes_get s _).2 hemp

/-- The initial frontier has no duplicates. -/
theorem initNodes_nodup (s : State) : s.initNodes.Nodup := by
  have hpos : ∀ (x y : Nat) (a : GraphNode),
      a ∈ (if s.get ⟨(x : Int), (y : Int)⟩ = Cell.Empty then
          [Direction.Left, Direction.Right, Direction.Up, Direction.Down].map
            fun d => (⟨⟨(x : Int), (y : Int)⟩, d⟩ : GraphNode)
        else []) → a.position = ⟨(x : Int), (y : Int)⟩ := by
    intro x y a ha
    split at ha
    · rcases List.mem_map.1 ha with ⟨d, -, rfl⟩
      rfl
    · cases ha
  unfold State.initNodes
  rw [List.nodup_flatMap]
  constructor
  · intro x _
    rw [List.nodup_flatMap]
    constructor
    · intro y _
      split
      · refine List.Nodup.map ?_ (by decide)
        intro d1 d2 hd
        exact congrArg GraphNode.direction hd
      · exact List.nodup_nil
    · have hne : List.Pairwise (fun a b => a ≠ b) (List.range s.height) :=
        List.nodup_range _
      refine hne.imp ?_
      intro y1 y2 hy a ha1 ha2
      have e1 := hpos x y1 a ha1
      have e2 := hpos x y2 a ha2
      rw [e1] at e2
      have : (y1 : Int) = (y2 : Int) := congrArg Point.y e2
      exact hy (by exact_mod_cast this)
  · have hne : List.Pairwise (fun a b => a ≠ b) (List.range s.width) :=
      List.nodup_range _
    refine hne.imp ?_
    intro x1 x2 hx a ha1 ha2
    rcases List.mem_flatMap.1 ha1 with ⟨y1, -, hb1⟩
    rcases List.mem_flatMap.1 ha2 with ⟨y2, -, hb2⟩
    have e1 := hpos x1 y1 a hb1
    have e2 := hpos x2 y2 a hb2
    rw [e1] at e2
    have : (x1 : Int) = (x2 : Int) := congrArg Point.x e2
    exact hx (by exact_mod_cast this)

end Day16b

namespace Day16b

/-- Effect of one pass of the neighbor relaxation loop: the graph keeps its
size, records outside the frontier are untouched, distances never increase,
every change comes from some listed edge at its candidate value, and every
listed frontier edge ends relaxed below its candidate. -/
theorem relaxList_spec (s : State) (next : GraphNode) (dn : Nat) :
    ∀ (el : List (GraphNode × Nat)) (qc : List Bool)
      (graph graph' : List (Option PathElement)),
      qc.length = graph.length →
      s.relaxList next dn el qc graph = .ok graph' →
      graph'.length = graph.length
      ∧ (∀ j, qc.getD j false = false → graph'.getD j none = graph.getD j none)
      ∧ (∀ j, Engine.oleDist (effective_distance (graph'.getD j none))
            (effective_distance (graph.getD j none)))
      ∧ (∀ j, effective_distance (graph'.getD j none)
            = effective_distance (graph.getD j none)
          ∨ ∃ vw ∈ el, vw.1.index s.width s.height = j
              ∧ effective_distance (graph'.getD j none) = some (dn + vw.2))
      ∧ (∀ vw ∈ el, qc.getD (vw.1.index s.width s.height) false = true →
          Engine.oleDist
            (effective_distance (graph'.getD (vw.1.index s.width s.height) none))
            (some (dn + vw.2))) := by
  intro el
  induction el with
  | nil =>
    intro qc graph graph' hlen h
    simp only [State.relaxList] at h
    injection h with h'
    subst h'
    exact ⟨rfl, fun j _ => rfl, fun j => Engine.oleDist_refl _, fun j => Or.inl rfl,
      fun vw hvw => absurd hvw (List.not_mem_nil vw)⟩
  | cons ew rest ih =>
    obtain ⟨nb, w⟩ := ew
    intro qc graph graph' hlen h
    simp only [State.relaxList] at h
    by_cases hq : qc.getD (nb.index s.width s.height) false = true
    · rw [if_pos hq] at h
      cases hr : relax (graph.getD (nb.index s.width s.height) none) (dn + w) next with
      | error e =>
        simp only [hr] at h
        cases h
      | ok g1 =>
        simp only [hr] at h
        have hjlt : nb.index s.width s.height < graph.length := by
          rw [← hlen]
          by_contra hge
          rw [List.getD_eq_default _ _ (by omega)] at hq
          cases hq
        obtain ⟨ihlen, ihun, ihole, ihval, ihrel⟩ :=
          ih qc (graph.set (nb.index s.width s.height) g1) graph'
            (by rw [List.length_set]; exact hlen) h
        have hg1 : (graph.set (nb.index s.width s.height) g1).getD
            (nb.index s.width s.height) none = g1 := by
          rw [Util.getD_set, if_pos ⟨rfl, hjlt⟩]
        have hother : ∀ j, j ≠ nb.index s.width s.height →
            (graph.set (nb.index s.width s.height) g1).getD j none
              = graph.getD j none := by
          intro j hne
          rw [Util.getD_set, if_neg]
          rintro ⟨hidx, -⟩
          exact hne hidx.symm
        obtain ⟨hrc_val, hrc_ole, hrc_cand⟩ := relax_cases _ _ _ _ hr
        refine ⟨ihlen.trans (List.length_set _ _ _), ?_, ?_, ?_, ?_⟩
        · intro j hj
          have hne : j ≠ nb.index s.width s.height := by
            rintro rfl
            rw [hj] at hq
            cases hq
          rw [ihun j hj, hother j hne]
        · intro j
          by_cases hje : j = nb.index s.width s.height
          · subst hje
            have hthis := ihole (nb.index s.width s.height)
            rw [hg1] at hthis
            exact Engine.oleDist_trans hthis hrc_ole
          · have hthis := ihole j
            rw [hother j hje] at hthis
            exact hthis
        · intro j
          by_cases hje : j = nb.index s.width s.height
          · subst hje
            rcases ihval (nb.index s.width s.height) with heq | ⟨vw, hvw, hidx, hval⟩
            · rw [hg1] at heq
              rcases hrc_val with h1 | h1
              · exact Or.inl (heq.trans h1)
              · exact Or.inr ⟨(nb, w), List.mem_cons_self _ _, rfl, heq.trans h1⟩
            · exact Or.inr ⟨vw, List.mem_cons_of_mem _ hvw, hidx, hval⟩
          · rcases ihval j with heq | ⟨vw, hvw, hidx, hval⟩
            · rw [hother j hje] at heq
              exact Or.inl heq
            · exact Or.inr ⟨vw, List.mem_cons_of_mem _ hvw, hidx, hval⟩
        · intro vw hvw hqvw
          rcases List.mem_cons.1 hvw with rfl | hvw'
          · have hthis := ihole (nb.index s.width s.height)
            rw [hg1] at hthis
            exact Engine.oleDist_trans hthis hrc_cand
          · exact ihrel vw hvw' hqvw
    · rw [if_neg hq] at h
      obtain ⟨ihlen, ihun, ihole, ihval, ihrel⟩ := ih qc graph graph' hlen h
      refine ⟨ihlen, ihun, ihole, ?_, ?_⟩
      · intro j
        rcases ihval j with heq | ⟨vw, hvw, hidx, hval⟩
        · exact Or.inl heq
        · exact Or.inr ⟨vw, List.mem_cons_of_mem _ hvw, hidx, hval⟩
      · intro vw hvw hqvw
        rcases List.mem_cons.1 hvw with rfl | hvw'
        · exact absurd hqvw hq
        · exact ihrel vw hvw' hqvw

end Day16b

namespace Day16b

/-- Loop invariant of the day16b engine: the bookkeeping arrays have graph
size, the frontier is duplicate-free and legal, `queue_contains` mirrors
frontier membership, and every extracted vertex has a known distance that
is minimal against the frontier and already satisfies the triangle
inequality along all its outgoing edges. -/
def Inv16 (s : State) (queue : List GraphNode) (qc : List Bool)
    (graph : List (Option PathElement)) : Prop :=
  qc.length = s.width * s.height * 4
  ∧ graph.length = s.width * s.height * 4
  ∧ queue.Nodup
  ∧ (∀ n ∈ queue, n ∈ s.initNodes)
  ∧ (∀ n ∈ s.initNodes, (qc.getD (n.index s.width s.height) false = true ↔ n ∈ queue))
  ∧ (∀ n ∈ s.initNodes, n ∉ queue →
      (∃ dn, effective_distance (graph.getD (n.index s.width s.height) none) = some dn)
      ∧ (∀ q ∈ queue, Engine.oleDist
          (effective_distance (graph.getD (n.index s.width s.height) none))
          (effective_distance (graph.getD (q.index s.width s.height) none)))
      ∧ (∀ dn, effective_distance (graph.getD (n.index s.width s.height) none) = some dn →
          ∀ vw ∈ s.neighbors n, Engine.oleDist
            (effective_distance (graph.getD (vw.1.index s.width s.height) none))
            (some (dn + vw.2))))

/-- One loop iteration preserves the invariant and shrinks the frontier by
exactly one. -/
theorem stepAt_inv (s : State) (queue : List GraphNode) (qc : List Bool)
    (graph graph' : List (Option PathElement)) (i : Nat) (next : GraphNode) (dn : Nat)
    (hinv : Inv16 s queue qc graph)
    (hget : queue.get? i = some next)
    (hmin : ∀ y ∈ queue, Engine.oleDist
      (effective_distance (graph.getD (next.index s.width s.height) none))
      (effective_distance (graph.getD (y.index s.width s.height) none)))
    (hdn : effective_distance (graph.getD (next.index s.width s.height) none) = some dn)
    (hrel : s.relaxList next dn (s.neighbors next)
      (qc.set (next.index s.width s.height) false) graph = .ok graph') :
    Inv16 s (Engine.swapRemove queue i) (qc.set (next.index s.width s.height) false) graph'
    ∧ (Engine.swapRemove queue i).length + 1 = queue.length := by
  obtain ⟨hqclen, hglen, hnd, hsub, hacc, hext⟩ := hinv
  have hmin' : ∀ y ∈ queue, Engine.oleDist
      (effective_distance (graph.getD (next.index s.width s.height) none))
      (effective_distance (graph.getD (y.index s.width s.height) none)) := hmin
  have hnextq : next ∈ queue := List.get?_mem hget
  have hnextI : next ∈ s.initNodes := hsub next hnextq
  have hnextB : inBounds s.width s.height next := initNodes_inBounds s next hnextI
  have hnextIdx : next.index s.width s.height < s.width * s.height * 4 :=
    index_lt s.width s.height next hnextB
  obtain ⟨hndR, hmemR, hlenR⟩ := Engine.swapRemove_spec hnd hget
  obtain ⟨hRlen, hRun, hRole, hRval, hRrel⟩ :=
    relaxList_spec s next dn (s.neighbors next)
      (qc.set (next.index s.width s.height) false) graph graph'
      (by rw [List.length_set, hqclen, hglen]) hrel
  have hqc'_next : (qc.set (next.index s.width s.height) false).getD
      (next.index s.width s.height) false = false := by
    rw [Util.getD_set, if_pos ⟨rfl, by rw [hqclen]; exact hnextIdx⟩]
  have hqc'_other : ∀ n : GraphNode, n ∈ s.initNodes → n ≠ next →
      (qc.set (next.index s.width s.height) false).getD
        (n.index s.width s.height) false
        = qc.getD (n.index s.width s.height) false := by
    intro n hnI hne
    rw [Util.getD_set, if_neg]
    rintro ⟨hidx, -⟩
    exact hne (graphNode_index_inj s.width s.height n next
      (initNodes_inBounds s n hnI) hnextB hidx.symm)
  have hGnext : graph'.getD (next.index s.width s.height) none
      = graph.getD (next.index s.width s.height) none :=
    hRun _ hqc'_next
  have hextract' : ∀ n ∈ s.initNodes, n ∉ Engine.swapRemove queue i →
      n ≠ next → n ∉ queue := by
    intro n _ hnq' hne hnq
    exact hnq' ((hmemR n).2 ⟨hnq, hne⟩)
  have hGold : ∀ n ∈ s.initNodes, n ∉ queue →
      graph'.getD (n.index s.width s.height) none
        = graph.getD (n.index s.width s.height) none := by
    intro n hnI hnq
    by_cases hne : n = next
    · subst hne
      exact hGnext
    · refine hRun _ ?_
      rw [hqc'_other n hnI hne]
      cases hb : qc.getD (n.index s.width s.height) false
      · rfl
      · exact absurd ((hacc n hnI).1 hb) hnq
  refine ⟨⟨?_, ?_, hndR, ?_, ?_, ?_⟩, hlenR⟩
  · rw [List.length_set]
    exact hqclen
  · rw [hRlen]
    exact hglen
  · intro n hn
    exact hsub n ((hmemR n).1 hn).1
  · intro n hnI
    by_cases hne : n = next
    · subst hne
      rw [hqc'_next]
      constructor
      · intro hfalse
        cases hfalse
      · intro hmem
        exact absurd rfl ((hmemR n).1 hmem).2
    · rw [hqc'_other n hnI hne, hacc n hnI, hmemR n]
      constructor
      · intro h
        exact ⟨h, hne⟩
      · intro h
        exact h.1
  · intro n hnI hnq'
    by_cases hne : n = next
    · subst hne
      refine ⟨⟨dn, by rw [hGnext]; exact hdn⟩, ?_, ?_⟩
      · intro q hq
        rw [hGnext, hdn]
        rcases hRval (q.index s.width s.height) with heq | ⟨vw, hvw, hidx, hval⟩
        · rw [heq]
          have hq2 := hmin' q ((hmemR q).1 hq).1
          rw [hdn] at hq2
          exact hq2
        · rw [hval]
          show dn ≤ dn + vw.2
          omega
      · intro dn' hdn' vw hvw
        have hdneq : dn' = dn := by
          rw [hGnext, hdn] at hdn'
          injection hdn' with h'
          exact h'.symm
        rw [hdneq]
        by_cases hqj : (qc.set (n.index s.width s.height) false).getD
            (vw.1.index s.width s.height) false = true
        · exact hRrel vw hvw hqj
        · have hvwI : vw.1 ∈ s.initNodes :=
            neighbors_mem_initNodes s n hnextI vw hvw
          have hGj : graph'.getD (vw.1.index s.width s.height) none
              = graph.getD (vw.1.index s.width s.height) none := by
            refine hRun _ ?_
            cases hb : (qc.set (n.index s.width s.height) false).getD
                (vw.1.index s.width s.height) false
            · rfl
            · exact absurd hb hqj
          rw [hGj]
          by_cases hvnext : vw.1 = n
          · rw [hvnext, hdn]
            show dn ≤ dn + vw.2
            omega
          · have hnq : vw.1 ∉ queue := by
              intro hmem
              refine hqj ?_
              rw [hqc'_other vw.1 hvwI hvnext]
              exact (hacc vw.1 hvwI).2 hmem
            obtain ⟨-, hminv, -⟩ := hext vw.1 hvwI hnq
            have h1 := hminv n hnextq
            rw [hdn] at h1
            refine Engine.oleDist_trans h1 ?_
            show dn ≤ dn + vw.2
            omega
    · have hnq : n ∉ queue := hextract' n hnI hnq' hne
      obtain ⟨⟨dno, hdno⟩, hminv, hedge⟩ := hext n hnI hnq
      have hGn : graph'.getD (n.index s.width s.height) none
          = graph.getD (n.index s.width s.height) none := hGold n hnI hnq
      refine ⟨⟨dno, by rw [hGn]; exact hdno⟩, ?_, ?_⟩
      · intro q hq
        rw [hGn]
        rcases hRval (q.index s.width s.height) with heq | ⟨vw, hvw, hidx, hval⟩
        · rw [heq]
          exact hminv q ((hmemR q).1 hq).1
        · rw [hval, hdno]
          have h2 := hminv next hnextq
          rw [hdno, hdn] at h2
          show dno ≤ dn + vw.2
          have h3 : dno ≤ dn := h2
          omega
      · intro dn' hdn' vw hvw
        have hdneq : dn' = dno := by
          rw [hGn, hdno] at hdn'
          injection hdn' with h'
          exact h'.symm
        rw [hdneq]
        exact Engine.oleDist_trans (hRole (vw.1.index s.width s.height))
          (hedge dno hdno vw hvw)


theorem dijkstraStep_inv (s : State) (queue : List GraphNode) (qc : List Bool)
    (graph : List (Option PathElement)) (q' : List GraphNode) (qc' : List Bool)
    (g' : List (Option PathElement)) (hinv : Inv16 s queue qc graph)
    (hstep : s.dijkstraStep queue qc graph = .ok (q', qc', g')) :
    Inv16 s q' qc' g' ∧ q'.length + 1 = queue.length := by
  obtain ⟨hqclen, hglen, hnd, hsub, hacc, hext⟩ := hinv
  unfold State.dijkstraStep at hstep
  cases hmax : Engine.maxBy (fun n => effective_distance
      (graph.getD (n.index s.width s.height) none)) queue with
  | none =>
    simp only [hmax] at hstep
    cases hstep
  | some im =>
    obtain ⟨i, next⟩ := im
    simp only [hmax] at hstep
    cases hdn : effective_distance (graph.getD (next.index s.width s.height) none) with
    | none =>
      simp only [hdn] at hstep
      cases hstep
    | some dn =>
      simp only [hdn] at hstep
      cases hrel : s.relaxList next dn (s.neighbors next)
          (qc.set (next.index s.width s.height) false) graph with
      | error e =>
        simp only [hrel] at hstep
        cases hstep
      | ok graphR =>
        simp only [hrel, Except.ok.injEq, Prod.mk.injEq] at hstep
        obtain ⟨rfl, rfl, rfl⟩ := hstep
        obtain ⟨hget, hmin⟩ := Engine.maxBy_spec _ queue i next hmax
        exact stepAt_inv s queue qc graph graphR i next dn
          ⟨hqclen, hglen, hnd, hsub, hacc, hext⟩ hget hmin hdn hrel

end Day16b

namespace Day16b

/-- The initial engine state satisfies the loop invariant. -/
theorem init_inv (s : State) : Inv16 s s.initNodes s.initQC s.initGraph := by
  refine ⟨?_, ?_, initNodes_nodup s, fun n hn => hn, ?_, ?_⟩
  · unfold State.initQC
    rw [Util.foldl_set_length_all, List.length_replicate]
  · unfold State.initGraph
    rw [Util.foldl_set_length, List.length_replicate]
  · intro n hnI
    constructor
    · intro _
      exact hnI
    · intro _
      unfold State.initQC
      refine Util.foldl_set_getD_mem_all _ _ s.initNodes _ _ _ ⟨n, hnI, rfl⟩ ?_
      rw [List.length_replicate]
      exact index_lt s.width s.height n (initNodes_inBounds s n hnI)
  · intro n hnI hnq
    exact absurd hnI hnq

/-- At successful termination of the loop every legal vertex has a final
distance satisfying the triangle inequality along all its outgoing edges. -/
theorem dijkstraLoop_inv (s : State) :
    ∀ (fuel : Nat) (queue : List GraphNode) (qc : List Bool)
      (graph gf : List (Option PathElement)),
      Inv16 s queue qc graph → queue.length ≤ fuel →
      s.dijkstraLoop fuel queue qc graph = .ok gf →
      ∀ u ∈ s.initNodes,
        ∃ du, effective_distance (gf.getD (u.index s.width s.height) none) = some du
          ∧ ∀ vw ∈ s.neighbors u, Engine.oleDist
              (effective_distance (gf.getD (vw.1.index s.width s.height) none))
              (some (du + vw.2)) := by
  intro fuel
  induction fuel with
  | zero =>
    intro queue qc graph gf hinv hle hrun
    simp only [State.dijkstraLoop] at hrun
    by_cases hq : queue.isEmpty = true
    · rw [if_pos hq] at hrun
      injection hrun with h'
      subst h'
      have hqnil : queue = [] := List.isEmpty_iff.1 hq
      subst hqnil
      intro u huI
      obtain ⟨⟨du, hdu⟩, -, hedge⟩ := hinv.2.2.2.2.2 u huI (List.not_mem_nil u)
      exact ⟨du, hdu, fun vw hvw => hedge du hdu vw hvw⟩
    · rw [if_neg hq] at hrun
      cases hrun
  | succ fuel ih =>
    intro queue qc graph gf hinv hle hrun
    simp only [State.dijkstraLoop] at hrun
    by_cases hq : queue.isEmpty = true
    · rw [if_pos hq] at hrun
      injection hrun with h'
      subst h'
      have hqnil : queue = [] := List.isEmpty_iff.1 hq
      subst hqnil
      intro u huI
      obtain ⟨⟨du, hdu⟩, -, hedge⟩ := hinv.2.2.2.2.2 u huI (List.not_mem_nil u)
      exact ⟨du, hdu, fun vw hvw => hedge du hdu vw hvw⟩
    · rw [if_neg hq] at hrun
      cases hstep : s.dijkstraStep queue qc graph with
      | error e =>
        simp only [hstep] at hrun
        cases hrun
      | ok t =>
        obtain ⟨q2, qc2, g2⟩ := t
        simp only [hstep] at hrun
        obtain ⟨hinv2, hlen2⟩ := dijkstraStep_inv s queue qc graph q2 qc2 g2 hinv hstep
        exact ih q2 qc2 g2 gf hinv2 (by omega) hrun

/-- C6: at termination of the day16b shortest-path engine (a successful
full run of the Dijkstra loop over the legal, non-wall vertices), every
edge `(u, v, w)` produced by the neighbor callback satisfies the triangle
inequality: both endpoints carry final distances and
`distance(v) ≤ distance(u) + w`. -/
theorem dijkstra_triangle (s : State) (gf : List (Option PathElement))
    (hrun : s.dijkstraLoop s.initNodes.length s.initNodes s.initQC s.initGraph = .ok gf)
    (u : GraphNode) (hu : u ∈ s.initNodes)
    (vw : GraphNode × Nat) (hvw : vw ∈ s.neighbors u) :
    ∃ du dv, effective_distance (gf.getD (u.index s.width s.height) none) = some du
      ∧ effective_distance (gf.getD (vw.1.index s.width s.height) none) = some dv
      ∧ dv ≤ du + vw.2 := by
  have hall := dijkstraLoop_inv s s.initNodes.length s.initNodes s.initQC s.initGraph gf
    (init_inv s) (Nat.le_refl _) hrun
  obtain ⟨du, hdu, hedges⟩ := hall u hu
  obtain ⟨dv, hdv, -⟩ := hall vw.1 (neighbors_mem_initNodes s u hu vw hvw)
  refine ⟨du, dv, hdu, hdv, ?_⟩
  have hole := hedges vw hvw
  rw [hdv] at hole
  exact hole

/-- Witness for C6: in the two-cell corridor the loop terminates
successfully and the rotation edge out of the seeded start node satisfies
the triangle inequality. -/
theorem dijkstra_triangle_witness :
    ∃ gf, corridorDown.dijkstraLoop corridorDown.initNodes.length corridorDown.initNodes
        corridorDown.initQC corridorDown.initGraph = Except.ok gf
      ∧ ∃ du dv,
        effective_distance (gf.getD (GraphNode.index ⟨⟨0, 0⟩, Direction.Right⟩
          corridorDown.width corridorDown.height) none) = some du
        ∧ effective_distance (gf.getD (GraphNode.index ⟨⟨0, 0⟩, Direction.Right.left⟩
          corridorDown.width corridorDown.height) none) = some dv
        ∧ dv ≤ du + 1000 := by
  refine ⟨(corridorDown.dijkstraLoop corridorDown.initNodes.length corridorDown.initNodes
      corridorDown.initQC corridorDown.initGraph).toOption.getD [], rfl, ?_⟩
  exact dijkstra_triangle corridorDown _ rfl ⟨⟨0, 0⟩, Direction.Right⟩ (by decide)
    (⟨⟨0, 0⟩, Direction.Right.left⟩, 1000) (by decide)

end Day16b

namespace Day18b

theorem index_ok_val (g : Grid) (p : Point) (ni : Nat) (h : g.index p = .ok ni) :
    ni = g.idx p := by
  unfold Grid.index at h
  split at h
  · injection h with h'
    exact h'.symm
  · cases h

theorem index_ok_lt (g : Grid) (p : Point) (ni : Nat) (h : g.index p = .ok ni) :
    ni < g.width * g.height := by
  unfold Grid.index at h
  split at h
  · rename_i hc
    injection h with h'
    obtain ⟨-, -, hx, hy⟩ := hc
    subst h'
    calc p.y.toNat * g.width + p.x.toNat
        < (p.y.toNat + 1) * g.width := by rw [Nat.add_mul]; omega
      _ ≤ g.height * g.width := Nat.mul_le_mul_right g.width hy
      _ = g.width * g.height := Nat.mul_comm g.height g.width
  · cases h

/-- Effect of the direction relaxation pass: graph size is preserved, each
record is untouched or becomes the candidate `dn + 1` under strict
improvement, and `goal_node` is set only when the goal itself was just
relaxed to `dn + 1`. -/
theorem relaxDirs_spec (g : Grid) (next : Point) (dn : Nat) (goal : Point) (qc : List Bool) :
    ∀ (ds : List Direction) (graph : List (Option PathElement)) (goalNode : Option Point),
      graph.length = g.width * g.height →
      (g.relaxDirs next dn goal qc ds graph goalNode).1.length = graph.length
      ∧ (∀ j, (g.relaxDirs next dn goal qc ds graph goalNode).1.getD j none
            = graph.getD j none
          ∨ (effective_distance
              ((g.relaxDirs next dn goal qc ds graph goalNode).1.getD j none)
                = some (dn + 1)
            ∧ ∀ cur, effective_distance (graph.getD j none) = some cur → dn + 1 < cur))
      ∧ ((g.relaxDirs next dn goal qc ds graph goalNode).2 = goalNode
          ∨ ((g.relaxDirs next dn goal qc ds graph goalNode).2 = some goal
            ∧ effective_distance
                ((g.relaxDirs next dn goal qc ds graph goalNode).1.getD (g.idx goal) none)
              = some (dn + 1))) := by
  intro ds
  induction ds with
  | nil =>
    intro graph goalNode hlen
    exact ⟨rfl, fun j => Or.inl rfl, Or.inl rfl⟩
  | cons dd rest ih =>
    intro graph goalNode hlen
    simp only [Grid.relaxDirs]
    cases hni : g.index (next + dd.to_vector) with
    | error e =>
      simp only [hni]
      exact ih graph goalNode hlen
    | ok ni =>
      simp only [hni]
      by_cases hqc : qc.getD ni false = true
      · rw [if_pos hqc]
        by_cases hrep : (match effective_distance (graph.getD ni none) with
            | some cur => decide (dn + 1 < cur)
            | none => true) = true
        · rw [if_pos hrep]
          have hnilt : ni < graph.length := by
            rw [hlen]
            exact index_ok_lt g _ ni hni
          have hsetat : (graph.set ni (some (.Element (dn + 1)))).getD ni none
              = some (.Element (dn + 1)) := by
            rw [Util.getD_set, if_pos ⟨rfl, hnilt⟩]
          have hsetother : ∀ j, ni ≠ j →
              (graph.set ni (some (.Element (dn + 1)))).getD j none = graph.getD j none := by
            intro j hne
            rw [Util.getD_set, if_neg]
            rintro ⟨hidx, -⟩
            exact hne hidx
          have hcond : ∀ cur, effective_distance (graph.getD ni none) = some cur →
              dn + 1 < cur := by
            intro cur hc
            rw [hc] at hrep
            exact of_decide_eq_true hrep
          by_cases hng : next + dd.to_vector = goal
          · rw [if_pos hng]
            obtain ⟨ihlen, ihv, ihg⟩ :=
              ih (graph.set ni (some (.Element (dn + 1)))) (some (next + dd.to_vector))
                (by rw [List.length_set]; exact hlen)
            refine ⟨ihlen.trans (List.length_set _ _ _), ?_, ?_⟩
            · intro j
              rcases ihv j with hL | ⟨hR, hRc⟩
              · by_cases hc : ni = j
                · subst hc
                  rw [hsetat] at hL
                  exact Or.inr ⟨by rw [hL]; rfl, hcond⟩
                · rw [hsetother j hc] at hL
                  exact Or.inl hL
              · by_cases hc : ni = j
                · subst hc
                  exact Or.inr ⟨hR, hcond⟩
                · rw [hsetother j hc] at hRc
                  exact Or.inr ⟨hR, hRc⟩
            · have hnig : ni = g.idx goal := by
                rw [index_ok_val g _ ni hni, hng]
              have hval : effective_distance
                  ((g.relaxDirs next dn goal qc rest
                      (graph.set ni (some (.Element (dn + 1))))
                      (some (next + dd.to_vector))).1.getD (g.idx goal) none)
                  = some (dn + 1) := by
                rw [← hnig]
                rcases ihv ni with hL | ⟨hR, -⟩
                · rw [hsetat] at hL
                  rw [hL]
                  rfl
                · exact hR
              rcases ihg with hgL | ⟨hgR, hgRv⟩
              · exact Or.inr ⟨by rw [hgL, hng], hval⟩
              · exact Or.inr ⟨hgR, hgRv⟩
          · rw [if_neg hng]
            obtain ⟨ihlen, ihv, ihg⟩ :=
              ih (graph.set ni (some (.Element (dn + 1)))) goalNode
                (by rw [List.length_set]; exact hlen)
            refine ⟨ihlen.trans (List.length_set _ _ _), ?_, ?_⟩
            · intro j
              rcases ihv j with hL | ⟨hR, hRc⟩
              · by_cases hc : ni = j
                · subst hc
                  rw [hsetat] at hL
                  exact Or.inr ⟨by rw [hL]; rfl, hcond⟩
                · rw [hsetother j hc] at hL
                  exact Or.inl hL
              · by_cases hc : ni = j
                · subst hc
                  exact Or.inr ⟨hR, hcond⟩
                · rw [hsetother j hc] at hRc
                  exact Or.inr ⟨hR, hRc⟩
            · rcases ihg with hgL | ⟨hgR, hgRv⟩
              · exact Or.inl hgL
              · exact Or.inr ⟨hgR, hgRv⟩
        · rw [if_neg hrep]
          exact ih graph goalNode hlen
      · rw [if_neg hqc]
        exact ih graph goalNode hlen

end Day18b

namespace Day18b

/-- Specification of one day18b loop iteration: it extracts a
minimum-distance frontier point and relaxes its four neighbors with
candidate `dn + 1`, only ever replacing strictly larger records, and sets
`goal_node` only when the goal itself was just relaxed. -/
theorem dijkstraStep18_spec (g : Grid) (goal : Point) (queue : List Point) (qc : List Bool)
    (graph : List (Option PathElement)) (goalNode : Option Point)
    (q' : List Point) (qc' : List Bool) (g1 : List (Option PathElement)) (gn1 : Option Point)
    (hglen : graph.length = g.width * g.height)
    (h : g.dijkstraStep goal queue qc graph goalNode = .ok (q', qc', g1, gn1)) :
    g1.length = graph.length
    ∧ ∃ (i : Nat) (next : Point) (dn : Nat),
      queue.get? i = some next
      ∧ q' = Engine.swapRemove queue i
      ∧ effective_distance (graph.getD (g.idx next) none) = some dn
      ∧ (∀ y ∈ queue, Engine.oleDist (some dn)
          (effective_distance (graph.getD (g.idx y) none)))
      ∧ (∀ j, g1.getD j none = graph.getD j none
          ∨ (effective_distance (g1.getD j none) = some (dn + 1)
            ∧ ∀ cur, effective_distance (graph.getD j none) = some cur → dn + 1 < cur))
      ∧ (gn1 = goalNode
          ∨ (gn1 = some goal
            ∧ effective_distance (g1.getD (g.idx goal) none) = some (dn + 1))) := by
  unfold Grid.dijkstraStep at h
  cases hmax : Engine.maxBy (fun p => effective_distance (graph.getD (g.idx p) none)) queue with
  | none =>
    simp only [hmax] at h
    cases h
  | some im =>
    obtain ⟨i, next⟩ := im
    simp only [hmax] at h
    cases hidx : g.index next with
    | error e =>
      simp only [hidx] at h
      cases h
    | ok ni =>
      simp only [hidx] at h
      have hni : ni = g.idx next := index_ok_val g next ni hidx
      subst hni
      cases hdn : effective_distance (graph.getD (g.idx next) none) with
      | none =>
        simp only [hdn] at h
        cases h
      | some dn =>
        simp only [hdn, Except.ok.injEq, Prod.mk.injEq] at h
        obtain ⟨hq, hqc, hg, hgn⟩ := h
        obtain ⟨hget, hmin⟩ := Engine.maxBy_spec _ queue i next hmax
        have hmin' : ∀ y ∈ queue, Engine.oleDist
            (effective_distance (graph.getD (g.idx next) none))
            (effective_distance (graph.getD (g.idx y) none)) := hmin
        obtain ⟨hRlen, hRv, hRg⟩ := relaxDirs_spec g next dn goal
          (qc.set (g.idx next) false)
          [Direction.Left, Direction.Right, Direction.Up, Direction.Down]
          graph goalNode hglen
        refine ⟨?_, i, next, dn, hget, hq.symm, hdn, ?_, ?_, ?_⟩
        · rw [← hg]
          exact hRlen
        · intro y hy
          have hthis := hmin' y hy
          rw [hdn] at hthis
          exact hthis
        · intro j
          rw [← hg]
          exact hRv j
        · rw [← hg, ← hgn]
          exact hRg

/-- Any record that is the goal's stays frozen through the rest of the full
run: once the goal holds distance `d` and every frontier distance is at
least `d - 1`, later unit-weight relaxations never improve it. -/
theorem loopFull_goal_frozen (g : Grid) (goal : Point) (d : Nat) :
    ∀ (fuel : Nat) (queue : List Point) (qc : List Bool)
      (graph : List (Option PathElement)) (goalNode : Option Point)
      (gf : List (Option PathElement)) (gnf : Option Point),
      graph.length = g.width * g.height →
      effective_distance (graph.getD (g.idx goal) none) = some d →
      (∀ q ∈ queue, ∀ dq, effective_distance (graph.getD (g.idx q) none) = some dq →
        d ≤ dq + 1) →
      g.loopFull goal fuel queue qc graph goalNode = .ok (gf, gnf) →
      effective_distance (gf.getD (g.idx goal) none) = some d := by
  intro fuel
  induction fuel with
  | zero =>
    intro queue qc graph goalNode gf gnf hglen hgd hJ hrun
    simp only [Grid.loopFull] at hrun
    by_cases hq : queue.isEmpty = true
    · rw [if_pos hq] at hrun
      simp only [Except.ok.injEq, Prod.mk.injEq] at hrun
      obtain ⟨rfl, rfl⟩ := hrun
      exact hgd
    · rw [if_neg hq] at hrun
      cases hrun
  | succ fuel ih =>
    intro queue qc graph goalNode gf gnf hglen hgd hJ hrun
    simp only [Grid.loopFull] at hrun
    by_cases hq : queue.isEmpty = true
    · rw [if_pos hq] at hrun
      simp only [Except.ok.injEq, Prod.mk.injEq] at hrun
      obtain ⟨rfl, rfl⟩ := hrun
      exact hgd
    · rw [if_neg hq] at hrun
      cases hstep : g.dijkstraStep goal queue qc graph goalNode with
      | error e =>
        simp only [hstep] at hrun
        cases hrun
      | ok t =>
        obtain ⟨q2, qc2, g2, gn2⟩ := t
        simp only [hstep] at hrun
        obtain ⟨hslen, i, next, dn, hget, hq2eq, hdn, hmin, hvals, -⟩ :=
          dijkstraStep18_spec g goal queue qc graph goalNode q2 qc2 g2 gn2 hglen hstep
        have hnextq : next ∈ queue := List.get?_mem hget
        have hdbound : d ≤ dn + 1 := hJ next hnextq dn hdn
        have hgd2 : effective_distance (g2.getD (g.idx goal) none) = some d := by
          rcases hvals (g.idx goal) with hL | ⟨hR, hRc⟩
          · rw [hL]
            exact hgd
          · exact absurd (hRc d hgd) (by omega)
        have hJ2 : ∀ q ∈ q2, ∀ dq,
            effective_distance (g2.getD (g.idx q) none) = some dq → d ≤ dq + 1 := by
          intro q hq2 dq hdq
          have hqQ : q ∈ queue := by
            have hperm := Engine.swapRemove_perm queue i next hget
            refine hperm.mem_iff.2 (List.mem_cons_of_mem next ?_)
            rw [← hq2eq]
            exact hq2
          rcases hvals (g.idx q) with hL | ⟨hR, -⟩
          · rw [hL] at hdq
            exact hJ q hqQ dq hdq
          · rw [hR] at hdq
            injection hdq with h'
            omega
        exact ih q2 qc2 g2 gn2 gf gnf (hslen.trans hglen) hgd2 hJ2 hrun

/-- The early-exit loop is inert once the goal has been found. -/
theorem loopEarly_stop (g : Grid) (goal : Point) :
    ∀ (fuel : Nat) (queue : List Point) (qc : List Bool)
      (graph : List (Option PathElement)) (z : Point),
      g.loopEarly goal fuel queue qc graph (some z) = .ok (graph, some z) := by
  intro fuel queue qc graph z
  cases fuel <;> simp [Grid.loopEarly]

/-- Lock-step comparison of the two stopping policies: run over the same
initial state, if the early-exit loop reports a found goal then the goal
point is that node, and the full run ends with the same goal distance. -/
theorem loops_agree (g : Grid) (goal : Point) :
    ∀ (fuel : Nat) (queue : List Point) (qc : List Bool)
      (graph graphE gf : List (Option PathElement)) (gn : Point) (gnf : Option Point),
      graph.length = g.width * g.height →
      g.loopEarly goal fuel queue qc graph none = .ok (graphE, some gn) →
      g.loopFull goal fuel queue qc graph none = .ok (gf, gnf) →
      gn = goal ∧ ∀ d, effective_distance (graphE.getD (g.idx goal) none) = some d →
        effective_distance (gf.getD (g.idx goal) none) = some d := by
  intro fuel
  induction fuel with
  | zero =>
    intro queue qc graph graphE gf gn gnf hglen hE hF
    simp only [Grid.loopEarly] at hE
    by_cases hq : (queue.isEmpty || (none : Option Point).isSome) = true
    · rw [if_pos hq] at hE
      simp only [Except.ok.injEq, Prod.mk.injEq] at hE
      obtain ⟨-, hcon⟩ := hE
      cases hcon
    · rw [if_neg hq] at hE
      cases hE
  | succ fuel ih =>
    intro queue qc graph graphE gf gn gnf hglen hE hF
    simp only [Grid.loopEarly] at hE
    simp only [Grid.loopFull] at hF
    by_cases hq : queue.isEmpty = true
    · rw [if_pos (show (queue.isEmpty || (none : Option Point).isSome) = true by
        simp [hq])] at hE
      simp only [Except.ok.injEq, Prod.mk.injEq] at hE
      obtain ⟨-, hcon⟩ := hE
      cases hcon
    · rw [if_neg (show ¬ (queue.isEmpty || (none : Option Point).isSome) = true by
        simp [hq])] at hE
      rw [if_neg hq] at hF
      cases hstep : g.dijkstraStep goal queue qc graph none with
      | error e =>
        simp only [hstep] at hE
        cases hE
      | ok t =>
        obtain ⟨q2, qc2, g2, gn2⟩ := t
        simp only [hstep] at hE hF
        obtain ⟨hslen, i, next, dn, hget, hq2eq, hdn, hmin, hvals, hgnd⟩ :=
          dijkstraStep18_spec g goal queue qc graph none q2 qc2 g2 gn2 hglen hstep
        cases gn2 with
        | none =>
          exact ih q2 qc2 g2 graphE gf gn gnf (hslen.trans hglen) hE hF
        | some z =>
          rw [loopEarly_stop g goal fuel q2 qc2 g2 z] at hE
          simp only [Except.ok.injEq, Prod.mk.injEq] at hE
          obtain ⟨hgE, hz⟩ := hE
          injection hz with hz'
          rcases hgnd with hcon | ⟨hzg, hval⟩
          · cases hcon
          · injection hzg with hzg'
            constructor
            · rw [← hz', hzg']
            · intro d hd
              rw [← hgE] at hd
              have hd0 := hd
              rw [hval] at hd0
              injection hd0 with hdval
              have hJ2 : ∀ q ∈ q2, ∀ dq,
                  effective_distance (g2.getD (g.idx q) none) = some dq →
                    d ≤ dq + 1 := by
                intro q hq2 dq hdq
                have hqQ : q ∈ queue := by
                  have hperm := Engine.swapRemove_perm queue i next hget
                  refine hperm.mem_iff.2 (List.mem_cons_of_mem next ?_)
                  rw [← hq2eq]
                  exact hq2
                rcases hvals (g.idx q) with hL | ⟨hR, -⟩
                · rw [hL] at hdq
                  have hm := hmin q hqQ
                  rw [hdq] at hm
                  have hmle : dn ≤ dq := hm
                  omega
                · rw [hR] at hdq
                  injection hdq with h'
                  omega
              exact loopFull_goal_frozen g goal d fuel q2 qc2 g2 (some z) gf gnf
                (hslen.trans hglen) hd hJ2 hF

end Day18b

namespace Day18b

/-- C4: the goal-seeking search of day18b.rs that stops as soon as the goal
vertex is reached (`Grid.shorted_path`, built on `loopEarly`) returns the
same distance that the run-to-empty-frontier variant (`loopFull`, the
spec's full single-source search with the same extraction and unit-weight
relaxation) leaves recorded at the goal: the early exit changes no
result. -/
theorem early_exit_equiv (g : Grid) (start goal : Point) (d : Nat)
    (gf : List (Option PathElement)) (gnf : Option Point)
    (hE : g.shorted_path start goal = .ok d)
    (hF : g.loopFull goal g.initNodes.length g.initNodes g.initQC (g.initGraph start) none
        = .ok (gf, gnf)) :
    effective_distance (gf.getD (g.idx goal) none) = some d := by
  unfold Grid.shorted_path at hE
  cases hle : g.loopEarly goal g.initNodes.length g.initNodes g.initQC
      (g.initGraph start) none with
  | error e =>
    simp only [hle] at hE
    cases hE
  | ok p =>
    obtain ⟨graphE, gnE⟩ := p
    simp only [hle] at hE
    cases gnE with
    | none =>
      cases hE
    | some z =>
      cases hiz : g.index z with
      | error e =>
        simp only [hiz] at hE
        cases hE
      | ok gi =>
        simp only [hiz] at hE
        cases hgd : graphE.getD gi none with
        | none =>
          simp only [hgd] at hE
          cases hE
        | some pe =>
          cases pe with
          | Start =>
            simp only [hgd] at hE
            cases hE
          | Element dE =>
            simp only [hgd] at hE
            injection hE with hE'
            have hlen0 : (g.initGraph start).length = g.width * g.height := by
              unfold Grid.initGraph
              rw [Util.foldl_set_length, List.length_replicate]
            obtain ⟨hzg, himp⟩ := loops_agree g goal g.initNodes.length g.initNodes
              g.initQC (g.initGraph start) graphE gf z gnf hlen0 hle hF
            refine himp d ?_
            have hgi : gi = g.idx goal := by
              rw [index_ok_val g z gi hiz, hzg]
            rw [← hgi, hgd, hE']
            rfl

end Day18b

namespace Day18b

/-- Witness for C4: on the fully reachable 2×1 grid with no corrupted
cells, the early-exit search answers 1, the full run terminates, and the
full run's record at the goal is the same distance 1. -/
theorem early_exit_equiv_witness :
    (Grid.new 2 1 []).shorted_path ⟨0, 0⟩ ⟨1, 0⟩ = Except.ok 1
    ∧ effective_distance
        ((((Grid.new 2 1 []).loopFull ⟨1, 0⟩ (Grid.new 2 1 []).initNodes.length
            (Grid.new 2 1 []).initNodes (Grid.new 2 1 []).initQC
            ((Grid.new 2 1 []).initGraph ⟨0, 0⟩) none).toOption.getD
          ([], none)).1.getD ((Grid.new 2 1 []).idx ⟨1, 0⟩) none) = some 1 :=
  ⟨rfl,
    early_exit_equiv (Grid.new 2 1 []) ⟨0, 0⟩ ⟨1, 0⟩ 1
      (((Grid.new 2 1 []).loopFull ⟨1, 0⟩ (Grid.new 2 1 []).initNodes.length
          (Grid.new 2 1 []).initNodes (Grid.new 2 1 []).initQC
          ((Grid.new 2 1 []).initGraph ⟨0, 0⟩) none).toOption.getD ([], none)).1
      (((Grid.new 2 1 []).loopFull ⟨1, 0⟩ (Grid.new 2 1 []).initNodes.length
          (Grid.new 2 1 []).initNodes (Grid.new 2 1 []).initQC
          ((Grid.new 2 1 []).initGraph ⟨0, 0⟩) none).toOption.getD ([], none)).2
      rfl rfl⟩

end Day18b

namespace Engine

instance : ∀ (a b : Option Nat), Decidable (oleDist a b)
  | none, none => isTrue trivial
  | none, some _ => isFalse fun h => h
  | some _, none => isTrue trivial
  | some a, some b => inferInstanceAs (Decidable (a ≤ b))

end Engine

namespace Day16b

/-- One run of the day16b engine with an arbitrary resolution of frontier
ties: each step extracts some frontier element of minimal tentative
distance (any index `i` pointing at such an element, not necessarily the
one Rust's `max_by` tie-break selects), removes it with `swap_remove`,
clears its `queue_contains` bit and relaxes its neighbors with the
code's `relaxList`, until the frontier is empty.  `dijkstraLoop_run`
shows every successful run of the code's loop is such a run. -/
inductive Run (s : State) :
    List GraphNode → List Bool → List (Option PathElement) →
      List (Option PathElement) → Prop
  | done (qc : List Bool) (graph : List (Option PathElement)) : Run s [] qc graph graph
  | step {queue : List GraphNode} {qc : List Bool} {graph : List (Option PathElement)}
      (i : Nat) (next : GraphNode) {dn : Nat} {graph' gf : List (Option PathElement)}
      (hget : queue.get? i = some next)
      (hmin : ∀ y ∈ queue, Engine.oleDist
        (effective_distance (graph.getD (next.index s.width s.height) none))
        (effective_distance (graph.getD (y.index s.width s.height) none)))
      (hdn : effective_distance (graph.getD (next.index s.width s.height) none) = some dn)
      (hrel : s.relaxList next dn (s.neighbors next)
        (qc.set (next.index s.width s.height) false) graph = .ok graph')
      (hrest : Run s (Engine.swapRemove queue i)
        (qc.set (next.index s.width s.height) false) graph' gf) :
      Run s queue qc graph gf

/-- Every successful run of the code's loop is a `Run` (with the ties
resolved the way `max_by` resolves them). -/
theorem dijkstraLoop_run (s : State) :
    ∀ (fuel : Nat) (queue : List GraphNode) (qc : List Bool)
      (graph gf : List (Option PathElement)),
      s.dijkstraLoop fuel queue qc graph = .ok gf →
      Run s queue qc graph gf := by
  intro fuel
  induction fuel with
  | zero =>
    intro queue qc graph gf hrun
    simp only [State.dijkstraLoop] at hrun
    by_cases hq : queue.isEmpty = true
    · rw [if_pos hq] at hrun
      injection hrun with h'
      subst h'
      rw [List.isEmpty_iff.1 hq]
      exact Run.done qc graph
    · rw [if_neg hq] at hrun
      cases hrun
  | succ fuel ih =>
    intro queue qc graph gf hrun
    simp only [State.dijkstraLoop] at hrun
    by_cases hq : queue.isEmpty = true
    · rw [if_pos hq] at hrun
      injection hrun with h'
      subst h'
      rw [List.isEmpty_iff.1 hq]
      exact Run.done qc graph
    · rw [if_neg hq] at hrun
      cases hstep : s.dijkstraStep queue qc graph with
      | error e =>
        simp only [hstep] at hrun
        cases hrun
      | ok t =>
        obtain ⟨q2, qc2, g2⟩ := t
        simp only [hstep] at hrun
        unfold State.dijkstraStep at hstep
        cases hmax : Engine.maxBy (fun n => effective_distance
            (graph.getD (n.index s.width s.height) none)) queue with
        | none =>
          simp only [hmax] at hstep
          cases hstep
        | some im =>
          obtain ⟨i, next⟩ := im
          simp only [hmax] at hstep
          cases hdn : effective_distance (graph.getD (next.index s.width s.height) none) with
          | none =>
            simp only [hdn] at hstep
            cases hstep
          | some dn =>
            simp only [hdn] at hstep
            cases hrel : s.relaxList next dn (s.neighbors next)
                (qc.set (next.index s.width s.height) false) graph with
            | error e =>
              simp only [hrel] at hstep
              cases hstep
            | ok graphR =>
              simp only [hrel, Except.ok.injEq, Prod.mk.injEq] at hstep
              obtain ⟨rfl, rfl, rfl⟩ := hstep
              obtain ⟨hget, hmin⟩ := Engine.maxBy_spec _ queue i next hmax
              exact Run.step i next hget hmin hdn hrel (ih _ _ _ _ hrun)

/-- Case shapes of one relaxation: the record is kept only when strictly
better than the candidate, reset to the candidate (with predecessor list
`[u]`) when strictly improved or first reached, and extended by `u` when
tied. -/
theorem relax_shapes (g : Option PathElement) (c : Nat) (u : GraphNode)
    (g' : Option PathElement) (h : relax g c u = .ok g') :
    (g' = g ∧ ∃ cur, effective_distance g = some cur ∧ cur < c)
    ∨ (g' = some (.Element c [u])
        ∧ ∀ cur, effective_distance g = some cur → c < cur)
    ∨ (∃ d0 prev0, g = some (.Element d0 prev0) ∧ c = d0
        ∧ g' = some (.Element d0 (prev0 ++ [u]))) := by
  unfold relax at h
  rcases g with _ | pe
  · simp only [effective_distance] at h
    injection h with h'
    subst h'
    exact Or.inr (Or.inl ⟨rfl, fun cur hc => by cases hc⟩)
  · rcases pe with _ | ⟨d, prev⟩
    · simp only [effective_distance] at h
      rw [if_neg (show ¬ c < 0 by omega)] at h
      by_cases h0 : c = 0
      · rw [if_pos h0] at h
        cases h
      · rw [if_neg h0] at h
        injection h with h'
        subst h'
        refine Or.inl ⟨rfl, 0, rfl, ?_⟩
        omega
    · simp only [effective_distance] at h
      by_cases hlt : c < d
      · rw [if_pos hlt] at h
        injection h with h'
        subst h'
        refine Or.inr (Or.inl ⟨rfl, fun cur hc => ?_⟩)
        injection hc with h2
        omega
      · rw [if_neg hlt] at h
        by_cases heq2 : c = d
        · rw [if_pos heq2] at h
          injection h with h'
          subst h'
          exact Or.inr (Or.inr ⟨d, prev, rfl, heq2, rfl⟩)
        · rw [if_neg heq2] at h
          injection h with h'
          subst h'
          refine Or.inl ⟨rfl, d, rfl, ?_⟩
          omega

/-- A vertex is never its own neighbor. -/
theorem self_not_mem_neighbors (s : State) (u : GraphNode) :
    ∀ vw ∈ s.neighbors u, vw.1 ≠ u := by
  intro vw hvw
  unfold State.neighbors at hvw
  rcases List.mem_append.1 hvw with h1 | h2
  · by_cases hc : s.get (u.position + u.direction.to_vector) = Cell.Empty
    · rw [if_pos hc] at h1
      rcases List.mem_singleton.1 h1 with rfl
      intro hcon
      have hpos := congrArg GraphNode.position hcon
      rcases u with ⟨⟨ux, uy⟩, d⟩
      cases d
      · have hx : ux + (-1) = ux := congrArg Point.x hpos
        omega
      · have hx : ux + 1 = ux := congrArg Point.x hpos
        omega
      · have hy : uy + (-1) = uy := congrArg Point.y hpos
        omega
      · have hy : uy + 1 = uy := congrArg Point.y hpos
        omega
    · rw [if_neg hc] at h1
      cases h1
  · rcases List.mem_cons.1 h2 with rfl | h3
    · intro hcon
      have hd := congrArg GraphNode.direction hcon
      rcases u with ⟨p, d⟩
      cases d <;> simp [Direction.left] at hd
    · rcases List.mem_singleton.1 h3 with rfl
      intro hcon
      have hd := congrArg GraphNode.direction hcon
      rcases u with ⟨p, d⟩
      cases d <;> simp [Direction.right] at hd

end Day16b

namespace Day16b

theorem pos_add_vec_ne (p : Point) (d : Direction) : p + d.to_vector ≠ p := by
  intro hcon
  rcases p with ⟨px, py⟩
  cases d
  · have hx : px + (-1) = px := congrArg Point.x hcon
    omega
  · have hx : px + 1 = px := congrArg Point.x hcon
    omega
  · have hy : py + (-1) = py := congrArg Point.y hcon
    omega
  · have hy : py + 1 = py := congrArg Point.y hcon
    omega

theorem direction_left_ne_right (d : Direction) : d.left ≠ d.right := by
  cases d <;> decide

/-- The (at most three) neighbors of a legal vertex target pairwise
distinct graph indices. -/
theorem neighbors_idx_nodup (s : State) (u : GraphNode) (hu : u ∈ s.initNodes) :
    ((s.neighbors u).map fun vw => vw.1.index s.width s.height).Nodup := by
  have hne : ∀ vw1 ∈ s.neighbors u, ∀ vw2 ∈ s.neighbors u, vw1.1 ≠ vw2.1 →
      vw1.1.index s.width s.height ≠ vw2.1.index s.width s.height := by
    intro vw1 h1 vw2 h2 hnode heq
    exact hnode (graphNode_index_inj s.width s.height _ _
      (initNodes_inBounds s _ (neighbors_mem_initNodes s u hu vw1 h1))
      (initNodes_inBounds s _ (neighbors_mem_initNodes s u hu vw2 h2)) heq)
  have hmemL : ((⟨u.position, u.direction.left⟩ : GraphNode), 1000) ∈ s.neighbors u := by
    unfold State.neighbors
    exact List.mem_append.2 (Or.inr (List.mem_cons_self _ _))
  have hmemR : ((⟨u.position, u.direction.right⟩ : GraphNode), 1000) ∈ s.neighbors u := by
    unfold State.neighbors
    exact List.mem_append.2 (Or.inr (List.mem_cons_of_mem _ (List.mem_singleton.2 rfl)))
  have hLR : ((⟨u.position, u.direction.left⟩ : GraphNode) : GraphNode)
      ≠ ⟨u.position, u.direction.right⟩ := by
    intro hcon
    exact direction_left_ne_right u.direction (congrArg GraphNode.direction hcon)
  unfold State.neighbors
  by_cases hc : s.get (u.position + u.direction.to_vector) = Cell.Empty
  · rw [if_pos hc]
    have hmemF : ((⟨u.position + u.direction.to_vector, u.direction⟩ : GraphNode), 1)
        ∈ s.neighbors u := by
      unfold State.neighbors
      exact List.mem_append.2 (Or.inl (by rw [if_pos hc]; exact List.mem_singleton.2 rfl))
    have hFL : ((⟨u.position + u.direction.to_vector, u.direction⟩ : GraphNode) : GraphNode)
        ≠ ⟨u.position, u.direction.left⟩ := by
      intro hcon
      exact pos_add_vec_ne u.position u.direction (congrArg GraphNode.position hcon)
    have hFR : ((⟨u.position + u.direction.to_vector, u.direction⟩ : GraphNode) : GraphNode)
        ≠ ⟨u.position, u.direction.right⟩ := by
      intro hcon
      exact pos_add_vec_ne u.position u.direction (congrArg GraphNode.position hcon)
    refine List.nodup_cons.2 ⟨?_, List.nodup_cons.2 ⟨?_, List.nodup_singleton _⟩⟩
    · intro hmem
      rcases List.mem_cons.1 hmem with heq | hmem2
      · exact hne _ hmemF _ hmemL hFL heq
      · rcases List.mem_singleton.1 hmem2 with heq
        exact hne _ hmemF _ hmemR hFR heq
    · intro hmem
      rcases List.mem_singleton.1 hmem with heq
      exact hne _ hmemL _ hmemR hLR heq
  · rw [if_neg hc]
    refine List.nodup_cons.2 ⟨?_, List.nodup_singleton _⟩
    intro hmem
    rcases List.mem_singleton.1 hmem with heq
    exact hne _ hmemL _ hmemR hLR heq

/-- Record-level effect of the relaxation pass when all listed edges
target distinct indices: indices with their frontier bit cleared (or not
listed) keep their record, and every listed frontier index ends with
exactly the result of one `relax` of its original record. -/
theorem relaxList_rec (s : State) (next : GraphNode) (dn : Nat) :
    ∀ (el : List (GraphNode × Nat)) (qc : List Bool)
      (graph graph' : List (Option PathElement)),
      qc.length = graph.length →
      ((el.map fun vw => vw.1.index s.width s.height).Nodup) →
      s.relaxList next dn el qc graph = .ok graph' →
      (∀ j, (∀ vw ∈ el, vw.1.index s.width s.height = j → qc.getD j false = false) →
        graph'.getD j none = graph.getD j none)
      ∧ (∀ vw ∈ el, qc.getD (vw.1.index s.width s.height) false = true →
        relax (graph.getD (vw.1.index s.width s.height) none) (dn + vw.2) next
          = .ok (graph'.getD (vw.1.index s.width s.height) none)) := by
  intro el
  induction el with
  | nil =>
    intro qc graph graph' hlen hnd h
    simp only [State.relaxList] at h
    injection h with h'
    subst h'
    exact ⟨fun j _ => rfl, fun vw hvw => absurd hvw (List.not_mem_nil vw)⟩
  | cons ew rest ih =>
    obtain ⟨nb, w⟩ := ew
    intro qc graph graph' hlen hnd h
    rw [List.map_cons, List.nodup_cons] at hnd
    obtain ⟨hnb_notin, hnd'⟩ := hnd
    simp only [State.relaxList] at h
    by_cases hq : qc.getD (nb.index s.width s.height) false = true
    · rw [if_pos hq] at h
      cases hr : relax (graph.getD (nb.index s.width s.height) none) (dn + w) next with
      | error e =>
        simp only [hr] at h
        cases h
      | ok g1 =>
        simp only [hr] at h
        have hjlt : nb.index s.width s.height < graph.length := by
          rw [← hlen]
          by_contra hge
          rw [List.getD_eq_default _ _ (by omega)] at hq
          cases hq
        have hsetat : (graph.set (nb.index s.width s.height) g1).getD
            (nb.index s.width s.height) none = g1 := by
          rw [Util.getD_set, if_pos ⟨rfl, hjlt⟩]
        have hsetother : ∀ j, nb.index s.width s.height ≠ j →
            (graph.set (nb.index s.width s.height) g1).getD j none
              = graph.getD j none := by
          intro j hne2
          rw [Util.getD_set, if_neg]
          rintro ⟨hidx, -⟩
          exact hne2 hidx
        obtain ⟨ihun, ihent⟩ := ih qc (graph.set (nb.index s.width s.height) g1) graph'
          (by rw [List.length_set]; exact hlen) hnd' h
        constructor
        · intro j hno
          have hne2 : nb.index s.width s.height ≠ j := by
            intro hcon
            have hfalse := hno (nb, w) (List.mem_cons_self _ _) hcon
            rw [← hcon] at hfalse
            rw [hfalse] at hq
            cases hq
          rw [ihun j (fun vw hvw hidx => hno vw (List.mem_cons_of_mem _ hvw) hidx),
            hsetother j hne2]
        · intro vw hvw hqvw
          rcases List.mem_cons.1 hvw with rfl | hvw'
          · have hrest_un : graph'.getD (nb.index s.width s.height) none
                = (graph.set (nb.index s.width s.height) g1).getD
                    (nb.index s.width s.height) none := by
              refine ihun _ (fun vw' hvw' hidx => ?_)
              exact absurd (hidx ▸ List.mem_map.2 ⟨vw', hvw', rfl⟩) hnb_notin
            rw [hrest_un, hsetat]
            exact hr
          · have hne2 : nb.index s.width s.height ≠ vw.1.index s.width s.height := by
              intro hcon
              exact hnb_notin (hcon ▸ List.mem_map.2 ⟨vw, hvw', rfl⟩)
            have := ihent vw hvw' hqvw
            rw [hsetother _ hne2] at this
            exact this
    · rw [if_neg hq] at h
      obtain ⟨ihun, ihent⟩ := ih qc graph graph' hlen hnd' h
      constructor
      · intro j hno
        exact ihun j (fun vw hvw hidx => hno vw (List.mem_cons_of_mem _ hvw) hidx)
      · intro vw hvw hqvw
        rcases List.mem_cons.1 hvw with rfl | hvw'
        · exact absurd hqvw hq
        · exact ihent vw hvw' hqvw

end Day16b

namespace Day16b

/-- The initial record table holds `Start` exactly at the seed node among
the legal vertices. -/
theorem initGraph_start_mem (s : State) :
    ∀ n ∈ s.initNodes,
      (s.initGraph.getD (n.index s.width s.height) none = some PathElement.Start ↔
        n.position = s.start ∧ n.direction = Direction.Right) := by
  intro n hnI
  have hb : inBounds s.width s.height n := initNodes_inBounds s n hnI
  constructor
  · intro hsome
    by_cases hex : ∃ m ∈ s.initNodes,
        (m.direction = Direction.Right ∧ m.position = s.start) ∧
          m.index s.width s.height = n.index s.width s.height
    · rcases hex with ⟨m, hmem, hP, hidx⟩
      have hmb : inBounds s.width s.height m := initNodes_inBounds s m hmem
      have hmn : m = n := graphNode_index_inj s.width s.height m n hmb hb hidx
      subst hmn
      exact ⟨hP.2, hP.1⟩
    · exfalso
      have := Util.foldl_set_getD_of_not_mem
        (fun m => m.index s.width s.height)
        (fun m => m.direction = Direction.Right ∧ m.position = s.start)
        (some PathElement.Start) s.initNodes
        (List.replicate (s.width * s.height * 4) none)
        (n.index s.width s.height) none
        (fun m hm hPm hidx => hex ⟨m, hm, hPm, hidx⟩)
      unfold State.initGraph at hsome
      rw [this, Util.getD_replicate] at hsome
      split at hsome
      · cases hsome
      · cases hsome
  · rintro ⟨hpos, hdir⟩
    unfold State.initGraph
    exact Util.foldl_set_getD_of_mem
      (fun m => m.index s.width s.height)
      (fun m => m.direction = Direction.Right ∧ m.position = s.start)
      (some PathElement.Start) s.initNodes
      (List.replicate (s.width * s.height * 4) none)
      (n.index s.width s.height) none
      ⟨n, hnI, ⟨hdir, hpos⟩, rfl⟩
      (by rw [List.length_replicate]; exact index_lt s.width s.height n hb)

/-- Indices not owned by any legal vertex start (and stay) without a
record. -/
theorem initGraph_none_off (s : State) :
    ∀ j, (∀ n ∈ s.initNodes, n.index s.width s.height ≠ j) →
      s.initGraph.getD j none = none := by
  intro j hno
  unfold State.initGraph
  rw [Util.foldl_set_getD_of_not_mem
    (fun m => m.index s.width s.height)
    (fun m => m.direction = Direction.Right ∧ m.position = s.start)
    (some PathElement.Start) s.initNodes
    (List.replicate (s.width * s.height * 4) none) j none
    (fun m hm _ hidx => hno m hm hidx), Util.getD_replicate]
  split
  · rfl
  · rfl

/-- The initial record table holds no `Element` record anywhere. -/
theorem initGraph_no_element (s : State) :
    ∀ j d prev, s.initGraph.getD j none ≠ some (PathElement.Element d prev) := by
  intro j d prev hcon
  unfold State.initGraph at hcon
  by_cases hex : ∃ m ∈ s.initNodes,
      (m.direction = Direction.Right ∧ m.position = s.start) ∧
        m.index s.width s.height = j
  · rcases hex with ⟨m, hm, hP, hidx⟩
    have hlt : j < (List.replicate (s.width * s.height * 4)
        (none : Option PathElement)).length := by
      rw [List.length_replicate, ← hidx]
      exact index_lt s.width s.height m (initNodes_inBounds s m hm)
    rw [Util.foldl_set_getD_of_mem
      (fun m => m.index s.width s.height)
      (fun m => m.direction = Direction.Right ∧ m.position = s.start)
      (some PathElement.Start) s.initNodes
      (List.replicate (s.width * s.height * 4) none) j none
      ⟨m, hm, hP, hidx⟩ hlt] at hcon
    cases hcon
  · rw [Util.foldl_set_getD_of_not_mem
      (fun m => m.index s.width s.height)
      (fun m => m.direction = Direction.Right ∧ m.position = s.start)
      (some PathElement.Start) s.initNodes
      (List.replicate (s.width * s.height * 4) none) j none
      (fun m hm hPm hidx => hex ⟨m, hm, hPm, hidx⟩), Util.getD_replicate] at hcon
    split at hcon
    · cases hcon
    · cases hcon

/-- Predecessor invariant of the day16b loop, on top of `Inv16`:
the `Start` record sits exactly at the seed; indices owned by no legal
vertex have no record; every `Element` record's predecessor list is a
nonempty list of already-extracted legal vertices each of which explains
the stored distance by one of its outgoing edges (soundness); and,
conversely, every extracted vertex with a tight edge into an `Element`
record appears in that record's predecessor list (completeness). -/
def InvP (s : State) (queue : List GraphNode)
    (graph : List (Option PathElement)) : Prop :=
  (∀ n ∈ s.initNodes,
    (graph.getD (n.index s.width s.height) none = some PathElement.Start ↔
      n.position = s.start ∧ n.direction = Direction.Right))
  ∧ (∀ j, (∀ n ∈ s.initNodes, n.index s.width s.height ≠ j) →
      graph.getD j none = none)
  ∧ (∀ n ∈ s.initNodes, ∀ d prev,
      graph.getD (n.index s.width s.height) none = some (PathElement.Element d prev) →
      prev ≠ [] ∧ ∀ u ∈ prev, u ∈ s.initNodes ∧ u ∉ queue ∧
        ∃ w du, (n, w) ∈ s.neighbors u
          ∧ effective_distance (graph.getD (u.index s.width s.height) none) = some du
          ∧ du + w = d)
  ∧ (∀ u ∈ s.initNodes, u ∉ queue → ∀ vw ∈ s.neighbors u, ∀ du,
      effective_distance (graph.getD (u.index s.width s.height) none) = some du →
      ∀ d prev, graph.getD (vw.1.index s.width s.height) none
          = some (PathElement.Element d prev) →
      d = du + vw.2 → u ∈ prev)

/-- The initial state satisfies the predecessor invariant. -/
theorem init_invP (s : State) : InvP s s.initNodes s.initGraph := by
  refine ⟨initGraph_start_mem s, initGraph_none_off s, ?_, ?_⟩
  · intro n hnI d prev hcon
    exact absurd hcon (initGraph_no_element s _ d prev)
  · intro u huI huq
    exact absurd huI huq

end Day16b

namespace Day16b

/-- One (arbitrarily tie-broken) loop iteration preserves the predecessor
invariant. -/
theorem stepAt_invP (s : State) (queue : List GraphNode) (qc : List Bool)
    (graph graph' : List (Option PathElement)) (i : Nat) (next : GraphNode) (dn : Nat)
    (hinv : Inv16 s queue qc graph) (hinvP : InvP s queue graph)
    (hget : queue.get? i = some next)
    (hmin : ∀ y ∈ queue, Engine.oleDist
      (effective_distance (graph.getD (next.index s.width s.height) none))
      (effective_distance (graph.getD (y.index s.width s.height) none)))
    (hdn : effective_distance (graph.getD (next.index s.width s.height) none) = some dn)
    (hrel : s.relaxList next dn (s.neighbors next)
      (qc.set (next.index s.width s.height) false) graph = .ok graph') :
    InvP s (Engine.swapRemove queue i) graph' := by
  obtain ⟨hinv', -⟩ := stepAt_inv s queue qc graph graph' i next dn hinv hget hmin hdn hrel
  obtain ⟨-, -, -, -, hacc', -⟩ := hinv'
  obtain ⟨hqclen, hglen, hnd, hsub, hacc, hext⟩ := hinv
  obtain ⟨hP1, hP0, hP2, hP3⟩ := hinvP
  have hnextq : next ∈ queue := List.get?_mem hget
  have hnextI : next ∈ s.initNodes := hsub next hnextq
  have hnextB : inBounds s.width s.height next := initNodes_inBounds s next hnextI
  have hnextIdx : next.index s.width s.height < s.width * s.height * 4 :=
    index_lt s.width s.height next hnextB
  obtain ⟨hndR, hmemR, hlenR⟩ := Engine.swapRemove_spec hnd hget
  have hnextq' : next ∉ Engine.swapRemove queue i := fun h => ((hmemR next).1 h).2 rfl
  obtain ⟨-, hRun, -, -, -⟩ :=
    relaxList_spec s next dn (s.neighbors next)
      (qc.set (next.index s.width s.height) false) graph graph'
      (by rw [List.length_set, hqclen, hglen]) hrel
  obtain ⟨hRecUn, hRecEnt⟩ :=
    relaxList_rec s next dn (s.neighbors next)
      (qc.set (next.index s.width s.height) false) graph graph'
      (by rw [List.length_set, hqclen, hglen]) (neighbors_idx_nodup s next hnextI) hrel
  have hqc'_next : (qc.set (next.index s.width s.height) false).getD
      (next.index s.width s.height) false = false := by
    rw [Util.getD_set, if_pos ⟨rfl, by rw [hqclen]; exact hnextIdx⟩]
  have hqc'_other : ∀ n : GraphNode, n ∈ s.initNodes → n ≠ next →
      (qc.set (next.index s.width s.height) false).getD (n.index s.width s.height) false
        = qc.getD (n.index s.width s.height) false := by
    intro n hnI hne
    rw [Util.getD_set, if_neg]
    rintro ⟨hidx, -⟩
    exact hne (graphNode_index_inj s.width s.height n next
      (initNodes_inBounds s n hnI) hnextB hidx.symm)
  have hGext : ∀ m ∈ s.initNodes, m ∉ Engine.swapRemove queue i →
      graph'.getD (m.index s.width s.height) none
        = graph.getD (m.index s.width s.height) none := by
    intro m hmI hmq'
    by_cases hmn : m = next
    · rw [hmn]
      exact hRun _ hqc'_next
    · refine hRun _ ?_
      rw [hqc'_other m hmI hmn]
      have hmq : m ∉ queue := fun hq => hmq' ((hmemR m).2 ⟨hq, hmn⟩)
      cases hb : qc.getD (m.index s.width s.height) false
      · rfl
      · exact absurd ((hacc m hmI).1 hb) hmq
  have hrelaxed : ∀ j,
      (graph'.getD j none = graph.getD j none
        ∧ ∀ vw ∈ s.neighbors next, vw.1.index s.width s.height = j →
            (qc.set (next.index s.width s.height) false).getD j false = false)
      ∨ ∃ vw ∈ s.neighbors next, vw.1.index s.width s.height = j
          ∧ relax (graph.getD j none) (dn + vw.2) next = .ok (graph'.getD j none) := by
    intro j
    by_cases hT : ∃ vw ∈ s.neighbors next, vw.1.index s.width s.height = j
        ∧ (qc.set (next.index s.width s.height) false).getD j false = true
    · rcases hT with ⟨vw, hvw, hidx, hqT⟩
      refine Or.inr ⟨vw, hvw, hidx, ?_⟩
      have hh := hRecEnt vw hvw (by rw [hidx]; exact hqT)
      rw [hidx] at hh
      exact hh
    · have hall : ∀ vw ∈ s.neighbors next, vw.1.index s.width s.height = j →
          (qc.set (next.index s.width s.height) false).getD j false = false := by
        intro vw hvw hidx
        cases hb : (qc.set (next.index s.width s.height) false).getD j false
        · rfl
        · exact absurd ⟨vw, hvw, hidx, hb⟩ hT
      exact Or.inl ⟨hRecUn j hall, hall⟩
  refine ⟨?_, ?_, ?_, ?_⟩
  · -- the Start record stays exactly at the seed
    intro n hnI
    rcases hrelaxed (n.index s.width s.height) with ⟨heq, -⟩ | ⟨vw, hvw, hidx, hrx⟩
    · rw [heq]
      exact hP1 n hnI
    · constructor
      · intro hs'
        rcases relax_shapes _ _ _ _ hrx with ⟨hkeep, -⟩ | ⟨hreset, -⟩ | ⟨d0, prev0, -, -, hgE⟩
        · rw [hs'] at hkeep
          exact (hP1 n hnI).1 hkeep.symm
        · rw [hs'] at hreset
          injection hreset with h'
          cases h'
        · rw [hs'] at hgE
          injection hgE with h'
          cases h'
      · intro hrhs
        have hold : graph.getD (n.index s.width s.height) none = some PathElement.Start :=
          (hP1 n hnI).2 hrhs
        rcases relax_shapes _ _ _ _ hrx with ⟨hkeep, -⟩ | ⟨-, hcond⟩ | ⟨d0, prev0, hg0, -, -⟩
        · rw [hkeep]
          exact hold
        · exfalso
          have h0 := hcond 0 (by rw [hold]; exact rfl)
          omega
        · rw [hold] at hg0
          injection hg0 with h'
          cases h'
  · -- no record appears at an unowned index
    intro j hno
    rcases hrelaxed j with ⟨heq, -⟩ | ⟨vw, hvw, hidx, -⟩
    · rw [heq]
      exact hP0 j hno
    · exact absurd hidx (hno vw.1 (neighbors_mem_initNodes s next hnextI vw hvw))
  · -- predecessor soundness
    intro n hnI d prev hrec'
    rcases hrelaxed (n.index s.width s.height) with ⟨heq, -⟩ | ⟨vw, hvw, hidx, hrx⟩
    · rw [heq] at hrec'
      obtain ⟨hne, hmem⟩ := hP2 n hnI d prev hrec'
      refine ⟨hne, fun u hu => ?_⟩
      obtain ⟨huI, hunq, w, du, hedge, heffu, hsum⟩ := hmem u hu
      have hunq' : u ∉ Engine.swapRemove queue i := fun hq' => hunq ((hmemR u).1 hq').1
      exact ⟨huI, hunq', w, du, hedge, by rw [hGext u huI hunq']; exact heffu, hsum⟩
    · have hveq : vw.1 = n := graphNode_index_inj s.width s.height _ _
        (initNodes_inBounds s _ (neighbors_mem_initNodes s next hnextI vw hvw))
        (initNodes_inBounds s n hnI) hidx
      have hedgeN : (n, vw.2) ∈ s.neighbors next := by
        have hh : ((vw.1, vw.2) : GraphNode × Nat) ∈ s.neighbors next := hvw
        rw [hveq] at hh
        exact hh
      have heffN' : effective_distance (graph'.getD (next.index s.width s.height) none)
          = some dn := by
        rw [hGext next hnextI hnextq']
        exact hdn
      rcases relax_shapes _ _ _ _ hrx with ⟨hkeep, -⟩ | ⟨hreset, -⟩ | ⟨d0, prev0, hg0, hc0, hgE⟩
      · rw [hkeep] at hrec'
        obtain ⟨hne, hmem⟩ := hP2 n hnI d prev hrec'
        refine ⟨hne, fun u hu => ?_⟩
        obtain ⟨huI, hunq, w, du, hedge, heffu, hsum⟩ := hmem u hu
        have hunq' : u ∉ Engine.swapRemove queue i := fun hq' => hunq ((hmemR u).1 hq').1
        exact ⟨huI, hunq', w, du, hedge, by rw [hGext u huI hunq']; exact heffu, hsum⟩
      · rw [hreset] at hrec'
        injection hrec' with h'
        injection h' with hd hp
        subst hd
        subst hp
        refine ⟨by simp, fun u hu => ?_⟩
        rcases List.mem_singleton.1 hu with rfl
        exact ⟨hnextI, hnextq', vw.2, dn, hedgeN, heffN', rfl⟩
      · rw [hgE] at hrec'
        injection hrec' with h'
        injection h' with hd hp
        subst hd
        subst hp
        obtain ⟨-, hmem⟩ := hP2 n hnI d0 prev0 hg0
        refine ⟨by simp, fun u hu => ?_⟩
        rcases List.mem_append.1 hu with hu0 | hun
        · obtain ⟨huI, hunq, w, du, hedge, heffu, hsum⟩ := hmem u hu0
          have hunq' : u ∉ Engine.swapRemove queue i := fun hq' => hunq ((hmemR u).1 hq').1
          exact ⟨huI, hunq', w, du, hedge, by rw [hGext u huI hunq']; exact heffu, hsum⟩
        · rcases List.mem_singleton.1 hun with rfl
          exact ⟨hnextI, hnextq', vw.2, dn, hedgeN, heffN', hc0⟩
  · -- predecessor completeness
    intro u huI huq' vw hvw du heff'u d prev hrec' hsum
    have hvwI : vw.1 ∈ s.initNodes := neighbors_mem_initNodes s u huI vw hvw
    have heff_old : effective_distance (graph.getD (u.index s.width s.height) none)
        = some du := by
      rw [← hGext u huI huq']
      exact heff'u
    rcases hrelaxed (vw.1.index s.width s.height) with ⟨heq, hqfalse⟩ | ⟨vw0, hvw0, hidx0, hrx⟩
    · rw [heq] at hrec'
      by_cases hun : u = next
      · exfalso
        have hvwN : vw ∈ s.neighbors next := hun ▸ hvw
        have hqf := hqfalse vw hvwN rfl
        have hnotq' : vw.1 ∉ Engine.swapRemove queue i := by
          intro hmemq
          have hb := (hacc' vw.1 hvwI).2 hmemq
          rw [hqf] at hb
          cases hb
        have hvnn : vw.1 ≠ next := by
          have hsn := self_not_mem_neighbors s next vw hvwN
          exact hsn
        have hvnq : vw.1 ∉ queue := by
          intro hmemq
          exact hnotq' ((hmemR vw.1).2 ⟨hmemq, hvnn⟩)
        obtain ⟨-, hminv, -⟩ := hext vw.1 hvwI hvnq
        have hle := hminv next hnextq
        rw [hdn, hrec'] at hle
        simp only [effective_distance] at hle
        have hdd : d ≤ dn := hle
        have hw : 0 < vw.2 := neighbors_weight_pos s u vw.1 vw.2 hvw
        have h2 : effective_distance (graph.getD (next.index s.width s.height) none)
            = some du := by
          rw [← hun]
          exact heff_old
        rw [hdn] at h2
        injection h2 with h3
        omega
      · have hunq : u ∉ queue := fun hq => huq' ((hmemR u).2 ⟨hq, hun⟩)
        exact hP3 u huI hunq vw hvw du heff_old d prev hrec' hsum
    · rcases relax_shapes _ _ _ _ hrx with ⟨hkeep, cur, hcur, hclt⟩ |
        ⟨hreset, hcond⟩ | ⟨d0, prev0, hg0, hc0, hgE⟩
      · rw [hkeep] at hrec'
        by_cases hun : u = next
        · exfalso
          have hvwN : vw ∈ s.neighbors next := hun ▸ hvw
          have hentry : vw0 = vw :=
            List.inj_on_of_nodup_map (neighbors_idx_nodup s next hnextI) hvw0 hvwN hidx0
          rw [hrec'] at hcur
          simp only [effective_distance] at hcur
          injection hcur with hdc
          have hw2 : vw0.2 = vw.2 := congrArg Prod.snd hentry
          have h2 : effective_distance (graph.getD (next.index s.width s.height) none)
              = some du := by
            rw [← hun]
            exact heff_old
          rw [hdn] at h2
          injection h2 with h3
          omega
        · have hunq : u ∉ queue := fun hq => huq' ((hmemR u).2 ⟨hq, hun⟩)
          exact hP3 u huI hunq vw hvw du heff_old d prev hrec' hsum
      · rw [hreset] at hrec'
        injection hrec' with h'
        injection h' with hd hp
        by_cases hun : u = next
        · rw [← hp, hun]
          exact List.mem_singleton.2 rfl
        · exfalso
          have hunq : u ∉ queue := fun hq => huq' ((hmemR u).2 ⟨hq, hun⟩)
          obtain ⟨-, -, hedgeu⟩ := hext u huI hunq
          have hB := hedgeu du heff_old vw hvw
          cases hv : effective_distance (graph.getD (vw.1.index s.width s.height) none) with
          | none =>
            rw [hv] at hB
            exact hB
          | some cur =>
            rw [hv] at hB
            have hcc : cur ≤ du + vw.2 := hB
            have hstrict := hcond cur hv
            omega
      · rw [hgE] at hrec'
        injection hrec' with h'
        injection h' with hd hp
        by_cases hun : u = next
        · rw [← hp, hun]
          exact List.mem_append.2 (Or.inr (List.mem_singleton.2 rfl))
        · have hunq : u ∉ queue := fun hq => huq' ((hmemR u).2 ⟨hq, hun⟩)
          have hsum0 : d0 = du + vw.2 := by
            rw [hd]
            exact hsum
          have := hP3 u huI hunq vw hvw du heff_old d0 prev0 hg0 hsum0
          rw [← hp]
          exact List.mem_append.2 (Or.inl this)

end Day16b

namespace Day16b

/-- Both invariants hold at the end of every run, whatever the tie
resolution. -/
theorem Run_inv (s : State) :
    ∀ (queue : List GraphNode) (qc : List Bool) (graph gf : List (Option PathElement)),
      Run s queue qc graph gf →
      Inv16 s queue qc graph → InvP s queue graph →
      (∃ qcf, Inv16 s [] qcf gf) ∧ InvP s [] gf := by
  intro queue qc graph gf hrun
  induction hrun with
  | done qc graph =>
    intro hinv hinvP
    exact ⟨⟨qc, hinv⟩, hinvP⟩
  | step i next hget hmin hdn hrel hrest ih =>
    intro hinv hinvP
    exact ih ((stepAt_inv _ _ _ _ _ _ _ _ hinv hget hmin hdn hrel).1)
      (stepAt_invP _ _ _ _ _ _ _ _ hinv hinvP hget hmin hdn hrel)

/-- Cost-reachability in the day16b graph: the seed vertex at cost 0, and
one neighbor edge adds its weight.  This is the order-free description of
shortest-path candidates. -/
inductive Reach (s : State) : GraphNode → Nat → Prop
  | seed (h : (⟨s.start, Direction.Right⟩ : GraphNode) ∈ s.initNodes) :
      Reach s ⟨s.start, Direction.Right⟩ 0
  | step (u : GraphNode) (c : Nat) (v : GraphNode) (w : Nat)
      (hu : Reach s u c) (hvw : (v, w) ∈ s.neighbors u) : Reach s v (c + w)

/-- Reachable vertices are legal. -/
theorem Reach_mem (s : State) :
    ∀ (v : GraphNode) (c : Nat), Reach s v c → v ∈ s.initNodes := by
  intro v c h
  induction h with
  | seed hmem => exact hmem
  | step u c v w hu hvw ih => exact neighbors_mem_initNodes s u ih (v, w) hvw

/-- Upper bound: at the end of any run, every recorded distance is at most
the cost of every reaching path. -/
theorem final_upper (s : State) (qcf : List Bool) (gf : List (Option PathElement))
    (hinv : Inv16 s [] qcf gf) (hinvP : InvP s [] gf) :
    ∀ (v : GraphNode) (c : Nat), Reach s v c →
      ∀ dv, effective_distance (gf.getD (v.index s.width s.height) none) = some dv →
        dv ≤ c := by
  obtain ⟨-, -, -, -, -, hext⟩ := hinv
  obtain ⟨hP1, -, -, -⟩ := hinvP
  intro v c hreach
  induction hreach with
  | seed hmem =>
    intro dv hdv
    have hS : gf.getD ((⟨s.start, Direction.Right⟩ : GraphNode).index s.width s.height) none
        = some PathElement.Start :=
      (hP1 ⟨s.start, Direction.Right⟩ hmem).2 ⟨rfl, rfl⟩
    rw [hS] at hdv
    simp only [effective_distance] at hdv
    injection hdv with h0
    omega
  | step u c v w hu hvw ih =>
    intro dv hdv
    have huI : u ∈ s.initNodes := Reach_mem s u c hu
    obtain ⟨⟨du, heffu⟩, -, hedge⟩ := hext u huI (List.not_mem_nil u)
    have hduc : du ≤ c := ih du heffu
    have hole := hedge du heffu (v, w) hvw
    rw [hdv] at hole
    have hvw2 : dv ≤ du + w := hole
    omega

/-- Lower bound: at the end of any run, every recorded distance is the
cost of some reaching path. -/
theorem final_lower (s : State) (qcf : List Bool) (gf : List (Option PathElement))
    (hinv : Inv16 s [] qcf gf) (hinvP : InvP s [] gf) :
    ∀ (dv : Nat) (v : GraphNode), v ∈ s.initNodes →
      effective_distance (gf.getD (v.index s.width s.height) none) = some dv →
      Reach s v dv := by
  obtain ⟨hP1, hP0, hP2, hP3⟩ := hinvP
  intro dv
  induction dv using Nat.strong_induction_on with
  | _ dv ih =>
    intro v hvI heff
    cases hrec : gf.getD (v.index s.width s.height) none with
    | none =>
      rw [hrec] at heff
      cases heff
    | some pe =>
      cases pe with
      | Start =>
        rw [hrec] at heff
        simp only [effective_distance] at heff
        injection heff with h0
        obtain ⟨hpos, hdir⟩ := (hP1 v hvI).1 hrec
        rcases v with ⟨pos, dir⟩
        have hpos' : pos = s.start := hpos
        have hdir' : dir = Direction.Right := hdir
        subst hpos'
        subst hdir'
        rw [← h0]
        exact Reach.seed hvI
      | Element d prev =>
        rw [hrec] at heff
        simp only [effective_distance] at heff
        injection heff with hd
        obtain ⟨hne, hmem⟩ := hP2 v hvI d prev hrec
        obtain ⟨u, hu⟩ := List.exists_mem_of_ne_nil prev hne
        obtain ⟨huI, -, w, du, hedge, heffu, hsum⟩ := hmem u hu
        have hw : 0 < w := neighbors_weight_pos s u v w hedge
        have hlt : du < dv := by omega
        have hru : Reach s u du := ih du hlt u huI heffu
        have hstep := Reach.step u du v w hru hedge
        rw [show dv = du + w by omega]
        exact hstep

end Day16b

namespace Day16b

/-- Two finished runs agree on every tentative distance: both equal the
unique minimum reaching cost. -/
theorem final_eff_agree (s : State) (qc1 qc2 : List Bool)
    (gf1 gf2 : List (Option PathElement))
    (hinv1 : Inv16 s [] qc1 gf1) (hinvP1 : InvP s [] gf1)
    (hinv2 : Inv16 s [] qc2 gf2) (hinvP2 : InvP s [] gf2) :
    ∀ j, effective_distance (gf1.getD j none) = effective_distance (gf2.getD j none) := by
  intro j
  by_cases hex : ∃ n ∈ s.initNodes, n.index s.width s.height = j
  · rcases hex with ⟨n, hnI, rfl⟩
    obtain ⟨-, -, -, -, -, hext1⟩ := id hinv1
    obtain ⟨-, -, -, -, -, hext2⟩ := id hinv2
    obtain ⟨⟨d1, heff1⟩, -, -⟩ := hext1 n hnI (List.not_mem_nil n)
    obtain ⟨⟨d2, heff2⟩, -, -⟩ := hext2 n hnI (List.not_mem_nil n)
    have hr1 : Reach s n d1 := final_lower s qc1 gf1 hinv1 hinvP1 d1 n hnI heff1
    have hr2 : Reach s n d2 := final_lower s qc2 gf2 hinv2 hinvP2 d2 n hnI heff2
    have h21 : d2 ≤ d1 := final_upper s qc2 gf2 hinv2 hinvP2 n d1 hr1 d2 heff2
    have h12 : d1 ≤ d2 := final_upper s qc1 gf1 hinv1 hinvP1 n d2 hr2 d1 heff1
    rw [heff1, heff2]
    congr 1
    omega
  · obtain ⟨-, hP01, -, -⟩ := hinvP1
    obtain ⟨-, hP02, -, -⟩ := hinvP2
    rw [hP01 j (fun n hn hidx => hex ⟨n, hn, hidx⟩),
      hP02 j (fun n hn hidx => hex ⟨n, hn, hidx⟩)]

/-- If one finished run records an `Element` with distance `d` at a legal
vertex, so does the other (with a possibly reordered predecessor list). -/
theorem final_record_agree (s : State) (qc1 qc2 : List Bool)
    (gf1 gf2 : List (Option PathElement))
    (hinv1 : Inv16 s [] qc1 gf1) (hinvP1 : InvP s [] gf1)
    (hinv2 : Inv16 s [] qc2 gf2) (hinvP2 : InvP s [] gf2) :
    ∀ n ∈ s.initNodes, ∀ d prev1,
      gf1.getD (n.index s.width s.height) none = some (PathElement.Element d prev1) →
      ∃ prev2, gf2.getD (n.index s.width s.height) none
        = some (PathElement.Element d prev2) := by
  intro n hnI d prev1 hrec1
  have heq := final_eff_agree s qc1 qc2 gf1 gf2 hinv1 hinvP1 hinv2 hinvP2
    (n.index s.width s.height)
  rw [hrec1] at heq
  simp only [effective_distance] at heq
  cases hrec2 : gf2.getD (n.index s.width s.height) none with
  | none =>
    rw [hrec2] at heq
    exact absurd heq (Option.some_ne_none d)
  | some pe =>
    cases pe with
    | Start =>
      obtain ⟨hpos, hdir⟩ := (hinvP2.1 n hnI).1 hrec2
      have h1S : gf1.getD (n.index s.width s.height) none = some PathElement.Start :=
        (hinvP1.1 n hnI).2 ⟨hpos, hdir⟩
      rw [hrec1] at h1S
      injection h1S with h'
      cases h'
    | Element d2 prev2 =>
      rw [hrec2] at heq
      simp only [effective_distance] at heq
      injection heq with hd
      refine ⟨prev2, ?_⟩
      rw [hd]

/-- Predecessor lists of two finished runs agree as sets: membership
transfers through the tight-edge characterisation. -/
theorem final_prev_mem (s : State) (qc1 qc2 : List Bool)
    (gf1 gf2 : List (Option PathElement))
    (hinv1 : Inv16 s [] qc1 gf1) (hinvP1 : InvP s [] gf1)
    (hinv2 : Inv16 s [] qc2 gf2) (hinvP2 : InvP s [] gf2) :
    ∀ n ∈ s.initNodes, ∀ d prev1 prev2 c,
      gf1.getD (n.index s.width s.height) none = some (PathElement.Element d prev1) →
      gf2.getD (n.index s.width s.height) none = some (PathElement.Element d prev2) →
      c ∈ prev1 → c ∈ prev2 := by
  intro n hnI d prev1 prev2 c hrec1 hrec2 hc
  obtain ⟨-, hmem⟩ := hinvP1.2.2.1 n hnI d prev1 hrec1
  obtain ⟨hcI, -, w, du, hedge, heffu, hsum⟩ := hmem c hc
  have heffu2 : effective_distance (gf2.getD (c.index s.width s.height) none)
      = some du := by
    rw [← final_eff_agree s qc1 qc2 gf1 gf2 hinv1 hinvP1 hinv2 hinvP2
      (c.index s.width s.height)]
    exact heffu
  exact hinvP2.2.2.2 c hcI (List.not_mem_nil c) (n, w) hedge du heffu2 d prev2
    hrec2 hsum.symm

/-- One direction of the predecessor-step agreement between two finished
runs. -/
theorem final_prevStep_imp (s : State) (qc1 qc2 : List Bool)
    (gf1 gf2 : List (Option PathElement))
    (hinv1 : Inv16 s [] qc1 gf1) (hinvP1 : InvP s [] gf1)
    (hinv2 : Inv16 s [] qc2 gf2) (hinvP2 : InvP s [] gf2) :
    ∀ b c, prevStep gf1 s.width s.height b c → prevStep gf2 s.width s.height b c := by
  rintro b c ⟨d, prev1, hrec1, hc⟩
  by_cases hex : ∃ n ∈ s.initNodes, n.index s.width s.height = b.index s.width s.height
  · rcases hex with ⟨n, hnI, hidx⟩
    rw [← hidx] at hrec1
    obtain ⟨prev2, hrec2⟩ := final_record_agree s qc1 qc2 gf1 gf2
      hinv1 hinvP1 hinv2 hinvP2 n hnI d prev1 hrec1
    refine ⟨d, prev2, ?_, final_prev_mem s qc1 qc2 gf1 gf2
      hinv1 hinvP1 hinv2 hinvP2 n hnI d prev1 prev2 c hrec1 hrec2 hc⟩
    rw [← hidx]
    exact hrec2
  · exfalso
    obtain ⟨-, hP01, -, -⟩ := hinvP1
    rw [hP01 (b.index s.width s.height) (fun n hn hidx => hex ⟨n, hn, hidx⟩)] at hrec1
    cases hrec1

/-- The walk sets of two finished runs coincide on every worklist. -/
theorem final_walkSet_agree (s : State) (qc1 qc2 : List Bool)
    (gf1 gf2 : List (Option PathElement))
    (hinv1 : Inv16 s [] qc1 gf1) (hinvP1 : InvP s [] gf1)
    (hinv2 : Inv16 s [] qc2 gf2) (hinvP2 : InvP s [] gf2) :
    ∀ q, walkSet gf1 s.width s.height q = walkSet gf2 s.width s.height q := by
  intro q
  unfold walkSet
  ext p
  simp only [Set.mem_setOf_eq]
  constructor
  · rintro ⟨n, hn, m, hreach, rfl⟩
    refine ⟨n, hn, m, ?_, rfl⟩
    exact Relation.ReflTransGen.mono
      (final_prevStep_imp s qc1 qc2 gf1 gf2 hinv1 hinvP1 hinv2 hinvP2) hreach
  · rintro ⟨n, hn, m, hreach, rfl⟩
    refine ⟨n, hn, m, ?_, rfl⟩
    exact Relation.ReflTransGen.mono
      (final_prevStep_imp s qc2 qc1 gf2 gf1 hinv2 hinvP2 hinv1 hinvP1) hreach

end Day16b

namespace Day16b

/-- C5.  For a fixed grid and fixed start/goal, two runs of the day16b
shortest-path engine yield the same tentative-distance table (hence the
same reported minimum goal distance, the `min?` over
`possible_goal_nodes`) and the same set of cells on optimal paths: any
two backward walks over tied-goal worklists that are permutations of one
another return equal position sets.  A run is either the code's own loop
(`dijkstraLoop` from the initial state, which resolves frontier ties the
way `max_by` does) or any `Run`, i.e. the same loop body with frontier
ties among minimal-distance vertices broken arbitrarily; so the result is
independent of the order in which tied frontier vertices are extracted
and of the order in which predecessors are walked. -/
theorem engine_deterministic (s : State) (gf1 gf2 : List (Option PathElement))
    (h1 : s.dijkstraLoop s.initNodes.length s.initNodes s.initQC s.initGraph = .ok gf1
      ∨ Run s s.initNodes s.initQC s.initGraph gf1)
    (h2 : s.dijkstraLoop s.initNodes.length s.initNodes s.initQC s.initGraph = .ok gf2
      ∨ Run s s.initNodes s.initQC s.initGraph gf2) :
    (∀ j, effective_distance (gf1.getD j none) = effective_distance (gf2.getD j none))
    ∧ ((s.possible_goal_nodes gf1).map Prod.snd).min?
        = ((s.possible_goal_nodes gf2).map Prod.snd).min?
    ∧ ∀ (q1 q2 : List GraphNode), q1.Perm q2 →
        ∀ (fuel1 fuel2 : Nat) (acc r1 r2 : Finset Point),
          s.walk gf1 fuel1 q1 acc = some r1 →
          s.walk gf2 fuel2 q2 acc = some r2 →
          r1 = r2 := by
  have hr1 : Run s s.initNodes s.initQC s.initGraph gf1 :=
    h1.elim (fun h => dijkstraLoop_run s s.initNodes.length _ _ _ _ h) id
  have hr2 : Run s s.initNodes s.initQC s.initGraph gf2 :=
    h2.elim (fun h => dijkstraLoop_run s s.initNodes.length _ _ _ _ h) id
  obtain ⟨⟨qc1, hinv1⟩, hinvP1⟩ :=
    Run_inv s _ _ _ _ hr1 (init_inv s) (init_invP s)
  obtain ⟨⟨qc2, hinv2⟩, hinvP2⟩ :=
    Run_inv s _ _ _ _ hr2 (init_inv s) (init_invP s)
  have hagree := final_eff_agree s qc1 qc2 gf1 gf2 hinv1 hinvP1 hinv2 hinvP2
  refine ⟨hagree, ?_, ?_⟩
  · have hpg : s.possible_goal_nodes gf1 = s.possible_goal_nodes gf2 := by
      unfold State.possible_goal_nodes
      refine List.map_congr_left ?_
      intro node hnode
      rw [hagree (node.index s.width s.height)]
    rw [hpg]
  · intro q1 q2 hperm fuel1 fuel2 acc r1 r2 hw1 hw2
    have hs1 := walk_spec s gf1 fuel1 q1 acc r1 hw1
    have hs2 := walk_spec s gf2 fuel2 q2 acc r2 hw2
    have hws : walkSet gf1 s.width s.height q1 = walkSet gf2 s.width s.height q2 := by
      rw [final_walkSet_agree s qc1 qc2 gf1 gf2 hinv1 hinvP1 hinv2 hinvP2 q1]
      exact walkSet_perm gf2 s.width s.height hperm
    apply Finset.coe_injective
    rw [hs1, hs2, hws]

end Day16b

namespace Day16b

/-- A one-cell maze: start and goal coincide, the four oriented nodes are
connected by rotation edges only, and the costs 1000 to `Up`/`Down` tie. -/
def squareOne : State := ⟨1, 1, [Cell.Empty], ⟨0, 0⟩, ⟨0, 0⟩⟩

/-- The record table the code's own loop produces on `squareOne` (the
`max_by` tie-break extracts `Up` before `Down`, so the `Left` record lists
`Up` first). -/
def squareOneRef : List (Option PathElement) :=
  [some (.Element 2000 [⟨⟨0, 0⟩, Direction.Up⟩, ⟨⟨0, 0⟩, Direction.Down⟩]),
    some .Start,
    some (.Element 1000 [⟨⟨0, 0⟩, Direction.Right⟩]),
    some (.Element 1000 [⟨⟨0, 0⟩, Direction.Right⟩])]

/-- The record table of the run that breaks the `Up`/`Down` tie the other
way: the `Left` record lists `Down` first.  Same distances, same
predecessor sets, different list. -/
def squareOneAlt : List (Option PathElement) :=
  [some (.Element 2000 [⟨⟨0, 0⟩, Direction.Down⟩, ⟨⟨0, 0⟩, Direction.Up⟩]),
    some .Start,
    some (.Element 1000 [⟨⟨0, 0⟩, Direction.Right⟩]),
    some (.Element 1000 [⟨⟨0, 0⟩, Direction.Right⟩])]

/-- The tie-permuted run is a `Run`: extract `Right`, then `Down` (the
code would take `Up`), then `Up`, then `Left`. -/
theorem squareOne_runB : Run squareOne squareOne.initNodes squareOne.initQC
    squareOne.initGraph squareOneAlt := by
  refine Run.step 1 ⟨⟨0, 0⟩, Direction.Right⟩ rfl (by decide) rfl rfl ?_
  refine Run.step 1 ⟨⟨0, 0⟩, Direction.Down⟩ rfl (by decide) rfl rfl ?_
  refine Run.step 1 ⟨⟨0, 0⟩, Direction.Up⟩ rfl (by decide) rfl rfl ?_
  refine Run.step 0 ⟨⟨0, 0⟩, Direction.Left⟩ rfl (by decide) rfl rfl ?_
  exact Run.done _ _

end Day16b

namespace Day16b

/-- Witness for C5: on the one-cell maze the code's run and the
tie-permuted run produce different record tables (`Up`/`Down` swapped in
one predecessor list), yet the theorem yields equal distances at the
swapped index, an equal reported minimum goal distance, and equal walk
results. -/
theorem engine_deterministic_witness :
    squareOneRef ≠ squareOneAlt
    ∧ effective_distance (squareOneRef.getD 0 none)
        = effective_distance (squareOneAlt.getD 0 none)
    ∧ ((squareOne.possible_goal_nodes squareOneRef).map Prod.snd).min?
        = ((squareOne.possible_goal_nodes squareOneAlt).map Prod.snd).min?
    ∧ ({⟨0, 0⟩} : Finset Point) = {⟨0, 0⟩} := by
  obtain ⟨ha, hb, hc⟩ := engine_deterministic squareOne squareOneRef squareOneAlt
    (Or.inl rfl) (Or.inr squareOne_runB)
  refine ⟨by decide, ha 0, hb, ?_⟩
  exact hc [⟨⟨0, 0⟩, Direction.Right⟩] [⟨⟨0, 0⟩, Direction.Right⟩] (List.Perm.refl _)
    1 1 {⟨0, 0⟩} {⟨0, 0⟩} {⟨0, 0⟩} (by decide) (by decide)

end Day16b
